import Mathlib

/-!
# spry: the channel (`src/chan.h`), the asset cache (`src/assets.cpp`), frame pacing

A shallow embedding of `Chan<T>` (growable ring buffer), of the asset table with its loader
and hot-reload monitor, and of the loop of `frame()` in `src/main.cpp` that normalises the time
accumulator, followed by the properties proved about them.

Conventions of the embedding:

* `u64` values are natural numbers; every `u64` operation that can wrap is written with an
  explicit reduction modulo `2 ^ 64`.
* Heap blocks are lists of cells, one cell per item of type `T`; a cell is `none` while it is
  uninitialised.  `sizeof(T)` is the parameter `sizeof_T`; byte counts are the wrapping `u64`
  products the code computes, and a block of `n` bytes has `n / sizeof_T` cells.  An access
  outside a block, a copy that ends inside a cell, a read of an uninitialised cell and a
  division by zero are reported as a `Fault` instead of being given a meaning.
* Locks, condition variables and profiling scopes are not represented: a critical section
  is one atomic step, which is what the lock around it provides.  A thread that waits on the
  condition variable of a channel takes steps that change nothing (`Chan.run_wait`).  The
  loader and the monitor of the asset cache are run under every schedule of their critical
  sections (`sys_step`); where a property does not depend on what happens in between, a whole
  call of `asset_load` and a whole iteration of the monitor are taken as one step.
-/

namespace Spry

/-! # Part I: the embedding

## `u64` arithmetic -/

/-- The number of values of a `u64`. -/
def U64 : Nat := 2 ^ 64

/-- Wrapping `u64` addition. -/
def u64_add (a b : Nat) : Nat := (a + b) % U64

/-- Wrapping `u64` subtraction. -/
def u64_sub (a b : Nat) : Nat := (a + U64 - b % U64) % U64

/-- Wrapping `u64` multiplication. -/
def u64_mul (a b : Nat) : Nat := (a * b) % U64

/-! ## `Chan<T>` -/

/-- Ways in which a channel operation fails to return a value. -/
inductive Fault where
  /-- `recv` on an empty channel: the caller waits on the condition variable. -/
  | blocks
  /-- An index outside the allocated block. -/
  | out_of_bounds
  /-- A copy of a number of bytes that is no multiple of `sizeof(T)`. -/
  | torn_cell
  /-- A read of a cell that was never written. -/
  | uninitialised
  /-- The operand of `%` is zero. -/
  | div_by_zero
  deriving DecidableEq, Repr

/-- The fields of `Chan<T>` other than the mutex and the condition variable.  `data` is the
allocated block (`nullptr` is the empty block). -/
structure Chan (T : Type) where
  data : List (Option T) := []
  front : Nat := 0
  back : Nat := 0
  len : Nat := 0
  capacity : Nat := 0
  deriving DecidableEq, Repr

/-- Result of `mem_alloc(bytes)`, used as a block of items of type `T`: a block of `bytes`
bytes, which has room for `bytes / sizeof(T)` cells, all uninitialised.  `mem_alloc` is
declared in `prelude.h`, which is not among the sources; it is taken to return a block of the
size it is asked for. -/
def mem_alloc (T : Type) (sizeof_T bytes : Nat) : List (Option T) :=
  List.replicate (bytes / sizeof_T) none

/-- Effect of `memcpy(&dst[d], &src[s], bytes)` on blocks of cells of `sizeof_T` bytes: the
`bytes / sizeof_T` cells from `src[s]` on are copied to `dst[d]` and the cells after it. -/
def memcpy {T : Type} (sizeof_T : Nat) (dst : List (Option T)) (d : Nat)
    (src : List (Option T)) (s bytes : Nat) : Except Fault (List (Option T)) :=
  if bytes % sizeof_T ≠ 0 then
    .error .torn_cell
  else if s + bytes / sizeof_T ≤ src.length ∧ d + bytes / sizeof_T ≤ dst.length then
    .ok (dst.take d ++ (src.drop s).take (bytes / sizeof_T) ++ dst.drop (d + bytes / sizeof_T))
  else
    .error .out_of_bounds

/-- Embedding of `Chan::reserve`, for items of `sizeof_T` bytes. -/
def Chan.reserve {T : Type} (c : Chan T) (sizeof_T cap : Nat) : Except Fault (Chan T) :=
  if cap ≤ c.capacity then
    .ok c
  else
    let buf := mem_alloc T sizeof_T (u64_mul sizeof_T cap)
    let lhs := c.back
    let rhs := u64_sub c.capacity c.front
    match memcpy sizeof_T buf 0 c.data c.front (u64_mul sizeof_T rhs) with
    | .error e => .error e
    | .ok buf1 =>
      match memcpy sizeof_T buf1 rhs c.data 0 (u64_mul sizeof_T lhs) with
      | .error e => .error e
      | .ok buf2 =>
        .ok { data := buf2, front := 0, back := c.len, len := c.len, capacity := cap }

/-- The part of `Chan::send` after the growth check: store the item at `back` and advance. -/
def Chan.push {T : Type} (c : Chan T) (item : T) : Except Fault (Chan T) :=
  if c.data.length ≤ c.back then
    .error .out_of_bounds
  else if c.capacity = 0 then
    .error .div_by_zero
  else
    .ok { c with
      data := c.data.set c.back (some item)
      back := u64_add c.back 1 % c.capacity
      len := u64_add c.len 1 }

/-- Embedding of `Chan::send`, for items of `sizeof_T` bytes. -/
def Chan.send {T : Type} (c : Chan T) (sizeof_T : Nat) (item : T) : Except Fault (Chan T) :=
  if c.len = c.capacity then
    match c.reserve sizeof_T (if c.len > 0 then u64_mul c.len 2 else 8) with
    | .error e => .error e
    | .ok c1 => c1.push item
  else
    c.push item

/-- Embedding of `Chan::recv`.  With `len == 0` the call waits; that is the fault
`blocks`. -/
def Chan.recv {T : Type} (c : Chan T) : Except Fault (T × Chan T) :=
  if c.len = 0 then
    .error .blocks
  else
    match c.data[c.front]? with
    | none => .error .out_of_bounds
    | some none => .error .uninitialised
    | some (some item) =>
      if c.capacity = 0 then
        .error .div_by_zero
      else
        .ok (item, { c with
          front := u64_add c.front 1 % c.capacity
          len := u64_sub c.len 1 })

/-- A call made on a channel. -/
inductive ChanOp (T : Type) where
  | send (item : T)
  | recv
  deriving DecidableEq, Repr

/-- The items of the `send` calls of a sequence of calls, in order. -/
def ChanOp.sent {T : Type} : List (ChanOp T) → List T
  | [] => []
  | .send x :: ops => x :: ChanOp.sent ops
  | .recv :: ops => ChanOp.sent ops

/-- The number of `recv` calls of a sequence of calls. -/
def ChanOp.recvs {T : Type} : List (ChanOp T) → Nat
  | [] => 0
  | .send _ :: ops => ChanOp.recvs ops
  | .recv :: ops => ChanOp.recvs ops + 1

/-- Runs a sequence of calls on a channel of items of `sizeof_T` bytes, one after the other,
and collects the values the `recv` calls return.  The run stops at the first call that
faults. -/
def Chan.run {T : Type} (sizeof_T : Nat) : Chan T → List (ChanOp T) → Except Fault (Chan T × List T)
  | c, [] => .ok (c, [])
  | c, .send x :: ops =>
    match c.send sizeof_T x with
    | .error e => .error e
    | .ok c1 => Chan.run sizeof_T c1 ops
  | c, .recv :: ops =>
    match c.recv with
    | .error e => .error e
    | .ok (x, c1) =>
      match Chan.run sizeof_T c1 ops with
      | .error e => .error e
      | .ok (c2, out) => .ok (c2, x :: out)

/-- Runs a schedule of calls on a channel shared by threads, each call being one critical
section under the mutex.  A `recv` entry is the consumer holding the mutex in the loop
`while (len == 0) cv.wait(&mtx)`: with `len == 0` it goes on waiting, nothing is returned and
the state stays as it is; otherwise the call takes the oldest item and returns it.  The run
stops at the first call that faults in another way. -/
def Chan.run_wait {T : Type} (sizeof_T : Nat) :
    Chan T → List (ChanOp T) → Except Fault (Chan T × List T)
  | c, [] => .ok (c, [])
  | c, .send x :: ops =>
    match c.send sizeof_T x with
    | .error e => .error e
    | .ok c1 => Chan.run_wait sizeof_T c1 ops
  | c, .recv :: ops =>
    match c.recv with
    | .error .blocks => Chan.run_wait sizeof_T c ops
    | .error e => .error e
    | .ok (x, c1) =>
      match Chan.run_wait sizeof_T c1 ops with
      | .error e => .error e
      | .ok (c2, out) => .ok (c2, x :: out)

/-- `c.Holds q`: the state `c` is well formed and the items it queues are `q`, oldest
first. -/
def Chan.Holds {T : Type} (c : Chan T) (q : List T) : Prop :=
  c.data.length = c.capacity ∧ c.capacity < U64 ∧ c.len = q.length ∧ c.len ≤ c.capacity ∧
  (c.front < c.capacity ∨ (c.capacity = 0 ∧ c.front = 0)) ∧
  c.back = (c.front + c.len) % c.capacity ∧
  ∀ i, i < q.length → c.data[(c.front + i) % c.capacity]? = some q[i]?

/-- Whether every `recv` of a sequence of calls is issued at a moment when `len > 0`, the
calls being made one after the other on the channel. -/
def Chan.recvReady {T : Type} (sizeof_T : Nat) : Chan T → List (ChanOp T) → Bool
  | _, [] => true
  | c, .send x :: ops =>
    match c.send sizeof_T x with
    | .error _ => true
    | .ok c1 => Chan.recvReady sizeof_T c1 ops
  | c, .recv :: ops =>
    decide (0 < c.len) &&
      match c.recv with
      | .error _ => true
      | .ok (_, c1) => Chan.recvReady sizeof_T c1 ops

/-- The two initially empty channels: the zero-initialised `Chan` (capacity 0), and the
same after `reserve(8)` (capacity 8). -/
def Chan.isFresh {T : Type} (sizeof_T : Nat) (c : Chan T) : Prop :=
  c = {} ∨ ({} : Chan T).reserve sizeof_T 8 = .ok c

/-- An atomic step on a channel shared by `N` producers and one consumer: a `send` call of a
producer, or the consumer holding the mutex inside `recv`. -/
inductive Call (N : Nat) (T : Type) where
  | send (producer : Fin N) (item : T)
  | recv

/-- The channel operation a call performs. -/
def Call.op {N : Nat} {T : Type} : Call N T → ChanOp T
  | .send _ x => .send x
  | .recv => .recv

/-- The items producer `p` sends in a schedule, in the order of its calls. -/
def Call.sentBy {N : Nat} {T : Type} (p : Fin N) : List (Call N T) → List T
  | [] => []
  | .send q x :: cs => if q = p then x :: Call.sentBy p cs else Call.sentBy p cs
  | .recv :: cs => Call.sentBy p cs

/-! ## The asset table (`src/assets.cpp`) -/

/-- Modelled from the spec: the enum `AssetKind` is declared in `assets.h`, which is not among
the sources.  The spec names the four kinds of content (script reference, image, sprite, tile
map); they are the case labels of the two `switch` statements of `assets.cpp`.  `None` stands
for every other value, the one of a zero-initialised `Asset` included: it takes the `default`
branch. -/
inductive AssetKind where
  | None
  | LuaRef
  | Image
  | Sprite
  | Tilemap
  deriving DecidableEq, Repr

/-- The fields `image_load` fills in (`src/image.cpp`). -/
structure Image where
  id : Nat
  width : Int
  height : Int
  deriving DecidableEq, Repr

/-- Modelled from the spec: the payload of an `Asset`, "a tagged union over ScriptRef, Image,
Sprite, Tilemap".  The union is declared in `assets.h`, which is not among the sources; its
members are the fields `lua_ref`, `image`, `sprite` and `tilemap` that `assets.cpp` accesses.
The types of sprite data and of tile maps are parameters `S` and `M`.  `zero` is the content
of a zero-initialised union.  A member read through another tag is not given a meaning: the
calls that release a payload receive the stored union as it is. -/
inductive Payload (S M : Type) where
  | zero
  | lua_ref (ref : Int)
  | image (img : Image)
  | sprite (data : S)
  | tilemap (map : M)
  deriving DecidableEq, Repr

/-- Modelled from the spec: the record `Asset` (key, canonical path, kind, last modification
time, payload).  The struct is declared in `assets.h`, which is not among the sources; the
field names are the ones `assets.cpp` uses. -/
structure Asset (S M : Type) where
  name : String := ""
  hash : Nat := 0
  modtime : Nat := 0
  kind : AssetKind := .None
  payload : Payload S M := .zero
  deriving DecidableEq, Repr

/-- Embedding of `struct FileChange`. -/
structure FileChange where
  key : Nat
  modtime : Nat
  deriving DecidableEq, Repr

/-- Modelled from the spec: `HashMap<T>` is declared in a header that is not among the
sources.  The spec describes the table as "a mapping from a 64-bit content key to an Asset
record" with "insert or overwrite by key"; it is represented by its entries in iteration
order. -/
abbrev HashMap (α : Type) := List (Nat × α)

/-- Modelled from the spec: `hashmap_get`, the record stored under `key`, if any. -/
def hashmap_get {α : Type} : HashMap α → Nat → Option α
  | [], _ => none
  | (k, v) :: m, key => if k = key then some v else hashmap_get m key

/-- Modelled from the spec: `map[key] = value`, "insert or overwrite by key". -/
def HashMap.set {α : Type} : HashMap α → Nat → α → HashMap α
  | [], key, value => [(key, value)]
  | (k, v) :: m, key, value =>
    if k = key then (key, value) :: m else (k, v) :: HashMap.set m key value

/-- The fields of `struct Assets` other than the locks, the condition variable and the
thread handle. -/
structure Assets (S M : Type) where
  table : HashMap (Asset S M) := []
  shutdown : Bool := false
  changes : List FileChange := []
  deriving DecidableEq, Repr

/-- The collaborators of the cache at one moment: the file system and the decoders.
`image_load`, `sprite_data_load` and `tilemap_load` give `none` when they return `false`
and the decoded value they store through their first argument otherwise. -/
structure Env (S M : Type) where
  os_file_modtime : String → Nat
  luax_require_script : String → Int
  image_load : String → Option Image
  sprite_data_load : String → Option S
  tilemap_load : String → Option M

/-- The constant `LUA_REFNIL` of the Lua auxiliary library. -/
def LUA_REFNIL : Int := -1

/-- A call that leaves the cache core, or a write to the table, in the order made. -/
inductive Event (S M : Type) where
  | os_file_modtime (name : String)
  | luaL_unref (old : Payload S M)
  | luax_require_script (path : String)
  | image_trash (old : Payload S M)
  | image_load (path : String)
  | sprite_data_trash (old : Payload S M)
  | sprite_data_load (path : String)
  | tilemap_trash (old : Payload S M)
  | tilemap_load (path : String)
  | asset_write (asset : Asset S M)
  | fatal_error (msg : String)
  | printf (msg : String)
  deriving DecidableEq, Repr

/-- Whether an event is a call of one of the four decoders. -/
def Event.isDecode {S M : Type} : Event S M → Bool
  | .luax_require_script _ => true
  | .image_load _ => true
  | .sprite_data_load _ => true
  | .tilemap_load _ => true
  | _ => false

/-- Whether an event is a call of a decoder on the file `name`. -/
def Event.isDecodeOf {S M : Type} (name : String) : Event S M → Bool
  | .luax_require_script p => p == name
  | .image_load p => p == name
  | .sprite_data_load p => p == name
  | .tilemap_load p => p == name
  | _ => false

/-- Embedding of `asset_read`: `none` is the return value `false`. -/
def asset_read {S M : Type} (g : Assets S M) (key : Nat) : Option (Asset S M) :=
  hashmap_get g.table key

/-- Embedding of `asset_write`. -/
def asset_write {S M : Type} (g : Assets S M) (asset : Asset S M) : Assets S M :=
  { g with table := g.table.set asset.hash asset }

/-- What a call of `asset_load` leaves behind: `out = some a` is the return value `true` with
`a` stored through `out`, `out = none` is the return value `false`. -/
structure Loaded (S M : Type) where
  out : Option (Asset S M)
  assets : Assets S M
  log : List (Event S M)

/-- Embedding of the block "load new asset" of `asset_load`, entered on a miss. -/
def asset_load_new {S M : Type} (env : Env S M) (g : Assets S M) (kind : AssetKind)
    (filepath : String) (key : Nat) : Loaded S M :=
  let asset : Asset S M :=
    { name := filepath, hash := key, modtime := env.os_file_modtime filepath, kind := kind }
  match kind with
  | .LuaRef =>
    let asset1 := { asset with payload := .lua_ref LUA_REFNIL }
    let g1 := asset_write g asset1
    let asset2 := { asset1 with payload := .lua_ref (env.luax_require_script filepath) }
    { out := some asset2
      assets := asset_write g1 asset2
      log := [.os_file_modtime filepath, .asset_write asset1, .luax_require_script filepath,
        .asset_write asset2] }
  | .Image =>
    match env.image_load filepath with
    | none => { out := none, assets := g, log := [.os_file_modtime filepath, .image_load filepath] }
    | some img =>
      let asset1 := { asset with payload := .image img }
      { out := some asset1
        assets := asset_write g asset1
        log := [.os_file_modtime filepath, .image_load filepath, .asset_write asset1] }
  | .Sprite =>
    match env.sprite_data_load filepath with
    | none =>
      { out := none, assets := g, log := [.os_file_modtime filepath, .sprite_data_load filepath] }
    | some data =>
      let asset1 := { asset with payload := .sprite data }
      { out := some asset1
        assets := asset_write g asset1
        log := [.os_file_modtime filepath, .sprite_data_load filepath, .asset_write asset1] }
  | .Tilemap =>
    match env.tilemap_load filepath with
    | none =>
      { out := none, assets := g, log := [.os_file_modtime filepath, .tilemap_load filepath] }
    | some map =>
      let asset1 := { asset with payload := .tilemap map }
      { out := some asset1
        assets := asset_write g asset1
        log := [.os_file_modtime filepath, .tilemap_load filepath, .asset_write asset1] }
  | .None => { out := none, assets := g, log := [.os_file_modtime filepath] }

/-- Embedding of `asset_load`.  `fnv1a` is the hash of `prelude.h`, which is not among the
sources: it is a parameter. -/
def asset_load {S M : Type} (fnv1a : String → Nat) (env : Env S M) (g : Assets S M)
    (kind : AssetKind) (filepath : String) : Loaded S M :=
  let key := fnv1a filepath
  match asset_read g key with
  | some asset => { out := some asset, assets := g, log := [] }
  | none => asset_load_new env g kind filepath key

/-- How one pass through code of `hot_reload_thread` ends. -/
inductive Exit where
  /-- The end of the block is reached: the enclosing loop goes on. -/
  | next
  /-- `return` because of the shutdown flag or of a signaled wait. -/
  | returned
  /-- `fatal_error(...)` followed by `return`. -/
  | fatal
  /-- `assert(exists)` fails. -/
  | assert_failed
  deriving DecidableEq, Repr

/-- What a part of `hot_reload_thread` leaves behind. -/
structure Cycle (S M : Type) where
  assets : Assets S M
  log : List (Event S M)
  exit : Exit

/-- The change the polling loop pushes for one table entry, if any. -/
def poll_entry {S M : Type} (env : Env S M) (v : Asset S M) : Option FileChange :=
  let modtime := env.os_file_modtime v.name
  if modtime > v.modtime then some { key := v.hash, modtime := modtime } else none

/-- The content of `g_assets.changes` after the block "check for updates": the list is
emptied, then the table is iterated. -/
def poll_changes {S M : Type} (env : Env S M) (table : HashMap (Asset S M)) : List FileChange :=
  table.filterMap fun kv => poll_entry env kv.2

/-- The calls of `os_file_modtime` the block "check for updates" makes. -/
def poll_log {S M : Type} (table : HashMap (Asset S M)) : List (Event S M) :=
  table.map fun kv => .os_file_modtime kv.2.name

/-- The end of the body of the loop over the changes, after a successful reload of `a`. -/
def reload_commit {S M : Type} (g : Assets S M) (a : Asset S M) (calls : List (Event S M)) :
    Cycle S M :=
  { assets := asset_write g a
    log := calls ++ [.asset_write a, .printf ("reloaded: " ++ a.name ++ "\n")]
    exit := .next }

/-- The end of the body of the loop over the changes, after a failed reload of `a`. -/
def reload_abort {S M : Type} (g : Assets S M) (a : Asset S M) (calls : List (Event S M)) :
    Cycle S M :=
  { assets := g
    log := calls ++ [.fatal_error ("failed to hot reload: " ++ a.name)]
    exit := .fatal }

/-- Embedding of the body of the loop `for (FileChange change : g_assets.changes)`. -/
def reload_entry {S M : Type} (env : Env S M) (g : Assets S M) (change : FileChange) :
    Cycle S M :=
  match asset_read g change.key with
  | none => { assets := g, log := [], exit := .assert_failed }
  | some a0 =>
    let a := { a0 with modtime := change.modtime }
    match a.kind with
    | .LuaRef =>
      reload_commit g { a with payload := .lua_ref (env.luax_require_script a.name) }
        [.luaL_unref a.payload, .luax_require_script a.name]
    | .Image =>
      match env.image_load a.name with
      | none => reload_abort g a [.image_trash a.payload, .image_load a.name]
      | some img =>
        reload_commit g { a with payload := .image img }
          [.image_trash a.payload, .image_load a.name]
    | .Sprite =>
      match env.sprite_data_load a.name with
      | none => reload_abort g a [.sprite_data_trash a.payload, .sprite_data_load a.name]
      | some data =>
        reload_commit g { a with payload := .sprite data }
          [.sprite_data_trash a.payload, .sprite_data_load a.name]
    | .Tilemap =>
      match env.tilemap_load a.name with
      | none => reload_abort g a [.tilemap_trash a.payload, .tilemap_load a.name]
      | some map =>
        reload_commit g { a with payload := .tilemap map }
          [.tilemap_trash a.payload, .tilemap_load a.name]
    | .None => { assets := g, log := [], exit := .next }

/-- Embedding of the loop `for (FileChange change : g_assets.changes)` of the block
"perform hot reload". -/
def apply_changes {S M : Type} (env : Env S M) : Assets S M → List FileChange → Cycle S M
  | g, [] => { assets := g, log := [], exit := .next }
  | g, change :: rest =>
    let r := reload_entry env g change
    match r.exit with
    | .next =>
      let r2 := apply_changes env r.assets rest
      { assets := r2.assets, log := r.log ++ r2.log, exit := r2.exit }
    | _ => r

/-- Embedding of the body of `while (true)` in `hot_reload_thread`.  `signaled` is the value
`cond_timed_wait` returns if it is called.  The exit `next` means that the loop goes on to
its next iteration. -/
def hot_reload_iteration {S M : Type} (env : Env S M) (signaled : Bool) (g : Assets S M) :
    Cycle S M :=
  if g.shutdown then
    { assets := g, log := [], exit := .returned }
  else if signaled then
    { assets := g, log := [], exit := .returned }
  else
    let g1 := { g with changes := poll_changes env g.table }
    if g1.changes.length > 0 then
      let r := apply_changes env g1 g1.changes
      { r with log := poll_log g.table ++ r.log }
    else
      { assets := g1, log := poll_log g.table, exit := .next }

/-- Embedding of the part of `assets_shutdown` that requests the end of the thread: the flag
is set under the mutex.  (The signal is the `signaled` result of the wait.) -/
def assets_shutdown {S M : Type} (g : Assets S M) : Assets S M :=
  { g with shutdown := true }

/-- The invariant of the tables the cache builds: no key occurs twice, and every record is
stored under its own `hash`, which is the hash of its `name`. -/
def TableInv {S M : Type} (fnv1a : String → Nat) (g : Assets S M) : Prop :=
  (g.table.map Prod.fst).Nodup ∧ ∀ k a, (k, a) ∈ g.table → a.hash = k ∧ fnv1a a.name = k

/-! ## Notions used in the statements -/

/-- Whether decoding the file `path` as content of kind `kind` fails.  For images, sprites and
tile maps the loader returns `false`.  For scripts `luax_require_script` has no result that
`assets.cpp` looks at; a failed script is taken to be one for which it returns `LUA_REFNIL`,
the reference `asset_load` itself stores while no module is loaded.  There is no decoder for
`AssetKind.None`. -/
def decode_fails {S M : Type} (env : Env S M) (kind : AssetKind) (path : String) : Bool :=
  match kind with
  | .LuaRef => env.luax_require_script path == LUA_REFNIL
  | .Image => (env.image_load path).isNone
  | .Sprite => (env.sprite_data_load path).isNone
  | .Tilemap => (env.tilemap_load path).isNone
  | .None => false

/-- The payload the decoder of the kind of `a` produces from the present content of the file
of `a`, if it produces one. -/
def redecode {S M : Type} (env : Env S M) (a : Asset S M) : Option (Payload S M) :=
  match a.kind with
  | .LuaRef => some (.lua_ref (env.luax_require_script a.name))
  | .Image => (env.image_load a.name).map .image
  | .Sprite => (env.sprite_data_load a.name).map .sprite
  | .Tilemap => (env.tilemap_load a.name).map .tilemap
  | .None => none

/-- Whether the file of the record `a` is newer than the record. -/
def is_stale {S M : Type} (env : Env S M) (a : Asset S M) : Bool :=
  decide (env.os_file_modtime a.name > a.modtime)

/-- Whether an event is a write to the table. -/
def Event.isWrite {S M : Type} : Event S M → Bool
  | .asset_write _ => true
  | _ => false

/-- The statement of C3 at one input: two calls of `asset_load(kind, path)` in a row, against
the same files, make one decoder call in all, the second call makes none, both return `true`
with equal records, and the second leaves the table as the first left it. -/
def IdempotentLoad {S M : Type} (fnv1a : String → Nat)
    (env : Env S M) (g : Assets S M) (kind : AssetKind) (path : String) : Prop :=
  ((asset_load fnv1a env g kind path).log ++
      (asset_load fnv1a env (asset_load fnv1a env g kind path).assets kind path).log).countP
    Event.isDecode = 1 ∧
  (asset_load fnv1a env (asset_load fnv1a env g kind path).assets kind path).log.countP
    Event.isDecode = 0 ∧
  (asset_load fnv1a env g kind path).out.isSome = true ∧
  (asset_load fnv1a env (asset_load fnv1a env g kind path).assets kind path).out
    = (asset_load fnv1a env g kind path).out ∧
  (asset_load fnv1a env (asset_load fnv1a env g kind path).assets kind path).assets
    = (asset_load fnv1a env g kind path).assets

/-- The statement of C5 at one input: if the key of `path` is not in the table and decoding
fails, `asset_load` returns `false` and leaves the table as it was, without a record for the
key. -/
def FirstLoadFailureAtomic {S M : Type} (fnv1a : String → Nat) (env : Env S M)
    (g : Assets S M) (kind : AssetKind) (path : String) : Prop :=
  asset_read g (fnv1a path) = none → decode_fails env kind path = true →
    (asset_load fnv1a env g kind path).out = none ∧
    (asset_load fnv1a env g kind path).assets = g ∧
    asset_read (asset_load fnv1a env g kind path).assets (fnv1a path) = none

/-- The first half of the statement of C4 at one record: if `a` is stored, the modtime of its
file is observed greater than the stored one and re-decoding it succeeds with payload `p`,
then after one iteration of `hot_reload_thread` (polling and apply) `asset_read` returns `a`
with the modtime of the file and the payload `p`. -/
def HotReloadTakesEffect {S M : Type} (env : Env S M) (g : Assets S M) (a : Asset S M)
    (p : Payload S M) : Prop :=
  asset_read g a.hash = some a → is_stale env a = true → redecode env a = some p →
    asset_read (hot_reload_iteration env false g).assets a.hash
      = some { a with modtime := env.os_file_modtime a.name, payload := p }

/-- The statement of C6 at one entry: when the apply phase comes to the change `change` with
the table in state `g` and `rest` still to do, `a` is the record of the change and re-decoding
it fails, then the thread returns after a fatal error that names the path of the record, the
log has no table write and nothing for `rest`, and the table is as it was. -/
def ReloadFailureFatal {S M : Type} (env : Env S M) (g : Assets S M) (change : FileChange)
    (rest : List FileChange) (a : Asset S M) : Prop :=
  asset_read g change.key = some a → decode_fails env a.kind a.name = true →
    (apply_changes env g (change :: rest)).exit = .fatal ∧
    (apply_changes env g (change :: rest)).log.getLast?
      = some (.fatal_error ("failed to hot reload: " ++ a.name)) ∧
    (apply_changes env g (change :: rest)).log.all (fun e => !e.isWrite) = true ∧
    (apply_changes env g (change :: rest)).log = (reload_entry env g change).log ∧
    (apply_changes env g (change :: rest)).assets = g

/-- Whether every write of a log, replayed in order from the state `g`, stores a modtime
strictly greater than the one stored under its key at that moment. -/
def writes_increase {S M : Type} : Assets S M → List (Event S M) → Bool
  | _, [] => true
  | g, .asset_write a :: l =>
    (match asset_read g a.hash with
      | some old => decide (old.modtime < a.modtime)
      | none => false) && writes_increase (asset_write g a) l
  | g, _ :: l => writes_increase g l

/-- An operation of the cache core, taken as one atomic step: a call of `asset_load`, or one
iteration of the loop of `hot_reload_thread`, each against the files of its moment. -/
inductive CoreOp (S M : Type) where
  | load (env : Env S M) (kind : AssetKind) (path : String)
  | cycle (env : Env S M) (signaled : Bool)

/-- The state after one operation of the core. -/
def core_step {S M : Type} (fnv1a : String → Nat) (g : Assets S M) : CoreOp S M → Assets S M
  | .load env kind path => (asset_load fnv1a env g kind path).assets
  | .cycle env signaled => (hot_reload_iteration env signaled g).assets

/-- The state after a sequence of operations of the core. -/
def core_run {S M : Type} (fnv1a : String → Nat) (g : Assets S M) (ops : List (CoreOp S M)) :
    Assets S M :=
  ops.foldl (core_step fnv1a) g

/-- The two calls the apply phase makes for a record of a kind that has a decoder: the release
of the stored payload, then the decoder. -/
def reload_calls {S M : Type} (a : Asset S M) : List (Event S M) :=
  match a.kind with
  | .LuaRef => [.luaL_unref a.payload, .luax_require_script a.name]
  | .Image => [.image_trash a.payload, .image_load a.name]
  | .Sprite => [.sprite_data_trash a.payload, .sprite_data_load a.name]
  | .Tilemap => [.tilemap_trash a.payload, .tilemap_load a.name]
  | .None => []

/-- Every record a lookup returns is stored under its own `hash`, which is the hash of its
`name`. -/
def Keyed {S M : Type} (fnv1a : String → Nat) (g : Assets S M) : Prop :=
  ∀ k a, asset_read g k = some a → a.hash = k ∧ fnv1a a.name = k

/-! ## Frame pacing (`src/main.cpp`) -/

/-- The local `fuzz` of `frame()`: `TICK_US * 100` with `TICK_US = 1000`. -/
def frame_fuzz : Nat := u64_mul 1000 100

/-- The condition of the loop `while (time->accumulator >= target - fuzz)` of `frame()`. -/
def frame_normalise_cond (target accumulator : Nat) : Bool :=
  decide (accumulator ≥ u64_sub target frame_fuzz)

/-- The body of the loop `while (time->accumulator >= target - fuzz)` of `frame()`: the new
value of `time->accumulator`. -/
def frame_normalise_body (target accumulator : Nat) : Nat :=
  if accumulator < u64_add target frame_fuzz then 0
  else u64_sub accumulator (u64_add target frame_fuzz)

/-- Embedding of the loop `while (time->accumulator >= target - fuzz)` of `frame()`, run for
at most `fuel` evaluations of its condition.  The result is the value of `time->accumulator`
when the loop is left, and `none` if the loop is still running when the fuel is used up. -/
def frame_normalise : Nat → Nat → Nat → Option Nat
  | 0, _, _ => none
  | fuel + 1, target, accumulator =>
    if frame_normalise_cond target accumulator then
      frame_normalise fuel target (frame_normalise_body target accumulator)
    else
      some accumulator

/-- The value `sokol_main` stores in `target_ticks` for a configured `target_fps` that is a
whole number other than 0: `1000000000 / target_fps`. -/
def target_ticks_of_fps (target_fps : Nat) : Nat := 1000000000 / target_fps

/-! ## The loader and the monitor, one critical section at a time

`asset_read`, `asset_write` and the block "check for updates" each hold the lock of the table
for their own duration only; between two of them the other thread may run.  The definitions
below cut `asset_load` and the loop of `hot_reload_thread` at these points, and at the calls
of the collaborators in between, each of which sees the files of its own moment. -/

/-- Where the thread that calls `asset_load` stands.  `asset_load` works on the one Lua state
`g_app->L`: its calls are made one after the other, by one thread. -/
inductive LoaderPc (S M : Type) where
  /-- Outside `asset_load`. -/
  | idle
  /-- The call `asset_read(key, &asset)` has returned `false`: at `os_file_modtime`. -/
  | missed (kind : AssetKind) (filepath : String) (key : Nat)
  /-- At `switch (kind)`: `asset` has its name, hash, modtime and kind. -/
  | timed (kind : AssetKind) (filepath : String) (asset : Asset S M)
  /-- In `case AssetKind_LuaRef`, after `asset_write(asset)` with `LUA_REFNIL`: at
  `luax_require_script`. -/
  | lua_written (filepath : String) (asset : Asset S M)
  /-- After the switch, with `ok == true`: at the last `asset_write(asset)`. -/
  | decoded (asset : Asset S M)
  deriving DecidableEq, Repr

/-- Where `hot_reload_thread` stands. -/
inductive MonitorPc (S M : Type) where
  /-- At the top of `while (true)`: at the block with the shutdown flag and the timed wait. -/
  | waiting
  /-- At the block "check for updates". -/
  | polling
  /-- In `for (FileChange change : g_assets.changes)`, with `rest` still to do: at
  `asset_read(change.key, &a)`, or at the end of the loop when `rest` is empty. -/
  | applying (rest : List FileChange)
  /-- After `a.modtime = change.modtime`: at `switch (a.kind)`. -/
  | holding (a : Asset S M) (rest : List FileChange)
  /-- After the switch, with `ok == true`: at `asset_write(a)`. -/
  | reloaded (a : Asset S M) (rest : List FileChange)
  /-- The thread has returned. -/
  | stopped (exit : Exit)
  deriving DecidableEq, Repr

/-- The entry of `asset_load(kind, filepath, out)`: the critical section of
`asset_read(key, &asset)`.  On a hit the call returns at once. -/
def load_call {S M : Type} (fnv1a : String → Nat) (g : Assets S M) (kind : AssetKind)
    (filepath : String) : LoaderPc S M :=
  let key := fnv1a filepath
  match asset_read g key with
  | some _ => .idle
  | none => .missed kind filepath key

/-- The next step of `asset_load` from where the loader stands, against the files `env` of the
moment of the step: one call of a collaborator, or one `asset_write`. -/
def loader_step {S M : Type} (env : Env S M) (g : Assets S M) :
    LoaderPc S M → Assets S M × LoaderPc S M
  | .idle => (g, .idle)
  | .missed kind filepath key =>
    (g, .timed kind filepath
      { name := filepath, hash := key, modtime := env.os_file_modtime filepath, kind := kind })
  | .timed kind filepath asset =>
    match kind with
    | .LuaRef =>
      let asset1 := { asset with payload := .lua_ref LUA_REFNIL }
      (asset_write g asset1, .lua_written filepath asset1)
    | .Image =>
      match env.image_load filepath with
      | none => (g, .idle)
      | some img => (g, .decoded { asset with payload := .image img })
    | .Sprite =>
      match env.sprite_data_load filepath with
      | none => (g, .idle)
      | some data => (g, .decoded { asset with payload := .sprite data })
    | .Tilemap =>
      match env.tilemap_load filepath with
      | none => (g, .idle)
      | some map => (g, .decoded { asset with payload := .tilemap map })
    | .None => (g, .idle)
  | .lua_written filepath asset =>
    (g, .decoded { asset with payload := .lua_ref (env.luax_require_script filepath) })
  | .decoded asset => (asset_write g asset, .idle)

/-- The next step of `hot_reload_thread` from where the monitor stands, against the files
`env` of the moment of the step: the block with the flag and the wait (`signaled` is the
result of the wait), the block "check for updates", one `asset_read`, one call of a decoder,
or one `asset_write`.  The block "check for updates" holds the lock of the table from its
first line to its last and asks for the modtime of each file once, so that one `env` stands
for all its calls of `os_file_modtime`. -/
def monitor_step {S M : Type} (env : Env S M) (signaled : Bool) (g : Assets S M) :
    MonitorPc S M → Assets S M × MonitorPc S M
  | .waiting =>
    if g.shutdown then (g, .stopped .returned)
    else if signaled then (g, .stopped .returned)
    else (g, .polling)
  | .polling =>
    let g1 := { g with changes := poll_changes env g.table }
    if g1.changes.length > 0 then (g1, .applying g1.changes) else (g1, .waiting)
  | .applying [] => (g, .waiting)
  | .applying (change :: rest) =>
    match asset_read g change.key with
    | none => (g, .stopped .assert_failed)
    | some a0 => (g, .holding { a0 with modtime := change.modtime } rest)
  | .holding a rest =>
    match a.kind with
    | .LuaRef =>
      (g, .reloaded { a with payload := .lua_ref (env.luax_require_script a.name) } rest)
    | .Image =>
      match env.image_load a.name with
      | none => (g, .stopped .fatal)
      | some img => (g, .reloaded { a with payload := .image img } rest)
    | .Sprite =>
      match env.sprite_data_load a.name with
      | none => (g, .stopped .fatal)
      | some data => (g, .reloaded { a with payload := .sprite data } rest)
    | .Tilemap =>
      match env.tilemap_load a.name with
      | none => (g, .stopped .fatal)
      | some map => (g, .reloaded { a with payload := .tilemap map } rest)
    | .None => (g, .applying rest)
  | .reloaded a rest => (asset_write g a, .applying rest)
  | .stopped exit => (g, .stopped exit)

/-- The cache, the loader and the monitor at one moment. -/
structure Sys (S M : Type) where
  assets : Assets S M
  loader : LoaderPc S M := .idle
  monitor : MonitorPc S M := .waiting
  deriving DecidableEq, Repr

/-- One step of one thread. -/
inductive Move (S M : Type) where
  /-- The loader thread, outside `asset_load`, calls `asset_load(kind, filepath, out)` and
  runs its `asset_read`. -/
  | load_call (kind : AssetKind) (filepath : String)
  /-- The loader thread takes its next step inside `asset_load`. -/
  | loader (env : Env S M)
  /-- The monitor thread takes its next step. -/
  | monitor (env : Env S M) (signaled : Bool)
  /-- The thread of `assets_shutdown` sets the flag. -/
  | shutdown

/-- The state after one step.  A step of a thread that cannot take it (a new call while the
loader is inside `asset_load`, a step of the loader outside of it, a step of the monitor
after it has returned) leaves the state as it is. -/
def sys_step {S M : Type} (fnv1a : String → Nat) (s : Sys S M) : Move S M → Sys S M
  | .load_call kind filepath =>
    match s.loader with
    | .idle => { s with loader := load_call fnv1a s.assets kind filepath }
    | _ => s
  | .loader env =>
    { s with assets := (loader_step env s.assets s.loader).1
             loader := (loader_step env s.assets s.loader).2 }
  | .monitor env signaled =>
    { s with assets := (monitor_step env signaled s.assets s.monitor).1
             monitor := (monitor_step env signaled s.assets s.monitor).2 }
  | .shutdown => { s with assets := assets_shutdown s.assets }

/-- The state after a schedule of steps. -/
def sys_run {S M : Type} (fnv1a : String → Nat) (s : Sys S M) (sched : List (Move S M)) :
    Sys S M :=
  sched.foldl (sys_step fnv1a) s

/-- The key the loader has written with `LUA_REFNIL` and has still to write again, when it
stands between the two `asset_write` calls of `asset_load` for a `LuaRef`. -/
def LoaderPc.between_writes {S M : Type} : LoaderPc S M → Option Nat
  | .lua_written _ asset => some asset.hash
  | .decoded asset => if asset.kind = .LuaRef then some asset.hash else none
  | _ => none

/-- Whether a step is a write of the apply phase to the key the loader stands between the two
writes of. -/
def apply_write_hits {S M : Type} (s : Sys S M) : Move S M → Bool
  | .monitor _ _ =>
    match s.monitor with
    | .reloaded a _ => decide (s.loader.between_writes = some a.hash)
    | _ => false
  | _ => false

/-- Whether a step is the second `asset_write` of `asset_load` for a `LuaRef`. -/
def second_write {S M : Type} (s : Sys S M) : Move S M → Bool
  | .loader _ =>
    match s.loader with
    | .decoded asset => decide (asset.kind = .LuaRef)
    | _ => false
  | _ => false

/-- Whether the load under way has been hit by a write of the apply phase, after one more
step. -/
def hit_after {S M : Type} (s : Sys S M) (hit : Bool) (m : Move S M) : Bool :=
  if second_write s m then false else hit || apply_write_hits s m

/-- Whether, in the run of a schedule from the state `s`, no write of the apply phase to a key
falls between the two `asset_write` calls of an `asset_load` of that key for a `LuaRef`:
that is, whether no second write of the loader comes after such a write.  `hit` says whether
the load that is under way in `s` has had such a write already. -/
def writes_separated {S M : Type} (fnv1a : String → Nat) :
    Sys S M → Bool → List (Move S M) → Bool
  | _, _, [] => true
  | s, hit, m :: ms =>
    !(second_write s m && hit) &&
      writes_separated fnv1a (sys_step fnv1a s m) (hit_after s hit m) ms

/-- No modtime decreases from `g` to `g1`: every record `asset_read` returns in `g` is still
returned in `g1`, with a modtime that is not smaller. -/
def modtime_le {S M : Type} (g g1 : Assets S M) : Prop :=
  ∀ k a, asset_read g k = some a →
    ∃ a1, asset_read g1 k = some a1 ∧ a.modtime ≤ a1.modtime

/-- The changes the apply phase has still to do: their keys differ, and each of them has a
record stored, with a modtime smaller than the one of the change. -/
def Pending {S M : Type} (g : Assets S M) (rest : List FileChange) : Prop :=
  (rest.map FileChange.key).Nodup ∧
  ∀ c ∈ rest, ∃ old, asset_read g c.key = some old ∧ old.modtime < c.modtime

/-- The record `a` the apply phase works on: it is keyed by the hash of its name, its key is
not among the changes still to do, and the record stored under its key has a smaller
modtime. -/
def Held {S M : Type} (fnv1a : String → Nat) (g : Assets S M) (a : Asset S M)
    (rest : List FileChange) : Prop :=
  fnv1a a.name = a.hash ∧ a.hash ∉ rest.map FileChange.key ∧
  ∃ old, asset_read g a.hash = some old ∧ old.modtime < a.modtime

/-- The record stored under the key of the record `asset` the loader has written once: it has
the modtime of `asset` as long as the apply phase has not written the key (`hit = false`), and
a greater one afterwards. -/
def Written {S M : Type} (g : Assets S M) (hit : Bool) (asset : Asset S M) : Prop :=
  ∃ old, asset_read g asset.hash = some old ∧
    (hit = true → asset.modtime < old.modtime) ∧ (hit = false → old.modtime = asset.modtime)

/-- What holds of the table where the loader stands. -/
def LoaderInv {S M : Type} (fnv1a : String → Nat) (g : Assets S M) (hit : Bool) :
    LoaderPc S M → Prop
  | .idle => hit = false
  | .missed _ filepath key => hit = false ∧ key = fnv1a filepath ∧ asset_read g key = none
  | .timed kind filepath asset =>
    hit = false ∧ asset.name = filepath ∧ asset.hash = fnv1a filepath ∧ asset.kind = kind ∧
    asset_read g asset.hash = none
  | .lua_written filepath asset =>
    asset.name = filepath ∧ asset.hash = fnv1a filepath ∧ asset.kind = .LuaRef ∧
    Written g hit asset
  | .decoded asset =>
    fnv1a asset.name = asset.hash ∧ (asset.kind = .LuaRef → Written g hit asset) ∧
    (asset.kind ≠ .LuaRef → hit = false ∧ asset_read g asset.hash = none)

/-- What holds of the table where the monitor stands. -/
def MonitorInv {S M : Type} (fnv1a : String → Nat) (g : Assets S M) : MonitorPc S M → Prop
  | .applying rest => Pending g rest
  | .holding a rest => Held fnv1a g a rest ∧ Pending g rest
  | .reloaded a rest => Held fnv1a g a rest ∧ Pending g rest
  | _ => True

/-- The invariant of the runs of the loader and the monitor.  `hit` says whether a write of
the apply phase has gone to the key of the load under way since the first write of that
load. -/
def SysInv {S M : Type} (fnv1a : String → Nat) (s : Sys S M) (hit : Bool) : Prop :=
  TableInv fnv1a s.assets ∧ LoaderInv fnv1a s.assets hit s.loader ∧
  MonitorInv fnv1a s.assets s.monitor

/-- The state in which the loader and the monitor start: the loader outside `asset_load`, the
monitor at the top of its loop. -/
def sys_init {S M : Type} (g : Assets S M) : Sys S M :=
  { assets := g, loader := .idle, monitor := .waiting }

/-- The statement of C8 at one schedule, run from the table `g0`: a record `asset_read`
returns at some moment of the run is still returned at its end, with a modtime that is not
smaller. -/
def ModtimeMonotone {S M : Type} (fnv1a : String → Nat) (g0 : Assets S M)
    (sched : List (Move S M)) : Prop :=
  ∀ sched1 sched2, sched = sched1 ++ sched2 → ∀ k a,
    asset_read (sys_run fnv1a (sys_init g0) sched1).assets k = some a →
    ∃ a1, asset_read (sys_run fnv1a (sys_init g0) sched).assets k = some a1 ∧
      a.modtime ≤ a1.modtime

/-- Where the monitor stands after a pass through its loop that ends with `exit`. -/
def exit_pc {S M : Type} : Exit → MonitorPc S M
  | .next => .waiting
  | e => .stopped e

/-! ## Concrete inputs -/

/-- A channel of capacity 8 holding nothing: the zero-initialised `Chan` after
`reserve(8)`. -/
def chan8 : Chan Nat :=
  { data := List.replicate 8 none, front := 0, back := 0, len := 0, capacity := 8 }

/-- Twenty sends of `0, 1, ..., 19` interleaved with receives, made so that a channel of
capacity 8 grows twice with `front` away from 0: three sends and two receives (`front = 2`),
seven sends that fill the ring, a send that grows it to 16, a receive (`front = 1`), eight
sends that fill it again, a send that grows it to 32, and five receives. -/
def ops20 : List (ChanOp Nat) :=
  (List.range 3).map .send ++ [.recv, .recv] ++ (List.range' 3 8).map .send ++ [.recv] ++
    (List.range' 11 9).map .send ++ [.recv, .recv, .recv, .recv, .recv]

/-- The send sequences of two producers. -/
def seqs2 : Fin 2 → List Nat
  | 0 => [1, 2, 3]
  | 1 => [10, 20]

/-- An interleaving of the sends of `seqs2` with mutex acquisitions of the consumer: the
first one and the third one find the channel empty. -/
def sched2 : List (Call 2 Nat) :=
  [.recv, .send 0 1, .recv, .recv, .send 1 10, .send 0 2, .recv, .send 1 20, .send 0 3]

/-- The 64-bit FNV-1a hash of the characters of a string, used as `fnv1a` in the concrete
runs. -/
def fnv1a64 (s : String) : Nat :=
  s.data.foldl (fun h c => ((h ^^^ c.toNat) * 1099511628211) % U64) 14695981039346656037

/-- Files at a first moment: every file has modtime 5; `bad.png` does not decode, and the
script `nil.lua` gives no module. -/
def env_a : Env Nat Nat :=
  { os_file_modtime := fun _ => 5
    luax_require_script := fun p => if p = "nil.lua" then LUA_REFNIL else 3
    image_load := fun p => if p = "bad.png" then none else some ⟨1, 64, 32⟩
    sprite_data_load := fun _ => none
    tilemap_load := fun _ => some 1 }

/-- The same files at a later moment: every file has modtime 7, and images decode to a new
resource. -/
def env_b : Env Nat Nat :=
  { env_a with
    os_file_modtime := fun _ => 7
    image_load := fun p => if p = "bad.png" then none else some ⟨2, 16, 16⟩ }

/-- The table of the zero-initialised `g_assets`, for payload types `Nat`. -/
def g_empty : Assets Nat Nat := {}

/-- The files at the later moment after `hull.png` and the scripts have been broken:
`hull.png` does not decode any more and no script gives a module. -/
def env_c : Env Nat Nat :=
  { env_b with
    luax_require_script := fun _ => LUA_REFNIL
    image_load := fun p => if p = "hull.png" ∨ p = "bad.png" then none else some ⟨2, 16, 16⟩ }

/-- The record of `hull.png` as loaded from the files of `env_a`. -/
def hull_rec : Asset Nat Nat :=
  { name := "hull.png", hash := fnv1a64 "hull.png", modtime := 5, kind := .Image
    payload := .image ⟨1, 64, 32⟩ }

/-- The record of `ship.png` as loaded from the files of `env_a`. -/
def ship_rec : Asset Nat Nat :=
  { name := "ship.png", hash := fnv1a64 "ship.png", modtime := 5, kind := .Image
    payload := .image ⟨1, 64, 32⟩ }

/-- The record of `main.lua` that `asset_load` writes before it runs the script. -/
def main_rec0 : Asset Nat Nat :=
  { name := "main.lua", hash := fnv1a64 "main.lua", modtime := 5, kind := .LuaRef
    payload := .lua_ref LUA_REFNIL }

/-- The record of `main.lua` that `asset_load` writes after it has run the script. -/
def main_rec : Asset Nat Nat :=
  { main_rec0 with payload := .lua_ref 3 }

/-- The table after `hull.png` and then `ship.png` have been loaded from the files of
`env_a`. -/
def g_two : Assets Nat Nat :=
  (asset_load fnv1a64 env_a (asset_load fnv1a64 env_a g_empty .Image "hull.png").assets
    .Image "ship.png").assets

/-- The table after `main.lua` has been loaded from the files of `env_a`. -/
def g_lua : Assets Nat Nat :=
  (asset_load fnv1a64 env_a g_empty .LuaRef "main.lua").assets

/-- A full channel of capacity 8 whose ring is wrapped at `front = 2`: it queues
`10, 11, ..., 17`. -/
def chan_full : Chan Nat :=
  { data := [some 16, some 17, some 10, some 11, some 12, some 13, some 14, some 15]
    front := 2, back := 2, len := 8, capacity := 8 }

/-- Calls that leave the zero-initialised `Chan` in the state `chan_full`: eight sends fill
the ring, two receives move `front` to 2, two sends fill the ring again. -/
def chan_full_ops : List (ChanOp Nat) :=
  (List.range' 8 8).map .send ++ [.recv, .recv, .send 16, .send 17]

/-- The channel after three sends into the zero-initialised `Chan`: capacity 8, three items
at the start of the ring. -/
def chan3 : Chan Nat :=
  { data := [some 0, some 1, some 2, none, none, none, none, none]
    front := 0, back := 3, len := 3, capacity := 8 }

/-- A schedule with a load between polling and apply, and with a write of the apply phase
between the two writes of a load of another key.  `ship.png` is loaded with modtime 5
(4 steps); the monitor, for which the files have modtime 7, waits and polls (2 steps); the
loader misses `main.lua`, reads the modtime 5 and writes the record with `LUA_REFNIL`
(3 steps); the monitor reads the record of `ship.png`, decodes the file and writes the record
with modtime 7 (3 steps); the loader runs the script and writes its record (2 steps); the
monitor ends its batch (1 step). -/
def sched_apart : List (Move Nat Nat) :=
  [.load_call .Image "ship.png", .loader env_a, .loader env_a, .loader env_a,
    .monitor env_b false, .monitor env_b false,
    .load_call .LuaRef "main.lua", .loader env_a, .loader env_a,
    .monitor env_b false, .monitor env_b false, .monitor env_b false,
    .loader env_a, .loader env_a,
    .monitor env_b false]

/-- A schedule in which the monitor polls `main.lua` between the two writes of its load and
writes it after the second.  The loader misses `main.lua`, reads the modtime 5 and writes the
record with `LUA_REFNIL` (3 steps); the monitor, for which the file has modtime 7, waits,
polls and reads the record (3 steps); the loader runs the script and writes its record
(2 steps); the monitor runs the script and writes the record with modtime 7 (2 steps). -/
def sched_late : List (Move Nat Nat) :=
  [.load_call .LuaRef "main.lua", .loader env_a, .loader env_a,
    .monitor env_b false, .monitor env_b false, .monitor env_b false,
    .loader env_a, .loader env_a,
    .monitor env_b false, .monitor env_b false]

/-! # Part II: the properties

## The channel is a FIFO queue -/

theorem mod_wrap {a n : Nat} (h : a < 2 * n) : a % n = if a < n then a else a - n := by
  split
  · exact Nat.mod_eq_of_lt ‹_›
  · rw [Nat.mod_eq_sub_mod (by omega), Nat.mod_eq_of_lt (by omega)]

theorem u64_sub_eq {a b : Nat} (hb : b ≤ a) (ha : a < U64) : u64_sub a b = a - b := by
  unfold u64_sub
  have hb' : b % U64 = b := Nat.mod_eq_of_lt (by omega)
  rw [hb']
  have : a + U64 - b = (a - b) + U64 := by omega
  rw [this, Nat.add_mod_right, Nat.mod_eq_of_lt (by omega)]

theorem u64_add_eq {a b : Nat} (h : a + b < U64) : u64_add a b = a + b := by
  unfold u64_add; exact Nat.mod_eq_of_lt h

theorem u64_mul_eq {a b : Nat} (h : a * b < U64) : u64_mul a b = a * b := by
  unfold u64_mul; exact Nat.mod_eq_of_lt h

theorem rotate_getElem? {T : Type} (l : List T) (junk : List T) (f i : Nat) (hf : f ≤ l.length)
    (hi : i < l.length) :
    (l.drop f ++ l.take f ++ junk)[i]? = l[(f + i) % l.length]? := by
  rw [mod_wrap (by omega)]
  rw [List.append_assoc]
  split
  · rw [List.getElem?_append_left (by simp; omega), List.getElem?_drop]
  · rw [List.getElem?_append_right (by simp; omega), List.getElem?_append_left (by simp; omega),
      List.getElem?_take_of_lt (by simp; omega)]
    congr 1
    simp; omega

theorem mem_alloc_cells (T : Type) {sz : Nat} (hsz : 0 < sz) (n : Nat) (hn : sz * n < U64) :
    mem_alloc T sz (u64_mul sz n) = List.replicate n none := by
  unfold mem_alloc
  rw [u64_mul_eq hn, Nat.mul_div_cancel_left _ hsz]

theorem memcpy_cells {T : Type} {sz : Nat} (hsz : 0 < sz) (dst : List (Option T)) (d : Nat)
    (src : List (Option T)) (s n : Nat) (hn : sz * n < U64) :
    memcpy sz dst d src s (u64_mul sz n) =
      if s + n ≤ src.length ∧ d + n ≤ dst.length then
        .ok (dst.take d ++ (src.drop s).take n ++ dst.drop (d + n))
      else .error .out_of_bounds := by
  unfold memcpy
  rw [u64_mul_eq hn, Nat.mul_mod_right, Nat.mul_div_cancel_left _ hsz]
  simp

theorem Chan.reserve_data {T : Type} (c : Chan T) (sz cap : Nat) (hsz : 0 < sz)
    (hbytes : sz * cap < U64)
    (hlen : c.data.length = c.capacity) (hcap : c.capacity < cap)
    (hU : c.capacity < U64) (hf : c.front ≤ c.capacity) (hb : c.back = c.front) :
    c.reserve sz cap = .ok
      { data := c.data.drop c.front ++ c.data.take c.front ++ List.replicate (cap - c.capacity) none
        front := 0, back := c.len, len := c.len, capacity := cap } := by
  unfold Chan.reserve
  rw [if_neg (by omega)]
  simp only [u64_sub_eq hf hU, hb]
  have hb1 : sz * (c.capacity - c.front) < U64 :=
    Nat.lt_of_le_of_lt (Nat.mul_le_mul_left sz (by omega)) hbytes
  have hb2 : sz * c.front < U64 :=
    Nat.lt_of_le_of_lt (Nat.mul_le_mul_left sz (by omega)) hbytes
  have h1 : memcpy sz (mem_alloc T sz (u64_mul sz cap)) 0 c.data c.front
        (u64_mul sz (c.capacity - c.front))
      = .ok (c.data.drop c.front ++ List.replicate (cap - (c.capacity - c.front)) none) := by
    rw [mem_alloc_cells T hsz cap hbytes, memcpy_cells hsz _ _ _ _ _ hb1]
    rw [if_pos (by simp; omega)]
    simp [hlen]
  rw [h1]
  simp only
  have h2 : memcpy sz (c.data.drop c.front ++ List.replicate (cap - (c.capacity - c.front)) none)
      (c.capacity - c.front) c.data 0 (u64_mul sz c.front)
      = .ok (c.data.drop c.front ++ c.data.take c.front ++
          List.replicate (cap - c.capacity) none) := by
    rw [memcpy_cells hsz _ _ _ _ _ hb2]
    rw [if_pos (by simp; omega)]
    congr 1
    have e1 : (c.data.drop c.front).length = c.capacity - c.front := by simp [hlen]
    have e2 : List.take (c.capacity - c.front)
        (c.data.drop c.front ++ List.replicate (cap - (c.capacity - c.front)) none)
        = c.data.drop c.front := by
      rw [List.take_append_of_le_length (by omega), List.take_of_length_le (by omega)]
    have e3 : List.drop (c.capacity - c.front + c.front)
        (c.data.drop c.front ++ List.replicate (cap - (c.capacity - c.front)) (none : Option T))
        = List.replicate (cap - c.capacity) none := by
      rw [List.drop_append_eq_append_drop, List.drop_of_length_le (by omega), e1]
      simp
      omega
    rw [e2, e3]
    simp
  rw [h2]

theorem Chan.Holds.reserve {T : Type} {c : Chan T} {q : List T} (h : c.Holds q)
    (hfull : c.len = c.capacity) {sz : Nat} (hsz : 0 < sz) (cap : Nat) (hcap : c.capacity < cap)
    (hbytes : sz * cap < U64) :
    ∃ c1, c.reserve sz cap = .ok c1 ∧ c1.Holds q ∧ c1.capacity = cap := by
  obtain ⟨hlen, hcU, hq, hle, hfr, hbk, hcells⟩ := h
  have hU : cap < U64 := Nat.lt_of_le_of_lt (Nat.le_mul_of_pos_left cap hsz) hbytes
  have hf : c.front ≤ c.capacity := by omega
  have hb : c.back = c.front := by
    rw [hbk, hfull]
    rcases hfr with h1 | ⟨h1, h2⟩
    · rw [Nat.add_mod_right, Nat.mod_eq_of_lt h1]
    · simp [h1, h2]
  refine ⟨_, Chan.reserve_data c sz cap hsz hbytes hlen hcap hcU hf hb, ?_, rfl⟩
  refine ⟨by simp [hlen]; omega, hU, hq, by simp only; omega, Or.inl (by simp only; omega), ?_, ?_⟩
  · simp only [Nat.zero_add]; rw [Nat.mod_eq_of_lt (by omega)]
  · intro i hi
    simp only [Nat.zero_add]
    rw [Nat.mod_eq_of_lt (by omega)]
    rw [rotate_getElem? _ _ _ _ (by omega) (by omega), hlen]
    exact hcells i hi

theorem Chan.Holds.push {T : Type} {c : Chan T} {q : List T} (h : c.Holds q)
    (hroom : c.len < c.capacity) (x : T) :
    ∃ c1, c.push x = .ok c1 ∧ c1.Holds (q ++ [x]) ∧ c1.capacity = c.capacity := by
  obtain ⟨hlen, hcU, hq, hle, hfr, hbk, hcells⟩ := h
  have hfr' : c.front < c.capacity := by omega
  have hbk' : c.back < c.capacity := by rw [hbk]; exact Nat.mod_lt _ (by omega)
  have hpush : c.push x = .ok { c with
      data := c.data.set c.back (some x)
      back := (c.back + 1) % c.capacity
      len := c.len + 1 } := by
    unfold Chan.push
    rw [if_neg (by omega), if_neg (by omega), u64_add_eq (by omega), u64_add_eq (by omega)]
  refine ⟨_, hpush, ?_, rfl⟩
  refine ⟨by simp [hlen], hcU, by simp [hq], by simp only; omega, Or.inl hfr', ?_, ?_⟩
  · simp only
    rw [hbk, ← Nat.add_assoc, Nat.add_mod (c.front + c.len) 1, Nat.add_mod ((c.front + c.len) % c.capacity) 1,
      Nat.mod_mod]
  · intro i hi
    simp only [List.length_append, List.length_singleton] at hi
    simp only
    by_cases hil : i < q.length
    · have hne : c.back ≠ (c.front + i) % c.capacity := by
        rw [hbk, mod_wrap (by omega), mod_wrap (by omega)]
        split <;> split <;> omega
      rw [List.getElem?_set_ne hne, hcells i hil, List.getElem?_append_left hil]
    · have hieq : i = q.length := by omega
      subst hieq
      rw [← hq, ← hbk, List.getElem?_set_self (by omega)]
      simp [hq]

theorem Chan.Holds.send {T : Type} {c : Chan T} {q : List T} (h : c.Holds q) {sz : Nat}
    (hsz : 0 < sz) (hsz8 : sz * 8 < U64) (hsmall : sz * (2 * c.len) < U64) (x : T) :
    ∃ c1, c.send sz x = .ok c1 ∧ c1.Holds (q ++ [x]) := by
  unfold Chan.send
  have h2 : 2 * c.len < U64 := Nat.lt_of_le_of_lt (Nat.le_mul_of_pos_left _ hsz) hsmall
  by_cases hfull : c.len = c.capacity
  · rw [if_pos hfull]
    have hcap : c.capacity < (if c.len > 0 then u64_mul c.len 2 else 8) ∧
        sz * (if c.len > 0 then u64_mul c.len 2 else 8) < U64 := by
      split
      · rw [u64_mul_eq (by omega), Nat.mul_comm c.len 2]
        exact ⟨by omega, hsmall⟩
      · exact ⟨by omega, hsz8⟩
    obtain ⟨c1, hr, hc1, hc1cap⟩ := h.reserve hfull hsz _ hcap.1 hcap.2
    rw [hr]
    simp only
    have hroom : c1.len < c1.capacity := by
      have := hc1.2.2.1
      have := h.2.2.1
      omega
    obtain ⟨c2, hp, hc2, _⟩ := hc1.push hroom x
    exact ⟨c2, hp, hc2⟩
  · rw [if_neg hfull]
    have hroom : c.len < c.capacity := by
      have := h.2.2.2.1
      omega
    obtain ⟨c2, hp, hc2, _⟩ := h.push hroom x
    exact ⟨c2, hp, hc2⟩

theorem Chan.Holds.recv {T : Type} {c : Chan T} {x : T} {q : List T} (h : c.Holds (x :: q)) :
    ∃ c1, c.recv = .ok (x, c1) ∧ c1.Holds q := by
  obtain ⟨hlen, hcU, hq, hle, hfr, hbk, hcells⟩ := h
  simp only [List.length_cons] at hq
  have hfr' : c.front < c.capacity := by omega
  have h0 : c.data[c.front]? = some (some x) := by
    have := hcells 0 (by simp)
    simpa [Nat.mod_eq_of_lt hfr'] using this
  have hrecv : c.recv = .ok (x, { c with
      front := (c.front + 1) % c.capacity
      len := c.len - 1 }) := by
    unfold Chan.recv
    rw [if_neg (by omega), h0]
    simp only
    rw [if_neg (by omega), u64_add_eq (by omega), u64_sub_eq (by omega) (by omega)]
  refine ⟨_, hrecv, ?_⟩
  refine ⟨hlen, hcU, by simp only; omega, by simp only; omega,
    Or.inl (Nat.mod_lt _ (by omega)), ?_, ?_⟩
  · simp only
    rw [hbk, Nat.add_mod ((c.front + 1) % c.capacity), Nat.mod_mod, ← Nat.add_mod]
    congr 1
    omega
  · intro i hi
    simp only
    have := hcells (i + 1) (by simp; omega)
    rw [Nat.add_mod, Nat.mod_mod, ← Nat.add_mod]
    rw [show c.front + 1 + i = c.front + (i + 1) by omega, this]
    simp

theorem Chan.Holds.send_small {T : Type} {c : Chan T} {q : List T} (h : c.Holds q) {sz n : Nat}
    (hlen : sz * (q.length + (n + 1)) < 2 ^ 63) : sz * (2 * c.len) < U64 := by
  have e : c.len = q.length := h.2.2.1
  have h1 : sz * c.len ≤ sz * (q.length + (n + 1)) := Nat.mul_le_mul_left sz (by omega)
  have h2 : sz * (2 * c.len) = 2 * (sz * c.len) := by
    rw [Nat.mul_left_comm]
  unfold U64
  omega

theorem Chan.Holds.run {T : Type} {sz : Nat} (hsz : 0 < sz) (hsz8 : sz * 8 < U64) :
    ∀ (ops : List (ChanOp T)) (c : Chan T) (q : List T),
    c.Holds q → sz * (q.length + ops.length) < 2 ^ 63 → c.recvReady sz ops = true →
    ∃ c1 out q1, c.run sz ops = .ok (c1, out) ∧ c1.Holds q1 ∧
      q ++ ChanOp.sent ops = out ++ q1 ∧ out.length = ChanOp.recvs ops := by
  intro ops
  induction ops with
  | nil =>
    intro c q h _ _
    exact ⟨c, [], q, rfl, h, by simp [ChanOp.sent], rfl⟩
  | cons op ops ih =>
    intro c q h hlen hready
    cases op with
    | send x =>
      obtain ⟨c1, hs, hc1⟩ := h.send hsz hsz8 (h.send_small hlen) x
      simp only [Chan.recvReady, hs] at hready
      obtain ⟨c2, out, q2, hrun, hc2, hq2, hout⟩ :=
        ih c1 (q ++ [x]) hc1 (by
          have e : (q ++ [x]).length + ops.length = q.length + (ops.length + 1) := by
            simp only [List.length_append, List.length_singleton]; omega
          rw [e]; exact hlen) hready
      refine ⟨c2, out, q2, ?_, hc2, ?_, ?_⟩
      · simp only [Chan.run, hs, hrun]
      · simpa [ChanOp.sent] using hq2
      · simpa [ChanOp.recvs] using hout
    | recv =>
      simp only [Chan.recvReady, Bool.and_eq_true, decide_eq_true_eq] at hready
      cases q with
      | nil =>
        have := h.2.2.1
        simp at this
        omega
      | cons y q =>
        obtain ⟨c1, hr, hc1⟩ := h.recv
        rw [hr] at hready
        obtain ⟨c2, out, q2, hrun, hc2, hq2, hout⟩ :=
          ih c1 q hc1 (by
            simp only [List.length_cons] at hlen
            exact Nat.lt_of_le_of_lt (Nat.mul_le_mul_left sz (by omega)) hlen) hready.2
        refine ⟨c2, y :: out, q2, ?_, hc2, ?_, ?_⟩
        · simp only [Chan.run, hr, hrun]
        · simpa [ChanOp.sent] using hq2
        · simpa [ChanOp.recvs] using hout

theorem Chan.isFresh.holds {T : Type} {c : Chan T} {sz : Nat} (hsz : 0 < sz)
    (hsz8 : sz * 8 < U64) (h : c.isFresh sz) : c.Holds [] := by
  have h0 : ({} : Chan T).Holds [] := by
    refine ⟨rfl, by unfold U64; norm_num, rfl, Nat.le_refl _, Or.inr ⟨rfl, rfl⟩, rfl, ?_⟩
    intro i hi
    simp at hi
  rcases h with h | h
  · rw [h]; exact h0
  · obtain ⟨c1, hr, hc1, _⟩ := h0.reserve rfl hsz 8 (by simp) hsz8
    rw [hr] at h
    cases h
    exact hc1

/-- C1. `Chan` is a FIFO queue, also across growth.  Take items of `sizeof_T` bytes, with a
block of 8 items below `2 ^ 64` bytes, an initially empty channel (capacity 0, or capacity 8)
and any sequence of `send` and `recv` calls of less than `2 ^ 63` bytes of items in all
(fewer than `2 ^ 63` calls for items of one byte), in which every `recv` is issued when
`len > 0`.  Then no call faults (no access leaves the buffer, however often `send` grows it and
wherever `front` is at that moment), and the values the `recv` calls return are, in order, the
first values that were sent.  The bound keeps `len * 2` and the byte count
`sizeof(T) * (len * 2)` below `2 ^ 64`; a buffer of `2 ^ 63` bytes of items cannot be
allocated. -/
theorem chan_fifo {T : Type} (sizeof_T : Nat) (hsz : 0 < sizeof_T) (hsz8 : sizeof_T * 8 < 2 ^ 64)
    (c0 : Chan T) (hfresh : c0.isFresh sizeof_T) (ops : List (ChanOp T))
    (hlen : sizeof_T * ops.length < 2 ^ 63) (hready : c0.recvReady sizeof_T ops = true) :
    ∃ c out, c0.run sizeof_T ops = .ok (c, out) ∧ out.length = ChanOp.recvs ops ∧
      out = (ChanOp.sent ops).take (ChanOp.recvs ops) := by
  obtain ⟨c, out, q, hrun, _, hq, hout⟩ :=
    Chan.Holds.run hsz hsz8 ops c0 [] (hfresh.holds hsz hsz8) (by simpa using hlen) hready
  refine ⟨c, out, hrun, hout, ?_⟩
  simp only [List.nil_append] at hq
  rw [hq, ← hout, List.take_left']
  rfl

theorem chan_fifo_witness :
    0 < 8 ∧ 8 * 8 < 2 ^ 64 ∧ chan8.isFresh 8 ∧ 8 * ops20.length < 2 ^ 63 ∧
    chan8.recvReady 8 ops20 = true ∧
    ∃ c out, chan8.run 8 ops20 = .ok (c, out) ∧ out.length = ChanOp.recvs ops20 ∧
      out = (ChanOp.sent ops20).take (ChanOp.recvs ops20) :=
  ⟨by decide, by decide, Or.inr rfl, by decide, by decide,
    chan_fifo 8 (by decide) (by decide) chan8 (Or.inr rfl) ops20 (by decide) (by decide)⟩

/-- The run of the witness of C1 grows the ring from 8 to 32 cells and returns the first
eight values sent. -/
theorem chan8_run_ops20 :
    (chan8.run 8 ops20).toOption.map (fun r => (r.1.capacity, r.1.front, r.1.len, r.2))
      = some (32, 5, 12, [0, 1, 2, 3, 4, 5, 6, 7]) := by
  decide

/-! ## Producers and a consumer that waits -/

theorem Chan.recv_empty {T : Type} (c : Chan T) (h : c.len = 0) : c.recv = .error .blocks := by
  unfold Chan.recv
  rw [if_pos h]

theorem Chan.run_wait_append {T : Type} (sz : Nat) :
    ∀ (ops1 ops2 : List (ChanOp T)) (c c1 c2 : Chan T) (out1 out2 : List T),
    c.run_wait sz ops1 = .ok (c1, out1) → c1.run_wait sz ops2 = .ok (c2, out2) →
    c.run_wait sz (ops1 ++ ops2) = .ok (c2, out1 ++ out2) := by
  intro ops1
  induction ops1 with
  | nil =>
    intro ops2 c c1 c2 out1 out2 h1 h2
    simp only [Chan.run_wait, Except.ok.injEq, Prod.mk.injEq] at h1
    obtain ⟨rfl, rfl⟩ := h1
    simpa using h2
  | cons op ops ih =>
    intro ops2 c c1 c2 out1 out2 h1 h2
    cases op with
    | send x =>
      simp only [List.cons_append, Chan.run_wait] at h1 ⊢
      cases hs : c.send sz x with
      | error e => rw [hs] at h1; cases h1
      | ok c3 =>
        rw [hs] at h1
        simp only at h1 ⊢
        exact ih ops2 c3 c1 c2 out1 out2 h1 h2
    | recv =>
      simp only [List.cons_append, Chan.run_wait] at h1 ⊢
      cases hr : c.recv with
      | error e =>
        rw [hr] at h1
        cases e <;> simp only at h1 ⊢ <;> first | cases h1 | exact ih ops2 c c1 c2 out1 out2 h1 h2
      | ok r =>
        obtain ⟨x, c3⟩ := r
        rw [hr] at h1
        simp only at h1 ⊢
        cases hrest : c3.run_wait sz ops with
        | error e => rw [hrest] at h1; cases h1
        | ok r2 =>
          obtain ⟨c4, out3⟩ := r2
          rw [hrest] at h1
          simp only [Except.ok.injEq, Prod.mk.injEq] at h1
          obtain ⟨rfl, rfl⟩ := h1
          have e := ih ops2 c3 c4 c2 out3 out2 hrest h2
          simp only [List.append_eq, e]
          rfl

/-- A schedule of `send` calls and `recv` attempts never faults: every `send` returns, a
`recv` at an empty channel waits, and the items received so far, followed by the items still
queued, are the items sent, in order. -/
theorem Chan.Holds.run_wait {T : Type} {sz : Nat} (hsz : 0 < sz) (hsz8 : sz * 8 < U64) :
    ∀ (ops : List (ChanOp T)) (c : Chan T) (q : List T),
    c.Holds q → sz * (q.length + (ChanOp.sent ops).length) < 2 ^ 63 →
    ∃ c1 out q1, c.run_wait sz ops = .ok (c1, out) ∧ c1.Holds q1 ∧
      q ++ ChanOp.sent ops = out ++ q1 := by
  intro ops
  induction ops with
  | nil =>
    intro c q h _
    exact ⟨c, [], q, rfl, h, by simp [ChanOp.sent]⟩
  | cons op ops ih =>
    intro c q h hlen
    cases op with
    | send x =>
      have hlen0 : sz * (q.length + ((ChanOp.sent ops).length + 1)) < 2 ^ 63 := hlen
      obtain ⟨c1, hs, hc1⟩ := h.send hsz hsz8 (h.send_small hlen0) x
      obtain ⟨c2, out, q2, hrun, hc2, hq2⟩ :=
        ih c1 (q ++ [x]) hc1 (by
          have e : (q ++ [x]).length + (ChanOp.sent ops).length
              = q.length + ((ChanOp.sent ops).length + 1) := by
            simp only [List.length_append, List.length_singleton]; omega
          rw [e]; exact hlen0)
      refine ⟨c2, out, q2, ?_, hc2, ?_⟩
      · simp only [Chan.run_wait, hs, hrun]
      · simpa [ChanOp.sent] using hq2
    | recv =>
      have hlen1 : sz * (q.length + (ChanOp.sent ops).length) < 2 ^ 63 := hlen
      cases q with
      | nil =>
        have hr := c.recv_empty h.2.2.1
        obtain ⟨c2, out, q2, hrun, hc2, hq2⟩ := ih c [] h hlen1
        refine ⟨c2, out, q2, ?_, hc2, ?_⟩
        · simp only [Chan.run_wait, hr, hrun]
        · simpa [ChanOp.sent] using hq2
      | cons y q =>
        obtain ⟨c1, hr, hc1⟩ := h.recv
        obtain ⟨c2, out, q2, hrun, hc2, hq2⟩ :=
          ih c1 q hc1 (by
            simp only [List.length_cons] at hlen1
            exact Nat.lt_of_le_of_lt (Nat.mul_le_mul_left sz (by omega)) hlen1)
        refine ⟨c2, y :: out, q2, ?_, hc2, ?_⟩
        · simp only [Chan.run_wait, hr, hrun]
        · simpa [ChanOp.sent] using hq2

/-- With no `send` to come, as many `recv` calls as there are items queued return them all,
in order, none of them waiting. -/
theorem Chan.Holds.drain {T : Type} (sz : Nat) : ∀ (q : List T) (c : Chan T), c.Holds q →
    ∃ c1, c.run_wait sz (List.replicate q.length .recv) = .ok (c1, q) ∧ c1.Holds [] := by
  intro q
  induction q with
  | nil =>
    intro c h
    exact ⟨c, rfl, h⟩
  | cons y q ih =>
    intro c h
    obtain ⟨c1, hr, hc1⟩ := h.recv
    obtain ⟨c2, hrun, hc2⟩ := ih c1 hc1
    refine ⟨c2, ?_, hc2⟩
    simp only [List.length_cons, List.replicate_succ, Chan.run_wait, hr, hrun]

theorem Call.mem_sentBy {N : Nat} {T : Type} (p : Fin N) (x : T) :
    ∀ sched : List (Call N T), Call.send p x ∈ sched → x ∈ Call.sentBy p sched := by
  intro sched
  induction sched with
  | nil => intro h; simp at h
  | cons c cs ih =>
    intro h
    cases c with
    | send q y =>
      simp only [List.mem_cons, Call.send.injEq] at h
      simp only [Call.sentBy]
      rcases h with ⟨h1, h2⟩ | h
      · simp [h1, h2]
      · split
        · exact List.mem_cons_of_mem _ (ih h)
        · exact ih h
    | recv =>
      simp only [List.mem_cons] at h
      rcases h with h | h
      · cases h
      · exact ih h

theorem Call.filter_sent {N : Nat} {T : Type} [DecidableEq T] (seqs : Fin N → List T)
    (hdistinct : ∀ p q, p ≠ q → ∀ x ∈ seqs p, x ∉ seqs q) (p : Fin N) :
    ∀ sched : List (Call N T), (∀ q x, Call.send q x ∈ sched → x ∈ seqs q) →
      (ChanOp.sent (sched.map Call.op)).filter (fun x => decide (x ∈ seqs p))
        = Call.sentBy p sched := by
  intro sched
  induction sched with
  | nil => intro _; rfl
  | cons c cs ih =>
    intro hmem
    have ih' := ih (fun q x h => hmem q x (List.mem_cons_of_mem _ h))
    cases c with
    | send q y =>
      have hy : y ∈ seqs q := hmem q y (List.mem_cons_self _ _)
      simp only [List.map_cons, Call.op, ChanOp.sent, Call.sentBy]
      by_cases hqp : q = p
      · subst hqp
        rw [List.filter_cons_of_pos (by simpa using hy), if_pos rfl, ih']
      · rw [List.filter_cons_of_neg (by simpa using hdistinct q p hqp y hy), if_neg hqp, ih']
    | recv =>
      simpa only [List.map_cons, Call.op, ChanOp.sent, Call.sentBy] using ih'

/-- C9. Per-producer order.  `N` producers send the sequences `seqs p`, which have no item in
common, into one initially empty channel of items of `sizeof_T` bytes; `sched` is any
interleaving of their `send` calls with mutex acquisitions of one consumer inside `recv`,
where an acquisition at `len == 0` is a wait that receives nothing; less than `2 ^ 63` bytes
of items are sent in all (the bound of C1), however long the consumer waits.  Then no call
of `sched` faults, and the consumer has received at most as many items as were sent; and
when it goes on until it has made as many `recv` calls as there were sends, every one of
these calls returns, the received sequence restricted to the items of a producer is that
producer's send sequence, as many items are received as were sent, and the channel is left
empty. -/
theorem chan_per_producer_order {N : Nat} {T : Type} [DecidableEq T] (sizeof_T : Nat)
    (hsz : 0 < sizeof_T) (hsz8 : sizeof_T * 8 < 2 ^ 64) (c0 : Chan T)
    (hfresh : c0.isFresh sizeof_T) (seqs : Fin N → List T) (sched : List (Call N T))
    (hinter : ∀ p, Call.sentBy p sched = seqs p)
    (hdistinct : ∀ p q, p ≠ q → ∀ x ∈ seqs p, x ∉ seqs q)
    (hlen : sizeof_T * (ChanOp.sent (sched.map Call.op)).length < 2 ^ 63) :
    ∃ c1 out1, c0.run_wait sizeof_T (sched.map Call.op) = .ok (c1, out1) ∧
      out1.length ≤ (ChanOp.sent (sched.map Call.op)).length ∧
      ∃ c2 out2,
        c1.run_wait sizeof_T
          (List.replicate ((ChanOp.sent (sched.map Call.op)).length - out1.length) .recv)
          = .ok (c2, out2) ∧
        (∀ p, (out1 ++ out2).filter (fun x => decide (x ∈ seqs p)) = seqs p) ∧
        (out1 ++ out2).length = (ChanOp.sent (sched.map Call.op)).length ∧
        c2.len = 0 := by
  obtain ⟨c1, out1, q, hrun, hc1, hq⟩ :=
    Chan.Holds.run_wait hsz hsz8 (sched.map Call.op) c0 [] (hfresh.holds hsz hsz8)
      (by simpa using hlen)
  simp only [List.nil_append] at hq
  have hn : (ChanOp.sent (sched.map Call.op)).length - out1.length = q.length := by
    rw [hq, List.length_append]; omega
  obtain ⟨c2, hdrain, hc2⟩ := hc1.drain sizeof_T q
  refine ⟨c1, out1, hrun, by rw [hq, List.length_append]; omega, c2, q, ?_, ?_, by rw [← hq],
    hc2.2.2.1⟩
  · rw [hn]; exact hdrain
  · intro p
    rw [← hq, Call.filter_sent seqs hdistinct p sched, hinter p]
    intro q x hx
    rw [← hinter q]
    exact Call.mem_sentBy q x sched hx

theorem chan_per_producer_order_witness :
    0 < 8 ∧ 8 * 8 < 2 ^ 64 ∧
    (∀ p, Call.sentBy p sched2 = seqs2 p) ∧
    (∀ p q, p ≠ q → ∀ x ∈ seqs2 p, x ∉ seqs2 q) ∧
    8 * (ChanOp.sent (sched2.map Call.op)).length < 2 ^ 63 ∧
    ∃ c1 out1, Chan.run_wait 8 {} (sched2.map Call.op) = .ok (c1, out1) ∧
      out1.length ≤ (ChanOp.sent (sched2.map Call.op)).length ∧
      ∃ c2 out2,
        c1.run_wait 8
          (List.replicate ((ChanOp.sent (sched2.map Call.op)).length - out1.length) .recv)
          = .ok (c2, out2) ∧
        (∀ p, (out1 ++ out2).filter (fun x => decide (x ∈ seqs2 p)) = seqs2 p) ∧
        (out1 ++ out2).length = (ChanOp.sent (sched2.map Call.op)).length ∧
        c2.len = 0 :=
  ⟨by decide, by decide, by decide, by decide, by decide,
    chan_per_producer_order 8 (by decide) (by decide) {} (Or.inl rfl) seqs2 sched2 (by decide)
      (by decide) (by decide)⟩

/-- The run of the witness of C9: the consumer waits twice (at the start, and after it has
taken the only item queued), receives two items while the producers are sending, and its
three remaining calls return the rest. -/
theorem sched2_run_wait :
    (Chan.run_wait 8 {} (sched2.map Call.op)).toOption.map (fun r => (r.1.len, r.2))
      = some (3, [1, 10]) ∧
    (Chan.run_wait 8 {} (sched2.map Call.op ++ List.replicate 3 .recv)).toOption.map
      (fun r => (r.1.len, r.2)) = some (0, [1, 10, 2, 20, 3]) := by
  decide

/-! ## The table -/

theorem hashmap_get_set_self {α : Type} (m : HashMap α) (k : Nat) (v : α) :
    hashmap_get (m.set k v) k = some v := by
  induction m with
  | nil => simp [HashMap.set, hashmap_get]
  | cons e m ih =>
    obtain ⟨k1, v1⟩ := e
    by_cases h : k1 = k
    · simp [HashMap.set, hashmap_get, h]
    · simp [HashMap.set, hashmap_get, h, ih]

theorem hashmap_get_set_ne {α : Type} (m : HashMap α) (k : Nat) (v : α) (k2 : Nat)
    (hne : k2 ≠ k) : hashmap_get (m.set k v) k2 = hashmap_get m k2 := by
  induction m with
  | nil => simp [HashMap.set, hashmap_get, Ne.symm hne]
  | cons e m ih =>
    obtain ⟨k1, v1⟩ := e
    by_cases h : k1 = k
    · subst h
      simp [HashMap.set, hashmap_get, Ne.symm hne]
    · simp [HashMap.set, hashmap_get, h, ih]

theorem hashmap_get_mem {α : Type} (m : HashMap α) (k : Nat) (v : α)
    (h : hashmap_get m k = some v) : (k, v) ∈ m := by
  induction m with
  | nil => simp [hashmap_get] at h
  | cons e m ih =>
    obtain ⟨k1, v1⟩ := e
    by_cases hk : k1 = k
    · simp [hashmap_get, hk] at h
      simp [hk, h]
    · simp [hashmap_get, hk] at h
      exact List.mem_cons_of_mem _ (ih h)

theorem hashmap_get_of_mem {α : Type} (m : HashMap α) (k : Nat) (v : α)
    (hnd : (m.map Prod.fst).Nodup) (h : (k, v) ∈ m) : hashmap_get m k = some v := by
  induction m with
  | nil => simp at h
  | cons e m ih =>
    obtain ⟨k1, v1⟩ := e
    simp only [List.map_cons, List.nodup_cons] at hnd
    simp only [List.mem_cons, Prod.mk.injEq] at h
    rcases h with ⟨h1, h2⟩ | h
    · simp [hashmap_get, h1, h2]
    · have hk : k1 ≠ k := by
        intro hk
        apply hnd.1
        rw [hk]
        exact List.mem_map_of_mem Prod.fst h
      simp [hashmap_get, hk, ih hnd.2 h]

theorem hashmap_get_none {α : Type} (m : HashMap α) (k : Nat)
    (h : hashmap_get m k = none) : k ∉ m.map Prod.fst := by
  induction m with
  | nil => simp
  | cons e m ih =>
    obtain ⟨k1, v1⟩ := e
    by_cases hk : k1 = k
    · simp [hashmap_get, hk] at h
    · simp only [hashmap_get, hk, if_false] at h
      simpa [Ne.symm hk] using ih h

theorem HashMap.keys_set {α : Type} (m : HashMap α) (k : Nat) (v : α) :
    (m.set k v).map Prod.fst =
      if k ∈ m.map Prod.fst then m.map Prod.fst else m.map Prod.fst ++ [k] := by
  induction m with
  | nil => simp [HashMap.set]
  | cons e m ih =>
    obtain ⟨k1, v1⟩ := e
    by_cases hk : k1 = k
    · simp [HashMap.set, hk]
    · have hk2 : ¬ k = k1 := fun h => hk h.symm
      simp only [HashMap.set, hk, if_false, List.map_cons, ih, List.mem_cons, hk2, false_or]
      split <;> simp

theorem HashMap.nodup_set {α : Type} (m : HashMap α) (k : Nat) (v : α)
    (hnd : (m.map Prod.fst).Nodup) : ((m.set k v).map Prod.fst).Nodup := by
  rw [HashMap.keys_set]
  split
  · exact hnd
  · rename_i h
    exact List.Nodup.append hnd (List.nodup_singleton k) (by simpa using h)

theorem HashMap.mem_set {α : Type} (m : HashMap α) (k : Nat) (v : α) (k2 : Nat) (v2 : α)
    (hnd : (m.map Prod.fst).Nodup) (h : (k2, v2) ∈ m.set k v) :
    (k2 = k ∧ v2 = v) ∨ ((k2, v2) ∈ m ∧ k2 ≠ k) := by
  induction m with
  | nil => simpa [HashMap.set] using h
  | cons e m ih =>
    obtain ⟨k1, v1⟩ := e
    simp only [List.map_cons, List.nodup_cons] at hnd
    by_cases hk : k1 = k
    · subst hk
      simp only [HashMap.set, if_true, List.mem_cons, Prod.mk.injEq] at h
      rcases h with h | h
      · exact Or.inl h
      · refine Or.inr ⟨List.mem_cons_of_mem _ h, ?_⟩
        intro h2
        apply hnd.1
        rw [← h2]
        exact List.mem_map_of_mem Prod.fst h
    · simp only [HashMap.set, hk, if_false, List.mem_cons, Prod.mk.injEq] at h
      rcases h with ⟨h1, h2⟩ | h
      · refine Or.inr ⟨by simp [h1, h2], ?_⟩
        rw [h1]; exact hk
      · rcases ih hnd.2 h with h3 | ⟨h3, h4⟩
        · exact Or.inl h3
        · exact Or.inr ⟨List.mem_cons_of_mem _ h3, h4⟩

theorem asset_read_write_self {S M : Type} (g : Assets S M) (a : Asset S M) :
    asset_read (asset_write g a) a.hash = some a :=
  hashmap_get_set_self g.table a.hash a

theorem asset_read_write_ne {S M : Type} (g : Assets S M) (a : Asset S M) (k : Nat)
    (h : k ≠ a.hash) : asset_read (asset_write g a) k = asset_read g k :=
  hashmap_get_set_ne g.table a.hash a k h

theorem asset_read_foldl_write {S M : Type} (k : Nat) (ws : List (Asset S M)) :
    ∀ g : Assets S M, asset_read (ws.foldl asset_write g) k =
      ((ws.reverse.find? fun w => decide (w.hash = k)) <|> asset_read g k) := by
  induction ws with
  | nil => intro g; rfl
  | cons w ws ih =>
    intro g
    rw [List.foldl_cons, ih, List.reverse_cons, List.find?_append]
    cases hf : List.find? (fun w => decide (w.hash = k)) ws.reverse with
    | some x => rfl
    | none =>
      by_cases hk : w.hash = k
      · subst hk
        simp [asset_read_write_self]
      · simp [hk, asset_read_write_ne g w k (Ne.symm hk)]

/-- C2. Read-your-writes on the asset table.  In every table state, after `asset_write(a)` the
call `asset_read(a.hash)` succeeds and returns `a`, and `asset_read(k)` for any other key `k`
returns what it returned before the write.  Starting from the empty table of the
zero-initialised `g_assets` and after any sequence `ws` of writes, `asset_read(k)` returns the
value most recently written with the key `k`, and is absent if no write had that key.  (Reads
do not change the table, so they are left out of the sequence.) -/
theorem asset_read_your_writes {S M : Type} (g : Assets S M) (a : Asset S M) (k : Nat) :
    asset_read (asset_write g a) a.hash = some a ∧
    (k ≠ a.hash → asset_read (asset_write g a) k = asset_read g k) ∧
    (∀ ws : List (Asset S M),
      asset_read (ws.foldl asset_write {}) k = ws.reverse.find? fun w => decide (w.hash = k)) ∧
    (∀ ws : List (Asset S M),
      (∀ w ∈ ws, w.hash ≠ k) → asset_read (ws.foldl asset_write {}) k = none) := by
  refine ⟨asset_read_write_self g a, asset_read_write_ne g a k, ?_, ?_⟩
  · intro ws
    rw [asset_read_foldl_write]
    cases List.find? (fun w => decide (w.hash = k)) ws.reverse <;> rfl
  · intro ws hws
    rw [asset_read_foldl_write]
    have : List.find? (fun w => decide (w.hash = k)) ws.reverse = none := by
      rw [List.find?_eq_none]
      intro w hw
      simpa using hws w (List.mem_reverse.mp hw)
    rw [this]
    rfl

/-! ## `asset_load` -/

theorem asset_load_hit {S M : Type} (fnv1a : String → Nat) (env : Env S M) (g : Assets S M)
    (kind : AssetKind) (path : String) (a : Asset S M)
    (h : asset_read g (fnv1a path) = some a) :
    asset_load fnv1a env g kind path = { out := some a, assets := g, log := [] } := by
  simp only [asset_load, h]

theorem asset_load_miss {S M : Type} (fnv1a : String → Nat) (env : Env S M) (g : Assets S M)
    (kind : AssetKind) (path : String) (h : asset_read g (fnv1a path) = none) :
    asset_load fnv1a env g kind path = asset_load_new env g kind path (fnv1a path) := by
  simp only [asset_load, h]

/-- On a miss that ends well, the record returned has the key of the path, is what the table
holds under that key afterwards, and one decoder call was made. -/
theorem asset_load_new_ok {S M : Type} (env : Env S M) (g : Assets S M) (kind : AssetKind)
    (path : String) (key : Nat) (a : Asset S M)
    (h : (asset_load_new env g kind path key).out = some a) :
    a.hash = key ∧ a.name = path ∧ a.kind = kind ∧ a.modtime = env.os_file_modtime path ∧
    asset_read (asset_load_new env g kind path key).assets key = some a ∧
    (asset_load_new env g kind path key).log.countP Event.isDecode = 1 := by
  unfold asset_load_new at h ⊢
  cases kind with
  | None => simp at h
  | LuaRef =>
    simp only [Option.some.injEq] at h
    subst h
    refine ⟨rfl, rfl, rfl, rfl, ?_, by simp [List.countP_cons, Event.isDecode]⟩
    exact asset_read_write_self _ _
  | Image =>
    cases hd : env.image_load path with
    | none => simp [hd] at h
    | some img =>
      simp only [hd, Option.some.injEq] at h ⊢
      subst h
      exact ⟨rfl, rfl, rfl, rfl, asset_read_write_self _ _,
        by simp [List.countP_cons, Event.isDecode]⟩
  | Sprite =>
    cases hd : env.sprite_data_load path with
    | none => simp [hd] at h
    | some img =>
      simp only [hd, Option.some.injEq] at h ⊢
      subst h
      exact ⟨rfl, rfl, rfl, rfl, asset_read_write_self _ _,
        by simp [List.countP_cons, Event.isDecode]⟩
  | Tilemap =>
    cases hd : env.tilemap_load path with
    | none => simp [hd] at h
    | some img =>
      simp only [hd, Option.some.injEq] at h ⊢
      subst h
      exact ⟨rfl, rfl, rfl, rfl, asset_read_write_self _ _,
        by simp [List.countP_cons, Event.isDecode]⟩

/-- C3, as amended.  Idempotent load: if the key of `path` is not in the table and
`asset_load(kind, path)` returns `true`, then a second call against the same files is a cache
hit that calls no decoder, the two calls make exactly one decoder call between them, both
return `true` with equal records, and the table after the second call is the table after the
first. -/
theorem idempotent_load {S M : Type} (fnv1a : String → Nat)
    (env : Env S M) (g : Assets S M) (kind : AssetKind) (path : String)
    (hmiss : asset_read g (fnv1a path) = none)
    (hok : (asset_load fnv1a env g kind path).out.isSome = true) :
    IdempotentLoad fnv1a env g kind path := by
  obtain ⟨a, ha⟩ := Option.isSome_iff_exists.mp hok
  have hnew := asset_load_miss fnv1a env g kind path hmiss
  rw [hnew] at ha
  obtain ⟨_, _, _, _, hread, hcount⟩ := asset_load_new_ok env g kind path (fnv1a path) a ha
  have h2 := asset_load_hit fnv1a env (asset_load_new env g kind path (fnv1a path)).assets
    kind path a hread
  unfold IdempotentLoad
  rw [hnew, h2]
  simp only [List.append_nil, List.countP_nil, and_true, true_and]
  exact ⟨hcount, by rw [ha]; rfl, ha.symm⟩

theorem idempotent_load_witness : asset_read g_empty (fnv1a64 "ship.png") = none ∧
    (asset_load fnv1a64 env_a g_empty .Image "ship.png").out.isSome = true ∧
    IdempotentLoad fnv1a64 env_a g_empty .Image "ship.png" :=
  ⟨by decide, by decide,
    idempotent_load fnv1a64 env_a g_empty .Image "ship.png" (by decide) (by decide)⟩

/-- C3 fails as stated in two cases.  If the decoder fails (`bad.png`), both calls decode and
both return `false`.  If the key is in the table before the first call (here after a first
load of `ship.png`), both calls are hits and no decoder is called at all. -/
theorem idempotent_load_counterexample :
    ¬ IdempotentLoad fnv1a64 env_a g_empty .Image "bad.png" ∧
    ((asset_load fnv1a64 env_a g_empty .Image "bad.png").log ++
      (asset_load fnv1a64 env_a (asset_load fnv1a64 env_a g_empty .Image "bad.png").assets
        .Image "bad.png").log).countP Event.isDecode = 2 ∧
    (asset_load fnv1a64 env_a g_empty .Image "bad.png").out = none ∧
    ¬ IdempotentLoad fnv1a64 env_a (asset_load fnv1a64 env_a g_empty .Image "ship.png").assets
      .Image "ship.png" := by
  refine ⟨?_, by decide, by decide, ?_⟩ <;> unfold IdempotentLoad <;> decide

/-- C5, as amended.  For every kind other than `LuaRef` and every path whose key is not in the
table, if decoding fails then `asset_load` returns `false` and leaves the table as it was,
without a record for the key. -/
theorem first_load_failure_atomic {S M : Type} (fnv1a : String → Nat) (env : Env S M)
    (g : Assets S M) (kind : AssetKind) (path : String) (hkind : kind ≠ .LuaRef) :
    FirstLoadFailureAtomic fnv1a env g kind path := by
  intro hmiss hfail
  rw [asset_load_miss fnv1a env g kind path hmiss]
  unfold asset_load_new
  cases kind with
  | None => simp [decode_fails] at hfail
  | LuaRef => exact absurd rfl hkind
  | Image =>
    simp only [decode_fails, Option.isNone_iff_eq_none] at hfail
    rw [hfail]
    exact ⟨rfl, rfl, hmiss⟩
  | Sprite =>
    simp only [decode_fails, Option.isNone_iff_eq_none] at hfail
    rw [hfail]
    exact ⟨rfl, rfl, hmiss⟩
  | Tilemap =>
    simp only [decode_fails, Option.isNone_iff_eq_none] at hfail
    rw [hfail]
    exact ⟨rfl, rfl, hmiss⟩

theorem first_load_failure_atomic_witness :
    AssetKind.Image ≠ AssetKind.LuaRef ∧
    asset_read g_empty (fnv1a64 "bad.png") = none ∧ decode_fails env_a .Image "bad.png" = true ∧
    (asset_load fnv1a64 env_a g_empty .Image "bad.png").out = none ∧
    (asset_load fnv1a64 env_a g_empty .Image "bad.png").assets = g_empty ∧
    asset_read (asset_load fnv1a64 env_a g_empty .Image "bad.png").assets (fnv1a64 "bad.png")
      = none :=
  ⟨by decide, by decide, by decide,
    first_load_failure_atomic fnv1a64 env_a g_empty .Image "bad.png" (by decide) (by decide)
      (by decide)⟩

/-- C5 fails as stated for the kind `LuaRef`: the key of `nil.lua` is not in the table and
`luax_require_script` fails on it, yet `asset_load` returns `true` and the table holds a
record for the key (written before the script was run, and again after). -/
theorem first_load_failure_atomic_counterexample :
    asset_read g_empty (fnv1a64 "nil.lua") = none ∧
    decode_fails env_a .LuaRef "nil.lua" = true ∧
    (asset_load fnv1a64 env_a g_empty .LuaRef "nil.lua").out.isSome = true ∧
    (asset_read (asset_load fnv1a64 env_a g_empty .LuaRef "nil.lua").assets
      (fnv1a64 "nil.lua")).isSome = true ∧
    ¬ FirstLoadFailureAtomic fnv1a64 env_a g_empty .LuaRef "nil.lua" := by
  refine ⟨by decide, by decide, by decide, by decide, ?_⟩
  unfold FirstLoadFailureAtomic
  decide

/-! ## The hot-reload monitor -/

theorem TableInv.keyed {S M : Type} {fnv1a : String → Nat} {g : Assets S M}
    (h : TableInv fnv1a g) : Keyed fnv1a g :=
  fun k a hk => h.2 k a (hashmap_get_mem g.table k a hk)

theorem TableInv.read_of_mem {S M : Type} {fnv1a : String → Nat} {g : Assets S M}
    (h : TableInv fnv1a g) {k : Nat} {a : Asset S M} (hm : (k, a) ∈ g.table) :
    asset_read g k = some a :=
  hashmap_get_of_mem g.table k a h.1 hm

theorem TableInv.empty {S M : Type} (fnv1a : String → Nat) (sd : Bool) (cs : List FileChange) :
    TableInv fnv1a ({ table := [], shutdown := sd, changes := cs } : Assets S M) :=
  ⟨List.nodup_nil, fun _ _ h => absurd h (List.not_mem_nil _)⟩

theorem TableInv.write {S M : Type} {fnv1a : String → Nat} {g : Assets S M}
    (h : TableInv fnv1a g) (a : Asset S M) (ha : fnv1a a.name = a.hash) :
    TableInv fnv1a (asset_write g a) := by
  refine ⟨HashMap.nodup_set g.table a.hash a h.1, ?_⟩
  intro k b hb
  rcases HashMap.mem_set g.table a.hash a k b h.1 hb with ⟨h1, h2⟩ | ⟨h1, _⟩
  · rw [h1, h2]; exact ⟨rfl, ha⟩
  · exact h.2 k b h1

/-- The body of the loop over the changes, written with `redecode` and `reload_calls`. -/
theorem reload_entry_eq {S M : Type} (env : Env S M) (g : Assets S M) (change : FileChange) :
    reload_entry env g change =
      match asset_read g change.key with
      | none => { assets := g, log := [], exit := .assert_failed }
      | some a0 =>
        if a0.kind = .None then { assets := g, log := [], exit := .next }
        else
          match redecode env a0 with
          | some p =>
            reload_commit g { a0 with modtime := change.modtime, payload := p } (reload_calls a0)
          | none => reload_abort g { a0 with modtime := change.modtime } (reload_calls a0) := by
  unfold reload_entry
  cases hr : asset_read g change.key with
  | none => rfl
  | some a0 =>
    obtain ⟨name, hash, modtime, kind, payload⟩ := a0
    cases kind with
    | None => simp
    | LuaRef => simp [redecode, reload_calls]
    | Image => cases hd : env.image_load name <;> simp [redecode, reload_calls, hd]
    | Sprite => cases hd : env.sprite_data_load name <;> simp [redecode, reload_calls, hd]
    | Tilemap => cases hd : env.tilemap_load name <;> simp [redecode, reload_calls, hd]

theorem hashmap_get_key_mem {α : Type} (m : HashMap α) (k : Nat) (v : α)
    (h : hashmap_get m k = some v) : k ∈ m.map Prod.fst :=
  List.mem_map_of_mem Prod.fst (hashmap_get_mem m k v h)

theorem asset_write_keys {S M : Type} (g : Assets S M) (a b : Asset S M)
    (h : asset_read g a.hash = some b) :
    (asset_write g a).table.map Prod.fst = g.table.map Prod.fst := by
  simp only [asset_write, HashMap.keys_set, hashmap_get_key_mem g.table a.hash b h, if_true]

theorem Keyed.write_keyed {S M : Type} {fnv1a : String → Nat} {g : Assets S M}
    (h : Keyed fnv1a g) (a : Asset S M) (ha : fnv1a a.name = a.hash) :
    Keyed fnv1a (asset_write g a) := by
  intro k b hb
  by_cases hk : k = a.hash
  · rw [hk, asset_read_write_self] at hb
    cases hb
    exact ⟨hk.symm, by rw [ha, hk]⟩
  · rw [asset_read_write_ne g a k hk] at hb
    exact h k b hb

theorem reload_entry_none {S M : Type} (env : Env S M) (g : Assets S M) (change : FileChange)
    (hr : asset_read g change.key = none) :
    reload_entry env g change = { assets := g, log := [], exit := .assert_failed } := by
  rw [reload_entry_eq, hr]

theorem reload_entry_skip {S M : Type} (env : Env S M) (g : Assets S M) (change : FileChange)
    (a0 : Asset S M) (hr : asset_read g change.key = some a0) (hkind : a0.kind = .None) :
    reload_entry env g change = { assets := g, log := [], exit := .next } := by
  rw [reload_entry_eq, hr]
  simp only [hkind, if_true]

theorem reload_entry_abort {S M : Type} (env : Env S M) (g : Assets S M) (change : FileChange)
    (a0 : Asset S M) (hr : asset_read g change.key = some a0) (hkind : a0.kind ≠ .None)
    (hd : redecode env a0 = none) :
    reload_entry env g change =
      reload_abort g { a0 with modtime := change.modtime } (reload_calls a0) := by
  rw [reload_entry_eq, hr]
  simp only [hkind, if_false, hd]

theorem reload_entry_commit {S M : Type} (env : Env S M) (g : Assets S M) (change : FileChange)
    (a0 : Asset S M) (p : Payload S M) (hr : asset_read g change.key = some a0)
    (hkind : a0.kind ≠ .None) (hd : redecode env a0 = some p) :
    reload_entry env g change =
      reload_commit g { a0 with modtime := change.modtime, payload := p } (reload_calls a0) := by
  rw [reload_entry_eq, hr]
  simp only [hkind, if_false, hd]

/-- What one pass of the loop over the changes does to the table, in a table that is
`Keyed`. -/
theorem reload_entry_frame {S M : Type} (fnv1a : String → Nat) (env : Env S M)
    (g : Assets S M) (change : FileChange) (hk : Keyed fnv1a g) :
    Keyed fnv1a (reload_entry env g change).assets ∧
    (reload_entry env g change).assets.table.map Prod.fst = g.table.map Prod.fst ∧
    (reload_entry env g change).assets.shutdown = g.shutdown ∧
    (reload_entry env g change).assets.changes = g.changes ∧
    (∀ k, k ≠ change.key →
      asset_read (reload_entry env g change).assets k = asset_read g k) ∧
    (∀ a, asset_read g change.key = some a →
      ∃ a1, asset_read (reload_entry env g change).assets change.key = some a1 ∧
        a1.hash = a.hash ∧ a1.name = a.name ∧ a1.kind = a.kind ∧
        (a1 = a ∨ a1.modtime = change.modtime)) ∧
    (∀ e ∈ (reload_entry env g change).log, ∀ n, e.isDecodeOf n = true →
      fnv1a n = change.key) := by
  cases hr : asset_read g change.key with
  | none =>
    rw [reload_entry_none env g change hr]
    refine ⟨hk, rfl, rfl, rfl, fun _ _ => rfl, ?_, ?_⟩
    · intro a ha; cases ha
    · intro e he; simp at he
  | some a0 =>
    obtain ⟨h0, h1⟩ := hk _ _ hr
    by_cases hnone : a0.kind = .None
    · rw [reload_entry_skip env g change a0 hr hnone]
      refine ⟨hk, rfl, rfl, rfl, fun _ _ => rfl, ?_, ?_⟩
      · intro a ha; cases ha
        exact ⟨a0, hr, rfl, rfl, rfl, Or.inl rfl⟩
      · intro e he; simp at he
    · have hcalls : ∀ e ∈ reload_calls a0, ∀ n, e.isDecodeOf n = true →
          fnv1a n = change.key := by
        intro e he n hn
        unfold reload_calls at he
        cases hkind : a0.kind <;> simp only [hkind, List.mem_cons, List.mem_singleton,
          List.not_mem_nil, or_false] at he <;> rcases he with he | he <;> subst he <;>
          simp only [Event.isDecodeOf, beq_iff_eq] at hn <;>
          first | (rw [← hn]; exact h1) | cases hn
      cases hd : redecode env a0 with
      | none =>
        rw [reload_entry_abort env g change a0 hr hnone hd]
        refine ⟨hk, rfl, rfl, rfl, fun _ _ => rfl, ?_, ?_⟩
        · intro a ha; cases ha
          exact ⟨a0, hr, rfl, rfl, rfl, Or.inl rfl⟩
        · intro e he n hn
          simp only [reload_abort, List.mem_append, List.mem_singleton] at he
          rcases he with he | he
          · exact hcalls e he n hn
          · subst he; simp [Event.isDecodeOf] at hn
      | some p =>
        rw [reload_entry_commit env g change a0 p hr hnone hd]
        have hread : asset_read g
            ({ a0 with modtime := change.modtime, payload := p } : Asset S M).hash = some a0 := by
          simp only [h0]; exact hr
        refine ⟨hk.write_keyed _ (by simp only [h1, h0]), asset_write_keys g _ a0 hread, rfl, rfl,
          ?_, ?_, ?_⟩
        · intro k hne
          exact asset_read_write_ne g _ k (by simp only [h0]; exact hne)
        · intro a ha; cases ha
          refine ⟨{ a0 with modtime := change.modtime, payload := p }, ?_, rfl, rfl, rfl,
            Or.inr rfl⟩
          have := asset_read_write_self g
            ({ a0 with modtime := change.modtime, payload := p } : Asset S M)
          simpa only [h0] using this
        · intro e he n hn
          simp only [reload_commit, List.mem_append, List.mem_cons, List.mem_singleton,
            List.not_mem_nil, or_false] at he
          rcases he with he | he | he
          · exact hcalls e he n hn
          · subst he; simp [Event.isDecodeOf] at hn
          · subst he; simp [Event.isDecodeOf] at hn

theorem apply_changes_cons_next {S M : Type} (env : Env S M) (g : Assets S M)
    (c : FileChange) (rest : List FileChange) (h : (reload_entry env g c).exit = .next) :
    apply_changes env g (c :: rest) =
      { assets := (apply_changes env (reload_entry env g c).assets rest).assets
        log := (reload_entry env g c).log ++
          (apply_changes env (reload_entry env g c).assets rest).log
        exit := (apply_changes env (reload_entry env g c).assets rest).exit } := by
  simp only [apply_changes, h]

theorem apply_changes_cons_stop {S M : Type} (env : Env S M) (g : Assets S M)
    (c : FileChange) (rest : List FileChange) (h : (reload_entry env g c).exit ≠ .next) :
    apply_changes env g (c :: rest) = reload_entry env g c := by
  cases hex : (reload_entry env g c).exit with
  | next => exact absurd hex h
  | returned => simp only [apply_changes, hex]
  | fatal => simp only [apply_changes, hex]
  | assert_failed => simp only [apply_changes, hex]

/-- Identity of a record is kept by one pass of the loop over the changes. -/
theorem reload_entry_identity {S M : Type} (fnv1a : String → Nat) (env : Env S M)
    (g : Assets S M) (change : FileChange) (hk : Keyed fnv1a g) (k : Nat) (a : Asset S M)
    (ha : asset_read g k = some a) :
    ∃ a1, asset_read (reload_entry env g change).assets k = some a1 ∧
      a1.hash = a.hash ∧ a1.name = a.name ∧ a1.kind = a.kind ∧
      (a1 = a ∨ (k = change.key ∧ a1.modtime = change.modtime)) := by
  obtain ⟨_, _, _, _, hd, he, _⟩ := reload_entry_frame fnv1a env g change hk
  by_cases hkc : k = change.key
  · subst hkc
    obtain ⟨a1, h1, h2, h3, h4, h5⟩ := he a ha
    exact ⟨a1, h1, h2, h3, h4, h5.imp id fun h => ⟨rfl, h⟩⟩
  · exact ⟨a, by rw [hd k hkc]; exact ha, rfl, rfl, rfl, Or.inl rfl⟩

/-- What the loop over the changes does to the table, in a table that is `Keyed`. -/
theorem apply_changes_frame {S M : Type} (fnv1a : String → Nat) (env : Env S M) :
    ∀ (cs : List FileChange) (g : Assets S M), Keyed fnv1a g →
    Keyed fnv1a (apply_changes env g cs).assets ∧
    (apply_changes env g cs).assets.table.map Prod.fst = g.table.map Prod.fst ∧
    (apply_changes env g cs).assets.shutdown = g.shutdown ∧
    (apply_changes env g cs).assets.changes = g.changes ∧
    (∀ k, (∀ c ∈ cs, c.key ≠ k) →
      asset_read (apply_changes env g cs).assets k = asset_read g k) ∧
    (∀ k a, asset_read g k = some a →
      ∃ a1, asset_read (apply_changes env g cs).assets k = some a1 ∧
        a1.hash = a.hash ∧ a1.name = a.name ∧ a1.kind = a.kind) ∧
    (∀ e ∈ (apply_changes env g cs).log, ∀ n, e.isDecodeOf n = true →
      ∃ c ∈ cs, fnv1a n = c.key) := by
  intro cs
  induction cs with
  | nil =>
    intro g hk
    refine ⟨hk, rfl, rfl, rfl, fun _ _ => rfl, fun k a ha => ⟨a, ha, rfl, rfl, rfl⟩, ?_⟩
    intro e he; simp [apply_changes] at he
  | cons c rest ih =>
    intro g hk
    obtain ⟨h1, h2, h3, h4, h5, _, h7⟩ := reload_entry_frame fnv1a env g c hk
    by_cases hex : (reload_entry env g c).exit = .next
    · rw [apply_changes_cons_next env g c rest hex]
      obtain ⟨i1, i2, i3, i4, i5, i6, i7⟩ := ih (reload_entry env g c).assets h1
      refine ⟨i1, i2.trans h2, i3.trans h3, i4.trans h4, ?_, ?_, ?_⟩
      · intro k hkc
        rw [i5 k (fun c1 hc1 => hkc c1 (List.mem_cons_of_mem _ hc1))]
        exact h5 k (Ne.symm (hkc c (List.mem_cons_self _ _)))
      · intro k a ha
        obtain ⟨a1, r1, r2, r3, r4, _⟩ := reload_entry_identity fnv1a env g c hk k a ha
        obtain ⟨a2, s1, s2, s3, s4⟩ := i6 k a1 r1
        exact ⟨a2, s1, s2.trans r2, s3.trans r3, s4.trans r4⟩
      · intro e he n hn
        simp only [List.mem_append] at he
        rcases he with he | he
        · exact ⟨c, List.mem_cons_self _ _, h7 e he n hn⟩
        · obtain ⟨c1, hc1, hc2⟩ := i7 e he n hn
          exact ⟨c1, List.mem_cons_of_mem _ hc1, hc2⟩
    · rw [apply_changes_cons_stop env g c rest hex]
      refine ⟨h1, h2, h3, h4, ?_, ?_, ?_⟩
      · intro k hkc
        exact h5 k (Ne.symm (hkc c (List.mem_cons_self _ _)))
      · intro k a ha
        obtain ⟨a1, r1, r2, r3, r4, _⟩ := reload_entry_identity fnv1a env g c hk k a ha
        exact ⟨a1, r1, r2, r3, r4⟩
      · intro e he n hn
        exact ⟨c, List.mem_cons_self _ _, h7 e he n hn⟩

theorem poll_entry_some {S M : Type} (env : Env S M) (v : Asset S M) (c : FileChange)
    (h : poll_entry env v = some c) :
    is_stale env v = true ∧ c = { key := v.hash, modtime := env.os_file_modtime v.name } := by
  unfold poll_entry at h
  by_cases hs : env.os_file_modtime v.name > v.modtime
  · simp only [hs, if_true, Option.some.injEq] at h
    exact ⟨by simp [is_stale, hs], h.symm⟩
  · simp [hs] at h

theorem poll_entry_stale {S M : Type} (env : Env S M) (v : Asset S M)
    (h : is_stale env v = true) :
    poll_entry env v = some { key := v.hash, modtime := env.os_file_modtime v.name } := by
  simp only [is_stale, decide_eq_true_eq] at h
  simp only [poll_entry, h, if_true]

theorem poll_entry_fresh {S M : Type} (env : Env S M) (v : Asset S M)
    (h : is_stale env v = false) : poll_entry env v = none := by
  simp only [is_stale, decide_eq_false_iff_not] at h
  simp only [poll_entry, h, if_false]

theorem mem_poll_changes {S M : Type} (env : Env S M) (t : HashMap (Asset S M))
    (c : FileChange) (h : c ∈ poll_changes env t) :
    ∃ k v, (k, v) ∈ t ∧ is_stale env v = true ∧
      c = { key := v.hash, modtime := env.os_file_modtime v.name } := by
  simp only [poll_changes, List.mem_filterMap] at h
  obtain ⟨⟨k, v⟩, hm, hp⟩ := h
  exact ⟨k, v, hm, poll_entry_some env v c hp⟩

/-- C10. Shutdown preempts polling: if the shutdown flag is set at the top of an iteration of
the loop of `hot_reload_thread`, or the timed wait returns signaled, the thread returns in
that iteration with no call made (no file modtime is queried, no decoder is called, nothing
is written to the table) and with the table, the flag and the change list as they were.  In
particular this is so in any iteration entered after `assets_shutdown` has set the flag. -/
theorem shutdown_preempts_polling {S M : Type} (env : Env S M) (signaled : Bool)
    (g : Assets S M) (h : g.shutdown = true ∨ signaled = true) :
    (hot_reload_iteration env signaled g).exit = .returned ∧
    (hot_reload_iteration env signaled g).log = [] ∧
    (hot_reload_iteration env signaled g).assets = g ∧
    (hot_reload_iteration env signaled (assets_shutdown g)).exit = .returned ∧
    (hot_reload_iteration env signaled (assets_shutdown g)).log = [] ∧
    (hot_reload_iteration env signaled (assets_shutdown g)).assets = assets_shutdown g := by
  have h2 : hot_reload_iteration env signaled (assets_shutdown g) =
      { assets := assets_shutdown g, log := [], exit := .returned } := by
    simp only [hot_reload_iteration, assets_shutdown, if_true]
  have h1 : hot_reload_iteration env signaled g = { assets := g, log := [], exit := .returned } := by
    unfold hot_reload_iteration
    rcases h with h | h
    · simp only [h, if_true]
    · by_cases hs : g.shutdown = true
      · simp only [hs, if_true]
      · simp [hs, h]
  rw [h1, h2]
  exact ⟨rfl, rfl, rfl, rfl, rfl, rfl⟩

/-- C6, as amended.  Reload decode failure is fatal for images, sprites and tile maps: when
the apply phase comes to a change whose record `a` is not of kind `LuaRef` and re-decoding it
fails, the thread returns after `fatal_error("failed to hot reload: " + a.name)`, it has not
written the entry, it processes no further entry of the batch, and the table is as it
was. -/
theorem reload_failure_fatal {S M : Type} (env : Env S M) (g : Assets S M)
    (change : FileChange) (rest : List FileChange) (a : Asset S M)
    (hkind : a.kind ≠ .LuaRef) : ReloadFailureFatal env g change rest a := by
  intro hr hfail
  have hnone : a.kind ≠ .None := by
    intro h; simp [h, decode_fails] at hfail
  have hd : redecode env a = none := by
    unfold redecode
    unfold decode_fails at hfail
    cases hk : a.kind <;> simp only [hk] at hfail hkind hnone ⊢ <;>
      first
      | exact absurd rfl hkind
      | exact absurd rfl hnone
      | (rw [Option.isNone_iff_eq_none] at hfail; rw [hfail]; rfl)
  have hre := reload_entry_abort env g change a hr hnone hd
  have hstop : (reload_entry env g change).exit ≠ .next := by
    rw [hre]; simp [reload_abort]
  rw [apply_changes_cons_stop env g change rest hstop, hre]
  refine ⟨rfl, by simp [reload_abort], ?_, rfl, rfl⟩
  unfold reload_abort reload_calls
  cases a.kind <;> simp [Event.isWrite]

/-- What the block "load new asset" does to the table: only the key of the path is touched,
and the invariant of the table is kept. -/
theorem asset_load_new_frame {S M : Type} (fnv1a : String → Nat) (env : Env S M)
    (g : Assets S M) (kind : AssetKind) (path : String) (key : Nat) :
    (∀ k, k ≠ key → asset_read (asset_load_new env g kind path key).assets k = asset_read g k) ∧
    (TableInv fnv1a g → fnv1a path = key →
      TableInv fnv1a (asset_load_new env g kind path key).assets) := by
  unfold asset_load_new
  cases kind with
  | None => exact ⟨fun _ _ => rfl, fun h _ => h⟩
  | LuaRef =>
    refine ⟨fun k hk => ?_, fun h hp => (h.write _ hp).write _ hp⟩
    simp only
    rw [asset_read_write_ne _ _ k hk, asset_read_write_ne _ _ k hk]
  | Image =>
    cases env.image_load path with
    | none => exact ⟨fun _ _ => rfl, fun h _ => h⟩
    | some img => exact ⟨fun k hk => asset_read_write_ne _ _ k hk, fun h hp => h.write _ hp⟩
  | Sprite =>
    cases env.sprite_data_load path with
    | none => exact ⟨fun _ _ => rfl, fun h _ => h⟩
    | some img => exact ⟨fun k hk => asset_read_write_ne _ _ k hk, fun h hp => h.write _ hp⟩
  | Tilemap =>
    cases env.tilemap_load path with
    | none => exact ⟨fun _ _ => rfl, fun h _ => h⟩
    | some img => exact ⟨fun k hk => asset_read_write_ne _ _ k hk, fun h hp => h.write _ hp⟩

/-- A call of `asset_load` leaves every record of the table as it is and keeps the invariant of
the table. -/
theorem asset_load_frame {S M : Type} (fnv1a : String → Nat) (env : Env S M)
    (g : Assets S M) (kind : AssetKind) (path : String) :
    (∀ k a, asset_read g k = some a →
      asset_read (asset_load fnv1a env g kind path).assets k = some a) ∧
    (TableInv fnv1a g → TableInv fnv1a (asset_load fnv1a env g kind path).assets) := by
  cases hr : asset_read g (fnv1a path) with
  | some a0 =>
    rw [asset_load_hit fnv1a env g kind path a0 hr]
    exact ⟨fun _ _ h => h, fun h => h⟩
  | none =>
    rw [asset_load_miss fnv1a env g kind path hr]
    obtain ⟨h1, h2⟩ := asset_load_new_frame fnv1a env g kind path (fnv1a path)
    refine ⟨fun k a ha => ?_, fun h => h2 h rfl⟩
    rw [h1 k (by intro hk; rw [hk, hr] at ha; cases ha)]
    exact ha

theorem TableInv.with_changes {S M : Type} {fnv1a : String → Nat} {g : Assets S M}
    (h : TableInv fnv1a g) (cs : List FileChange) :
    TableInv fnv1a { g with changes := cs } := h

theorem TableInv.of_keyed {S M : Type} {fnv1a : String → Nat} {g g1 : Assets S M}
    (h : TableInv fnv1a g) (hkeys : g1.table.map Prod.fst = g.table.map Prod.fst)
    (hk : Keyed fnv1a g1) : TableInv fnv1a g1 := by
  have hnd : (g1.table.map Prod.fst).Nodup := by rw [hkeys]; exact h.1
  exact ⟨hnd, fun k a hm => hk k a (hashmap_get_of_mem g1.table k a hnd hm)⟩

theorem hot_reload_iteration_returned {S M : Type} (env : Env S M) (signaled : Bool)
    (g : Assets S M) (h : g.shutdown = true ∨ signaled = true) :
    hot_reload_iteration env signaled g = { assets := g, log := [], exit := .returned } := by
  unfold hot_reload_iteration
  rcases h with h | h
  · simp only [h, if_true]
  · by_cases hs : g.shutdown = true
    · simp only [hs, if_true]
    · simp [hs, h]

theorem hot_reload_iteration_idle {S M : Type} (env : Env S M) (signaled : Bool)
    (g : Assets S M) (hs : g.shutdown = false) (hsig : signaled = false)
    (hcs : poll_changes env g.table = []) :
    hot_reload_iteration env signaled g =
      { assets := { g with changes := [] }, log := poll_log g.table, exit := .next } := by
  unfold hot_reload_iteration
  simp [hs, hsig, hcs]

theorem hot_reload_iteration_apply {S M : Type} (env : Env S M) (signaled : Bool)
    (g : Assets S M) (hs : g.shutdown = false) (hsig : signaled = false)
    (hcs : poll_changes env g.table ≠ []) :
    hot_reload_iteration env signaled g =
      { assets := (apply_changes env { g with changes := poll_changes env g.table }
          (poll_changes env g.table)).assets
        log := poll_log g.table ++ (apply_changes env
          { g with changes := poll_changes env g.table } (poll_changes env g.table)).log
        exit := (apply_changes env { g with changes := poll_changes env g.table }
          (poll_changes env g.table)).exit } := by
  unfold hot_reload_iteration
  have hlen : (poll_changes env g.table).length > 0 := List.length_pos.mpr hcs
  simp only [hs, hsig, hlen, if_true]
  simp

/-- The three ways an iteration of the monitor goes. -/
theorem hot_reload_iteration_cases {S M : Type} (env : Env S M) (signaled : Bool)
    (g : Assets S M) :
    hot_reload_iteration env signaled g = { assets := g, log := [], exit := .returned } ∨
    hot_reload_iteration env signaled g =
      { assets := { g with changes := [] }, log := poll_log g.table, exit := .next } ∨
    (poll_changes env g.table ≠ [] ∧ hot_reload_iteration env signaled g =
      { assets := (apply_changes env { g with changes := poll_changes env g.table }
          (poll_changes env g.table)).assets
        log := poll_log g.table ++ (apply_changes env
          { g with changes := poll_changes env g.table } (poll_changes env g.table)).log
        exit := (apply_changes env { g with changes := poll_changes env g.table }
          (poll_changes env g.table)).exit }) := by
  by_cases hs : g.shutdown = true
  · exact Or.inl (hot_reload_iteration_returned env signaled g (Or.inl hs))
  · by_cases hsig : signaled = true
    · exact Or.inl (hot_reload_iteration_returned env signaled g (Or.inr hsig))
    · have hs1 : g.shutdown = false := by simpa using hs
      have hsig1 : signaled = false := by simpa using hsig
      by_cases hcs : poll_changes env g.table = []
      · exact Or.inr (Or.inl (hot_reload_iteration_idle env signaled g hs1 hsig1 hcs))
      · exact Or.inr (Or.inr ⟨hcs, hot_reload_iteration_apply env signaled g hs1 hsig1 hcs⟩)

/-- One iteration of the monitor keeps the keys and the identity of the records, and the
invariant of the table. -/
theorem hot_reload_iteration_frame {S M : Type} (fnv1a : String → Nat) (env : Env S M)
    (signaled : Bool) (g : Assets S M) (hinv : TableInv fnv1a g) :
    TableInv fnv1a (hot_reload_iteration env signaled g).assets ∧
    (∀ k a, asset_read g k = some a →
      ∃ a1, asset_read (hot_reload_iteration env signaled g).assets k = some a1 ∧
        a1.hash = a.hash ∧ a1.name = a.name ∧ a1.kind = a.kind) := by
  rcases hot_reload_iteration_cases env signaled g with h | h | ⟨_, h⟩ <;> rw [h]
  · exact ⟨hinv, fun k a ha => ⟨a, ha, rfl, rfl, rfl⟩⟩
  · exact ⟨hinv.with_changes _, fun k a ha => ⟨a, ha, rfl, rfl, rfl⟩⟩
  · have hinv1 := hinv.with_changes (poll_changes env g.table)
    obtain ⟨h1, h2, _, _, _, h6, _⟩ := apply_changes_frame fnv1a env
      (poll_changes env g.table) _ hinv1.keyed
    exact ⟨hinv1.of_keyed h2 h1, fun k a ha => h6 k a ha⟩

/-- C7. The cache is additive and the identity of a record does not change.  Let the table be
one the cache has built (`TableInv`: no key twice, every record under its own hash, which is
the hash of its name) and let a record be stored under the key `k`.  After a call of
`asset_load` (hit or miss, successful or not, any kind and path), and after an iteration of
the monitor (whether it returns at once, polls only, applies a batch or stops on a fatal
error), the key `k` is still in the table and its record has the same `hash`, the same `name`
and the same `kind`. -/
theorem cache_additive {S M : Type} (fnv1a : String → Nat) (env : Env S M) (g : Assets S M)
    (hinv : TableInv fnv1a g) (k : Nat) (a : Asset S M) (hk : asset_read g k = some a) :
    (∀ kind path, ∃ a1, asset_read (asset_load fnv1a env g kind path).assets k = some a1 ∧
      a1.hash = a.hash ∧ a1.name = a.name ∧ a1.kind = a.kind) ∧
    (∀ signaled, ∃ a1, asset_read (hot_reload_iteration env signaled g).assets k = some a1 ∧
      a1.hash = a.hash ∧ a1.name = a.name ∧ a1.kind = a.kind) :=
  ⟨fun kind path => ⟨a, (asset_load_frame fnv1a env g kind path).1 k a hk, rfl, rfl, rfl⟩,
    fun signaled => (hot_reload_iteration_frame fnv1a env signaled g hinv).2 k a hk⟩

theorem redecode_none_fails {S M : Type} (env : Env S M) (b : Asset S M)
    (hnone : b.kind ≠ .None) (hd : redecode env b = none) :
    decode_fails env b.kind b.name = true := by
  obtain ⟨name, hash, modtime, kind, payload⟩ := b
  cases kind <;> simp_all [redecode, decode_fails]

theorem apply_changes_append {S M : Type} (env : Env S M) :
    ∀ (cs1 cs2 : List FileChange) (g : Assets S M),
    (apply_changes env g cs1).exit = .next →
    apply_changes env g (cs1 ++ cs2) =
      { assets := (apply_changes env (apply_changes env g cs1).assets cs2).assets
        log := (apply_changes env g cs1).log ++
          (apply_changes env (apply_changes env g cs1).assets cs2).log
        exit := (apply_changes env (apply_changes env g cs1).assets cs2).exit } := by
  intro cs1
  induction cs1 with
  | nil => intro cs2 g _; simp [apply_changes]
  | cons c rest ih =>
    intro cs2 g h
    by_cases hex : (reload_entry env g c).exit = .next
    · rw [apply_changes_cons_next env g c rest hex] at h ⊢
      rw [List.cons_append, apply_changes_cons_next env g c (rest ++ cs2) hex, ih cs2 _ h]
      simp only [List.append_assoc]
    · rw [apply_changes_cons_stop env g c rest hex] at h
      exact absurd h hex

/-- A record that is read back after a successful reload. -/
theorem reload_entry_takes_effect {S M : Type} (fnv1a : String → Nat) (env : Env S M)
    (g : Assets S M) (change : FileChange) (hk : Keyed fnv1a g) (a : Asset S M)
    (p : Payload S M) (hr : asset_read g change.key = some a) (hd : redecode env a = some p) :
    (reload_entry env g change).exit = .next ∧
    asset_read (reload_entry env g change).assets change.key
      = some { a with modtime := change.modtime, payload := p } := by
  have hnone : a.kind ≠ .None := by
    intro h; simp [redecode, h] at hd
  rw [reload_entry_commit env g change a p hr hnone hd]
  refine ⟨rfl, ?_⟩
  have := asset_read_write_self g ({ a with modtime := change.modtime, payload := p } : Asset S M)
  simpa only [reload_commit, (hk _ _ hr).1] using this

/-- The apply phase runs through the changes of a run of table entries none of which fails
to decode. -/
theorem apply_changes_prefix {S M : Type} (fnv1a : String → Nat) (env : Env S M) :
    ∀ (t1 : HashMap (Asset S M)) (g : Assets S M), Keyed fnv1a g →
    (t1.map Prod.fst).Nodup →
    (∀ k b, (k, b) ∈ t1 → asset_read g k = some b) →
    (∀ k b, (k, b) ∈ t1 → is_stale env b = true → b.kind ≠ .LuaRef →
      decode_fails env b.kind b.name = false) →
    (apply_changes env g (poll_changes env t1)).exit = .next := by
  intro t1
  induction t1 with
  | nil => intro g _ _ _ _; rfl
  | cons e t1 ih =>
    obtain ⟨k, b⟩ := e
    intro g hk hnd hread hok
    simp only [List.map_cons, List.nodup_cons] at hnd
    have hread1 : ∀ k1 b1, (k1, b1) ∈ t1 → asset_read g k1 = some b1 :=
      fun k1 b1 h => hread k1 b1 (List.mem_cons_of_mem _ h)
    have hok1 : ∀ k1 b1, (k1, b1) ∈ t1 → is_stale env b1 = true → b1.kind ≠ .LuaRef →
        decode_fails env b1.kind b1.name = false :=
      fun k1 b1 h => hok k1 b1 (List.mem_cons_of_mem _ h)
    have hb := hread k b (List.mem_cons_self _ _)
    cases hst : is_stale env b with
    | false =>
      have : poll_changes env ((k, b) :: t1) = poll_changes env t1 := by
        simp only [poll_changes, List.filterMap_cons, poll_entry_fresh env b hst]
      rw [this]
      exact ih g hk hnd.2 hread1 hok1
    | true =>
      have : poll_changes env ((k, b) :: t1) =
          { key := b.hash, modtime := env.os_file_modtime b.name } :: poll_changes env t1 := by
        simp only [poll_changes, List.filterMap_cons, poll_entry_stale env b hst]
      rw [this]
      have hbk : b.hash = k := (hk k b hb).1
      obtain ⟨f1, _, _, _, f5, _, _⟩ := reload_entry_frame fnv1a env g
        { key := b.hash, modtime := env.os_file_modtime b.name } hk
      have hex : (reload_entry env g
          { key := b.hash, modtime := env.os_file_modtime b.name }).exit = .next := by
        have hb1 : asset_read g
            ({ key := b.hash, modtime := env.os_file_modtime b.name } : FileChange).key
            = some b := by simp only [hbk]; exact hb
        by_cases hnone : b.kind = .None
        · rw [reload_entry_skip env g _ b hb1 hnone]
        · cases hd : redecode env b with
          | some p => exact (reload_entry_takes_effect fnv1a env g _ hk b p hb1 hd).1
          | none =>
            exfalso
            have hlua : b.kind ≠ .LuaRef := by
              intro h; simp [redecode, h] at hd
            have hf := hok k b (List.mem_cons_self _ _) hst hlua
            rw [redecode_none_fails env b hnone hd] at hf
            cases hf
      rw [apply_changes_cons_next env g _ _ hex]
      apply ih _ f1 hnd.2 _ hok1
      intro k1 b1 hm
      have hne : k1 ≠ b.hash := by
        rw [hbk]
        intro h
        apply hnd.1
        rw [← h]
        exact List.mem_map_of_mem Prod.fst hm
      rw [f5 k1 hne]
      exact hread1 k1 b1 hm

theorem decode_fails_redecode {S M : Type} (env : Env S M) (b : Asset S M)
    (hlua : b.kind ≠ .LuaRef) (hf : decode_fails env b.kind b.name = true) :
    b.kind ≠ .None ∧ redecode env b = none := by
  obtain ⟨name, hash, modtime, kind, payload⟩ := b
  cases kind <;> simp_all [redecode, decode_fails]

/-- The apply phase does not run through the changes of a run of table entries one of which
is a changed image, sprite or tile map that fails to decode. -/
theorem apply_changes_prefix_stop {S M : Type} (fnv1a : String → Nat) (env : Env S M) :
    ∀ (t1 : HashMap (Asset S M)) (g : Assets S M), Keyed fnv1a g →
    (t1.map Prod.fst).Nodup →
    (∀ k b, (k, b) ∈ t1 → asset_read g k = some b) →
    (∃ k b, (k, b) ∈ t1 ∧ is_stale env b = true ∧ b.kind ≠ .LuaRef ∧
      decode_fails env b.kind b.name = true) →
    (apply_changes env g (poll_changes env t1)).exit ≠ .next := by
  intro t1
  induction t1 with
  | nil =>
    intro g _ _ _ hex
    obtain ⟨k, b, hm, _⟩ := hex
    simp at hm
  | cons e t1 ih =>
    obtain ⟨k, b⟩ := e
    intro g hk hnd hread hex
    simp only [List.map_cons, List.nodup_cons] at hnd
    have hread1 : ∀ k1 b1, (k1, b1) ∈ t1 → asset_read g k1 = some b1 :=
      fun k1 b1 h => hread k1 b1 (List.mem_cons_of_mem _ h)
    have hb := hread k b (List.mem_cons_self _ _)
    have hbk : b.hash = k := (hk k b hb).1
    obtain ⟨k2, b2, hm2, hst2, hlua2, hf2⟩ := hex
    cases hst : is_stale env b with
    | false =>
      have : poll_changes env ((k, b) :: t1) = poll_changes env t1 := by
        simp only [poll_changes, List.filterMap_cons, poll_entry_fresh env b hst]
      rw [this]
      refine ih g hk hnd.2 hread1 ⟨k2, b2, ?_, hst2, hlua2, hf2⟩
      rcases List.mem_cons.mp hm2 with h | h
      · cases h
        rw [hst] at hst2
        cases hst2
      · exact h
    | true =>
      have : poll_changes env ((k, b) :: t1) =
          { key := b.hash, modtime := env.os_file_modtime b.name } :: poll_changes env t1 := by
        simp only [poll_changes, List.filterMap_cons, poll_entry_stale env b hst]
      rw [this]
      have hb1 : asset_read g
          ({ key := b.hash, modtime := env.os_file_modtime b.name } : FileChange).key
          = some b := by simp only [hbk]; exact hb
      by_cases hex : (reload_entry env g
          { key := b.hash, modtime := env.os_file_modtime b.name }).exit = .next
      · rw [apply_changes_cons_next env g _ _ hex]
        obtain ⟨f1, _, _, _, f5, _, _⟩ := reload_entry_frame fnv1a env g
          { key := b.hash, modtime := env.os_file_modtime b.name } hk
        refine ih _ f1 hnd.2 ?_ ⟨k2, b2, ?_, hst2, hlua2, hf2⟩
        · intro k1 b1 hm
          have hne : k1 ≠ b.hash := by
            rw [hbk]
            intro h
            apply hnd.1
            rw [← h]
            exact List.mem_map_of_mem Prod.fst hm
          rw [f5 k1 hne]
          exact hread1 k1 b1 hm
        · rcases List.mem_cons.mp hm2 with h | h
          · exfalso
            cases h
            obtain ⟨hnone, hd⟩ := decode_fails_redecode env b hlua2 hf2
            rw [reload_entry_abort env g _ b hb1 hnone hd] at hex
            simp [reload_abort] at hex
          · exact h
      · rw [apply_changes_cons_stop env g _ _ hex]
        exact hex

theorem poll_log_no_decode {S M : Type} (t : HashMap (Asset S M)) (n : String) :
    ∀ e ∈ (poll_log t : List (Event S M)), e.isDecodeOf n = false := by
  intro e he
  simp only [poll_log, List.mem_map] at he
  obtain ⟨kv, _, rfl⟩ := he
  rfl

/-- In a table that satisfies the invariant, no change of the polling phase has the key of a
record that is stored and not stale. -/
theorem poll_changes_key_ne {S M : Type} (fnv1a : String → Nat) (env : Env S M)
    (g : Assets S M) (hinv : TableInv fnv1a g) (b : Asset S M)
    (hb : asset_read g b.hash = some b) (hfresh : is_stale env b = false) :
    ∀ c ∈ poll_changes env g.table, c.key ≠ b.hash := by
  intro c hc hkey
  obtain ⟨k, v, hm, hst, rfl⟩ := mem_poll_changes env g.table c hc
  have hv := hinv.read_of_mem hm
  have hk : v.hash = k := (hinv.2 k v hm).1
  simp only at hkey
  rw [← hkey, hk, hv] at hb
  cases hb
  rw [hst] at hfresh
  cases hfresh

theorem apply_changes_append_stop {S M : Type} (env : Env S M) :
    ∀ (cs1 cs2 : List FileChange) (g : Assets S M),
    (apply_changes env g cs1).exit ≠ .next →
    apply_changes env g (cs1 ++ cs2) = apply_changes env g cs1 := by
  intro cs1
  induction cs1 with
  | nil => intro cs2 g h; exact absurd rfl h
  | cons c rest ih =>
    intro cs2 g h
    by_cases hex : (reload_entry env g c).exit = .next
    · rw [apply_changes_cons_next env g c rest hex] at h ⊢
      rw [List.cons_append, apply_changes_cons_next env g c (rest ++ cs2) hex, ih cs2 _ h]
    · rw [apply_changes_cons_stop env g c rest hex, List.cons_append,
        apply_changes_cons_stop env g c (rest ++ cs2) hex]

theorem reload_entry_commit_log {S M : Type} (env : Env S M) (g : Assets S M)
    (change : FileChange) (a : Asset S M) (p : Payload S M)
    (hr : asset_read g change.key = some a) (hd : redecode env a = some p) :
    ∃ e ∈ (reload_entry env g change).log, e.isDecodeOf a.name = true := by
  have hnone : a.kind ≠ .None := by
    intro h; simp [redecode, h] at hd
  rw [reload_entry_commit env g change a p hr hnone hd]
  obtain ⟨name, hash, modtime, kind, payload⟩ := a
  cases kind
  · exact absurd rfl hnone
  · exact ⟨.luax_require_script name, by simp [reload_commit, reload_calls],
      by simp [Event.isDecodeOf]⟩
  · exact ⟨.image_load name, by simp [reload_commit, reload_calls], by simp [Event.isDecodeOf]⟩
  · exact ⟨.sprite_data_load name, by simp [reload_commit, reload_calls],
      by simp [Event.isDecodeOf]⟩
  · exact ⟨.tilemap_load name, by simp [reload_commit, reload_calls],
      by simp [Event.isDecodeOf]⟩

/-- The apply phase on the changes of a table `t1 ++ (a.hash, a) :: t2` in which `a` is stale
and decodes.  If the changes of `t1` are run through, the decoder is called on the file of `a`
and the record of `a` is replaced, whatever happens with the changes of `t2`.  If they are not
run through, the record of `a` stays as it is and no decoder is called on the file of `a`. -/
theorem apply_changes_at {S M : Type} (fnv1a : String → Nat) (env : Env S M)
    (t1 t2 : HashMap (Asset S M)) (a : Asset S M) (p : Payload S M) (g1 : Assets S M)
    (hk1 : Keyed fnv1a g1) (hnd : ((t1 ++ (a.hash, a) :: t2).map Prod.fst).Nodup)
    (hkey : ∀ k v, (k, v) ∈ t1 ++ (a.hash, a) :: t2 → v.hash = k)
    (hrd : asset_read g1 a.hash = some a) (hfn : fnv1a a.name = a.hash)
    (hst : is_stale env a = true) (hd : redecode env a = some p) :
    ((apply_changes env g1 (poll_changes env t1)).exit = .next →
      asset_read (apply_changes env g1 (poll_changes env (t1 ++ (a.hash, a) :: t2))).assets
        a.hash = some { a with modtime := env.os_file_modtime a.name, payload := p } ∧
      ∃ e ∈ (apply_changes env g1 (poll_changes env (t1 ++ (a.hash, a) :: t2))).log,
        e.isDecodeOf a.name = true) ∧
    ((apply_changes env g1 (poll_changes env t1)).exit ≠ .next →
      asset_read (apply_changes env g1 (poll_changes env (t1 ++ (a.hash, a) :: t2))).assets
        a.hash = some a ∧
      ∀ e ∈ (apply_changes env g1 (poll_changes env (t1 ++ (a.hash, a) :: t2))).log,
        e.isDecodeOf a.name = false) := by
  rw [List.map_append, List.map_cons, List.nodup_append] at hnd
  obtain ⟨_, hnd2, hdisj⟩ := hnd
  simp only [List.nodup_cons] at hnd2
  have ha1 : a.hash ∉ t1.map Prod.fst := fun h => hdisj h (List.mem_cons_self _ _)
  have hsplit : poll_changes env (t1 ++ (a.hash, a) :: t2) = poll_changes env t1 ++
      ({ key := a.hash, modtime := env.os_file_modtime a.name } :: poll_changes env t2) := by
    simp only [poll_changes, List.filterMap_append, List.filterMap_cons,
      poll_entry_stale env a hst]
  have hkeys1 : ∀ c ∈ poll_changes env t1, c.key ≠ a.hash := by
    intro c hc hck
    obtain ⟨k, v, hm, _, rfl⟩ := mem_poll_changes env t1 c hc
    have hkv : v.hash = k := hkey k v (List.mem_append_left _ hm)
    simp only at hck
    apply ha1
    rw [← hck, hkv]
    exact List.mem_map_of_mem Prod.fst hm
  have hkeys2 : ∀ c ∈ poll_changes env t2, c.key ≠ a.hash := by
    intro c hc hck
    obtain ⟨k, v, hm, _, rfl⟩ := mem_poll_changes env t2 c hc
    have hkv : v.hash = k :=
      hkey k v (List.mem_append_right _ (List.mem_cons_of_mem _ hm))
    simp only at hck
    apply hnd2.1
    rw [← hck, hkv]
    exact List.mem_map_of_mem Prod.fst hm
  obtain ⟨f1, _, _, _, f5, _, f7⟩ :=
    apply_changes_frame fnv1a env (poll_changes env t1) g1 hk1
  rw [hsplit]
  constructor
  · intro hpre
    rw [apply_changes_append env _ _ _ hpre]
    simp only
    have hread : asset_read (apply_changes env g1 (poll_changes env t1)).assets a.hash
        = some a := by rw [f5 a.hash hkeys1]; exact hrd
    obtain ⟨e1, e2⟩ := reload_entry_takes_effect fnv1a env _
      { key := a.hash, modtime := env.os_file_modtime a.name } f1 a p hread hd
    obtain ⟨e, he1, he2⟩ := reload_entry_commit_log env _
      { key := a.hash, modtime := env.os_file_modtime a.name } a p hread hd
    rw [apply_changes_cons_next env _ _ _ e1]
    simp only
    obtain ⟨r1, _, _, _, _, _, _⟩ := reload_entry_frame fnv1a env
      (apply_changes env g1 (poll_changes env t1)).assets
      { key := a.hash, modtime := env.os_file_modtime a.name } f1
    obtain ⟨_, _, _, _, s5, _, _⟩ :=
      apply_changes_frame fnv1a env (poll_changes env t2) _ r1
    refine ⟨by rw [s5 a.hash hkeys2]; exact e2, e, ?_, he2⟩
    exact List.mem_append_right _ (List.mem_append_left _ he1)
  · intro hpre
    rw [apply_changes_append_stop env _ _ _ hpre]
    refine ⟨by rw [f5 a.hash hkeys1]; exact hrd, fun e he => ?_⟩
    cases hdec : e.isDecodeOf a.name with
    | false => rfl
    | true =>
      obtain ⟨c, hc, hck⟩ := f7 e he a.name hdec
      rw [hfn] at hck
      exact absurd hck.symm (hkeys1 c hc)

/-- An iteration on a table `t1 ++ (a.hash, a) :: t2` the cache has built, in which `a` is
stale and decodes: the iteration polls and applies, and what becomes of `a` is decided by the
changes of `t1`. -/
theorem hot_reload_iteration_at {S M : Type} (fnv1a : String → Nat) (env : Env S M)
    (g : Assets S M) (hinv : TableInv fnv1a g) (hrun : g.shutdown = false)
    (t1 : HashMap (Asset S M)) (a : Asset S M) (t2 : HashMap (Asset S M)) (p : Payload S M)
    (htab : g.table = t1 ++ (a.hash, a) :: t2) (hst : is_stale env a = true)
    (hd : redecode env a = some p) :
    ((apply_changes env { g with changes := poll_changes env g.table }
        (poll_changes env t1)).exit = .next →
      asset_read (hot_reload_iteration env false g).assets a.hash
        = some { a with modtime := env.os_file_modtime a.name, payload := p } ∧
      ∃ e ∈ (hot_reload_iteration env false g).log, e.isDecodeOf a.name = true) ∧
    ((apply_changes env { g with changes := poll_changes env g.table }
        (poll_changes env t1)).exit ≠ .next →
      asset_read (hot_reload_iteration env false g).assets a.hash = some a ∧
      ∀ e ∈ (hot_reload_iteration env false g).log, e.isDecodeOf a.name = false) := by
  have hinv1 := hinv.with_changes (poll_changes env g.table)
  have hcs : poll_changes env g.table ≠ [] := by
    rw [htab]
    simp [poll_changes, List.filterMap_append, poll_entry_stale env a hst]
  have hmema : (a.hash, a) ∈ g.table := by rw [htab]; simp
  have hiter := hot_reload_iteration_apply env false g hrun rfl hcs
  obtain ⟨hyes, hno⟩ :=
    apply_changes_at fnv1a env t1 t2 a p { g with changes := poll_changes env g.table }
      hinv1.keyed (by rw [← htab]; exact hinv.1)
      (fun k v h => (hinv.2 k v (by rw [htab]; exact h)).1)
      (hinv1.read_of_mem hmema) (hinv.2 _ _ hmema).2 hst hd
  rw [← htab] at hyes hno
  rw [hiter]
  refine ⟨fun hpre => ?_, fun hpre => ⟨(hno hpre).1, fun e he => ?_⟩⟩
  · obtain ⟨h1, e, he1, he2⟩ := hyes hpre
    exact ⟨h1, e, List.mem_append_right _ he1, he2⟩
  · simp only [List.mem_append] at he
    rcases he with he | he
    · exact poll_log_no_decode g.table a.name e he
    · exact (hno hpre).2 e he

/-- C4, as amended.  Hot reload takes effect.  Let the table be one the cache has built
(`TableInv`) and let the thread not be told to stop, so that the iteration polls and applies.
(1) Let the record `a` be stored, after the records `t1` in iteration order, with a file whose
modtime `T1` is observed greater than the stored modtime, let the decoder succeed on the file
of `a` with payload `p`, and let no image, sprite or tile map among the records of `t1` that
are found changed fail to decode.  Then the iteration calls the decoder on the file of `a`,
and after it `asset_read(a.hash)` returns `a` with modtime `T1` and payload `p`.  (2) For
every stored record whose file modtime is not greater than its stored modtime, the iteration
calls no decoder on its file and leaves the record as it is. -/
theorem hot_reload_takes_effect {S M : Type} (fnv1a : String → Nat) (env : Env S M)
    (g : Assets S M) (hinv : TableInv fnv1a g) (hrun : g.shutdown = false) :
    (∀ t1 a t2 p, g.table = t1 ++ (a.hash, a) :: t2 → is_stale env a = true →
      redecode env a = some p →
      (∀ k b, (k, b) ∈ t1 → is_stale env b = true → b.kind ≠ .LuaRef →
        decode_fails env b.kind b.name = false) →
      (∃ e ∈ (hot_reload_iteration env false g).log, e.isDecodeOf a.name = true) ∧
      asset_read (hot_reload_iteration env false g).assets a.hash
        = some { a with modtime := env.os_file_modtime a.name, payload := p }) ∧
    (∀ b, asset_read g b.hash = some b → is_stale env b = false →
      asset_read (hot_reload_iteration env false g).assets b.hash = some b ∧
      ∀ e ∈ (hot_reload_iteration env false g).log, e.isDecodeOf b.name = false) := by
  have hinv1 := hinv.with_changes (poll_changes env g.table)
  refine ⟨?_, ?_⟩
  · intro t1 a t2 p htab hst hd hok
    obtain ⟨hyes, _⟩ := hot_reload_iteration_at fnv1a env g hinv hrun t1 a t2 p htab hst hd
    have hnd := hinv.1
    rw [htab, List.map_append, List.nodup_append] at hnd
    have hpre := apply_changes_prefix fnv1a env t1
      { g with changes := poll_changes env g.table } hinv1.keyed hnd.1
      (fun k b h => hinv1.read_of_mem (by rw [htab]; exact List.mem_append_left _ h)) hok
    obtain ⟨h1, h2⟩ := hyes hpre
    exact ⟨h2, h1⟩
  · intro b hb hfresh
    rcases hot_reload_iteration_cases env false g with h | h | ⟨_, h⟩ <;> rw [h]
    · exact ⟨hb, fun e he => by simp at he⟩
    · exact ⟨hb, poll_log_no_decode g.table b.name⟩
    · have hinv1 := hinv.with_changes (poll_changes env g.table)
      obtain ⟨_, _, _, _, f5, _, f7⟩ := apply_changes_frame fnv1a env
        (poll_changes env g.table) _ hinv1.keyed
      have hne := poll_changes_key_ne fnv1a env g hinv b hb hfresh
      refine ⟨by rw [f5 b.hash hne]; exact hb, ?_⟩
      intro e he
      simp only [List.mem_append] at he
      rcases he with he | he
      · exact poll_log_no_decode g.table b.name e he
      · cases hdec : e.isDecodeOf b.name with
        | false => rfl
        | true =>
          obtain ⟨c, hc, hkey⟩ := f7 e he b.name hdec
          rw [(hinv.keyed b.hash b hb).2] at hkey
          exact absurd hkey.symm (hne c hc)

/-- A changed record that the iteration re-decodes takes the new modtime and payload: if the
decoder is called on the file of the stale record `a` and succeeds with payload `p`, then
after the iteration `asset_read(a.hash)` returns `a` with the file's modtime and `p`. -/
theorem hot_reload_redecoded {S M : Type} (fnv1a : String → Nat) (env : Env S M)
    (g : Assets S M) (hinv : TableInv fnv1a g) (hrun : g.shutdown = false)
    (a : Asset S M) (p : Payload S M) (hstored : asset_read g a.hash = some a)
    (hst : is_stale env a = true)
    (hlog : ∃ e ∈ (hot_reload_iteration env false g).log, e.isDecodeOf a.name = true)
    (hd : redecode env a = some p) :
    asset_read (hot_reload_iteration env false g).assets a.hash
      = some { a with modtime := env.os_file_modtime a.name, payload := p } := by
  obtain ⟨t1, t2, htab⟩ := List.append_of_mem (hashmap_get_mem g.table a.hash a hstored)
  obtain ⟨hyes, hno⟩ := hot_reload_iteration_at fnv1a env g hinv hrun t1 a t2 p htab hst hd
  by_cases hpre : (apply_changes env { g with changes := poll_changes env g.table }
      (poll_changes env t1)).exit = .next
  · exact (hyes hpre).1
  · obtain ⟨e, he, hdec⟩ := hlog
    rw [(hno hpre).2 e he] at hdec
    cases hdec

/-- The amendment of C4 leaves out no case it need not leave out: when a changed image,
sprite or tile map iterated before the changed record `a` fails to decode, the iteration
leaves the record of `a` as it is and calls no decoder on its file, although the file
decodes. -/
theorem hot_reload_stops_before {S M : Type} (fnv1a : String → Nat) (env : Env S M)
    (g : Assets S M) (hinv : TableInv fnv1a g) (hrun : g.shutdown = false)
    (t1 : HashMap (Asset S M)) (a : Asset S M) (t2 : HashMap (Asset S M)) (p : Payload S M)
    (htab : g.table = t1 ++ (a.hash, a) :: t2) (hst : is_stale env a = true)
    (hd : redecode env a = some p)
    (hfail : ∃ k b, (k, b) ∈ t1 ∧ is_stale env b = true ∧ b.kind ≠ .LuaRef ∧
      decode_fails env b.kind b.name = true) :
    asset_read (hot_reload_iteration env false g).assets a.hash = some a ∧
    ∀ e ∈ (hot_reload_iteration env false g).log, e.isDecodeOf a.name = false := by
  have hinv1 := hinv.with_changes (poll_changes env g.table)
  obtain ⟨_, hno⟩ := hot_reload_iteration_at fnv1a env g hinv hrun t1 a t2 p htab hst hd
  have hnd := hinv.1
  rw [htab, List.map_append, List.nodup_append] at hnd
  exact hno (apply_changes_prefix_stop fnv1a env t1
    { g with changes := poll_changes env g.table } hinv1.keyed hnd.1
    (fun k b h => hinv1.read_of_mem (by rw [htab]; exact List.mem_append_left _ h)) hfail)

theorem writes_increase_skip {S M : Type} (l : List (Event S M))
    (hl : ∀ e ∈ l, e.isWrite = false) (g : Assets S M) (l2 : List (Event S M)) :
    writes_increase g (l ++ l2) = writes_increase g l2 := by
  induction l with
  | nil => rfl
  | cons e l ih =>
    have he := hl e (List.mem_cons_self _ _)
    have ih1 := ih (fun e1 h1 => hl e1 (List.mem_cons_of_mem _ h1))
    cases e <;> first | (simp [Event.isWrite] at he; done) | simpa [writes_increase] using ih1

theorem writes_increase_table {S M : Type} (l : List (Event S M)) :
    ∀ g g1 : Assets S M, g.table = g1.table → writes_increase g l = writes_increase g1 l := by
  induction l with
  | nil => intro _ _ _; rfl
  | cons e l ih =>
    intro g g1 h
    cases e with
    | asset_write a =>
      have h1 : asset_read g a.hash = asset_read g1 a.hash := by simp only [asset_read, h]
      have h2 : (asset_write g a).table = (asset_write g1 a).table := by
        simp only [asset_write, h]
      simp only [writes_increase, h1, ih _ _ h2]
    | _ => simpa only [writes_increase] using ih g g1 h

theorem reload_calls_no_write {S M : Type} (a : Asset S M) :
    ∀ e ∈ reload_calls a, e.isWrite = false := by
  obtain ⟨name, hash, modtime, kind, payload⟩ := a
  intro e he
  cases kind <;> simp only [reload_calls, List.mem_cons, List.mem_singleton,
    List.not_mem_nil, or_false] at he <;>
    first | exact absurd he id | (rcases he with he | he <;> subst he <;> rfl)

theorem poll_log_no_write {S M : Type} (t : HashMap (Asset S M)) :
    ∀ e ∈ (poll_log t : List (Event S M)), e.isWrite = false := by
  intro e he
  simp only [poll_log, List.mem_map] at he
  obtain ⟨kv, _, rfl⟩ := he
  rfl

/-- The writes of one pass of the loop over the changes, followed by a log `l2`. -/
theorem writes_increase_reload_entry {S M : Type} (fnv1a : String → Nat) (env : Env S M)
    (g : Assets S M) (c : FileChange) (hk : Keyed fnv1a g)
    (hc : ∀ a, asset_read g c.key = some a → a.modtime < c.modtime)
    (l2 : List (Event S M)) :
    writes_increase g ((reload_entry env g c).log ++ l2)
      = writes_increase (reload_entry env g c).assets l2 := by
  cases hr : asset_read g c.key with
  | none => rw [reload_entry_none env g c hr]; rfl
  | some a0 =>
    by_cases hnone : a0.kind = .None
    · rw [reload_entry_skip env g c a0 hr hnone]; rfl
    · cases hd : redecode env a0 with
      | none =>
        rw [reload_entry_abort env g c a0 hr hnone hd]
        simp only [reload_abort, List.append_assoc]
        rw [writes_increase_skip _ (reload_calls_no_write a0)]
        rfl
      | some p =>
        rw [reload_entry_commit env g c a0 p hr hnone hd]
        simp only [reload_commit, List.append_assoc]
        rw [writes_increase_skip _ (reload_calls_no_write a0)]
        have h0 := (hk _ _ hr).1
        simp only [List.cons_append, List.nil_append, writes_increase, h0, hr,
          decide_eq_true (hc a0 hr), Bool.true_and]
        rfl

/-- In the apply phase every write stores a modtime greater than the one stored at that
moment, and no modtime decreases, if the changes have distinct keys and each carries a
modtime greater than the one stored under its key. -/
theorem apply_changes_monotone {S M : Type} (fnv1a : String → Nat) (env : Env S M) :
    ∀ (cs : List FileChange) (g : Assets S M), Keyed fnv1a g →
    (cs.map FileChange.key).Nodup →
    (∀ c ∈ cs, ∀ a, asset_read g c.key = some a → a.modtime < c.modtime) →
    writes_increase g (apply_changes env g cs).log = true ∧
    (∀ k a, asset_read g k = some a →
      ∃ a1, asset_read (apply_changes env g cs).assets k = some a1 ∧
        a.modtime ≤ a1.modtime) := by
  intro cs
  induction cs with
  | nil => intro g _ _ _; exact ⟨rfl, fun k a ha => ⟨a, ha, Nat.le_refl _⟩⟩
  | cons c rest ih =>
    intro g hk hnd hlt
    simp only [List.map_cons, List.nodup_cons] at hnd
    have hc := hlt c (List.mem_cons_self _ _)
    obtain ⟨f1, _, _, _, f5, _, _⟩ := reload_entry_frame fnv1a env g c hk
    have hstep : ∀ k a, asset_read g k = some a →
        ∃ a1, asset_read (reload_entry env g c).assets k = some a1 ∧
          a.modtime ≤ a1.modtime := by
      intro k a ha
      obtain ⟨a1, r1, _, _, _, r5⟩ := reload_entry_identity fnv1a env g c hk k a ha
      refine ⟨a1, r1, ?_⟩
      rcases r5 with r5 | ⟨r5, r6⟩
      · rw [r5]
      · rw [r6]; subst r5; exact Nat.le_of_lt (hc a ha)
    by_cases hex : (reload_entry env g c).exit = .next
    · rw [apply_changes_cons_next env g c rest hex]
      have hlt1 : ∀ c1 ∈ rest, ∀ a,
          asset_read (reload_entry env g c).assets c1.key = some a → a.modtime < c1.modtime := by
        intro c1 hc1 a ha
        have hne : c1.key ≠ c.key := by
          intro h
          apply hnd.1
          rw [← h]
          exact List.mem_map_of_mem FileChange.key hc1
        rw [f5 c1.key hne] at ha
        exact hlt c1 (List.mem_cons_of_mem _ hc1) a ha
      obtain ⟨i1, i2⟩ := ih (reload_entry env g c).assets f1 hnd.2 hlt1
      refine ⟨?_, ?_⟩
      · simp only
        rw [writes_increase_reload_entry fnv1a env g c hk hc]
        exact i1
      · intro k a ha
        obtain ⟨a1, r1, r2⟩ := hstep k a ha
        obtain ⟨a2, s1, s2⟩ := i2 k a1 r1
        exact ⟨a2, s1, Nat.le_trans r2 s2⟩
    · rw [apply_changes_cons_stop env g c rest hex]
      refine ⟨?_, hstep⟩
      have := writes_increase_reload_entry fnv1a env g c hk hc []
      rw [List.append_nil] at this
      rw [this]
      rfl

theorem poll_changes_keys {S M : Type} (env : Env S M) :
    ∀ t : HashMap (Asset S M), (∀ k v, (k, v) ∈ t → v.hash = k) →
    (t.map Prod.fst).Nodup → ((poll_changes env t).map FileChange.key).Nodup := by
  intro t
  induction t with
  | nil => intro _ _; exact List.nodup_nil
  | cons e t ih =>
    obtain ⟨k, v⟩ := e
    intro hkey hnd
    simp only [List.map_cons, List.nodup_cons] at hnd
    have ih1 := ih (fun k1 v1 h => hkey k1 v1 (List.mem_cons_of_mem _ h)) hnd.2
    cases hst : is_stale env v with
    | false =>
      have : poll_changes env ((k, v) :: t) = poll_changes env t := by
        simp only [poll_changes, List.filterMap_cons, poll_entry_fresh env v hst]
      rw [this]; exact ih1
    | true =>
      have : poll_changes env ((k, v) :: t) =
          { key := v.hash, modtime := env.os_file_modtime v.name } :: poll_changes env t := by
        simp only [poll_changes, List.filterMap_cons, poll_entry_stale env v hst]
      rw [this, List.map_cons, List.nodup_cons]
      refine ⟨?_, ih1⟩
      intro hmem
      obtain ⟨c, hc, hck⟩ := List.mem_map.mp hmem
      obtain ⟨k1, v1, hm, _, rfl⟩ := mem_poll_changes env t c hc
      simp only at hck
      have h1 : v1.hash = k1 := hkey k1 v1 (List.mem_cons_of_mem _ hm)
      have h2 : v.hash = k := hkey k v (List.mem_cons_self _ _)
      apply hnd.1
      rw [← h2, ← hck, h1]
      exact List.mem_map_of_mem Prod.fst hm

/-- One iteration of the monitor, as an atomic step on a table that satisfies the invariant:
every write stores a modtime greater than the one stored at that moment, and no modtime
decreases. -/
theorem hot_reload_iteration_monotone {S M : Type} (fnv1a : String → Nat) (env : Env S M)
    (signaled : Bool) (g : Assets S M) (hinv : TableInv fnv1a g) :
    writes_increase g (hot_reload_iteration env signaled g).log = true ∧
    (∀ k a, asset_read g k = some a →
      ∃ a1, asset_read (hot_reload_iteration env signaled g).assets k = some a1 ∧
        a.modtime ≤ a1.modtime) := by
  rcases hot_reload_iteration_cases env signaled g with h | h | ⟨_, h⟩ <;> rw [h]
  · exact ⟨rfl, fun k a ha => ⟨a, ha, Nat.le_refl _⟩⟩
  · refine ⟨?_, fun k a ha => ⟨a, ha, Nat.le_refl _⟩⟩
    have := writes_increase_skip _ (poll_log_no_write g.table) g []
    rw [List.append_nil] at this
    rw [this]; rfl
  · have hinv1 := hinv.with_changes (poll_changes env g.table)
    have hlt : ∀ c ∈ poll_changes env g.table, ∀ a,
        asset_read ({ g with changes := poll_changes env g.table } : Assets S M) c.key
          = some a → a.modtime < c.modtime := by
      intro c hc a ha
      obtain ⟨k, v, hm, hst, rfl⟩ := mem_poll_changes env g.table c hc
      have hv := hinv1.read_of_mem hm
      have hkv : v.hash = k := (hinv.2 k v hm).1
      simp only [hkv] at ha
      rw [hv] at ha
      cases ha
      simpa [is_stale] using hst
    obtain ⟨m1, m2⟩ := apply_changes_monotone fnv1a env (poll_changes env g.table) _
      hinv1.keyed (poll_changes_keys env g.table (fun k v h => (hinv.2 k v h).1) hinv.1) hlt
    refine ⟨?_, fun k a ha => m2 k a ha⟩
    simp only
    rw [writes_increase_skip _ (poll_log_no_write g.table),
      writes_increase_table _ g { g with changes := poll_changes env g.table } rfl]
    exact m1

theorem core_step_inv {S M : Type} (fnv1a : String → Nat) (g : Assets S M)
    (op : CoreOp S M) (hinv : TableInv fnv1a g) :
    TableInv fnv1a (core_step fnv1a g op) ∧
    (∀ k a, asset_read g k = some a →
      ∃ a1, asset_read (core_step fnv1a g op) k = some a1 ∧ a.modtime ≤ a1.modtime) := by
  cases op with
  | load env kind path =>
    obtain ⟨h1, h2⟩ := asset_load_frame fnv1a env g kind path
    exact ⟨h2 hinv, fun k a ha => ⟨a, h1 k a ha, Nat.le_refl _⟩⟩
  | cycle env signaled =>
    exact ⟨(hot_reload_iteration_frame fnv1a env signaled g hinv).1,
      (hot_reload_iteration_monotone fnv1a env signaled g hinv).2⟩

theorem core_run_inv {S M : Type} (fnv1a : String → Nat) :
    ∀ (ops : List (CoreOp S M)) (g : Assets S M), TableInv fnv1a g →
    TableInv fnv1a (core_run fnv1a g ops) ∧
    (∀ k a, asset_read g k = some a →
      ∃ a1, asset_read (core_run fnv1a g ops) k = some a1 ∧ a.modtime ≤ a1.modtime) := by
  intro ops
  induction ops with
  | nil => intro g h; exact ⟨h, fun k a ha => ⟨a, ha, Nat.le_refl _⟩⟩
  | cons op ops ih =>
    intro g h
    obtain ⟨s1, s2⟩ := core_step_inv fnv1a g op h
    obtain ⟨i1, i2⟩ := ih (core_step fnv1a g op) s1
    refine ⟨i1, fun k a ha => ?_⟩
    obtain ⟨a1, r1, r2⟩ := s2 k a ha
    obtain ⟨a2, t1, t2⟩ := i2 k a1 r1
    exact ⟨a2, t1, Nat.le_trans r2 t2⟩

/-! ## Modtimes along the interleavings of the loader and the monitor -/

theorem modtime_le_refl {S M : Type} (g : Assets S M) : modtime_le g g :=
  fun _ a h => ⟨a, h, Nat.le_refl _⟩

theorem modtime_le_write {S M : Type} (g : Assets S M) (w : Asset S M)
    (h : ∀ old, asset_read g w.hash = some old → old.modtime ≤ w.modtime) :
    modtime_le g (asset_write g w) := by
  intro k a ha
  by_cases hk : k = w.hash
  · subst hk
    exact ⟨w, asset_read_write_self g w, h a ha⟩
  · exact ⟨a, by rw [asset_read_write_ne g w k hk]; exact ha, Nat.le_refl _⟩

theorem Pending.pending_write {S M : Type} {g : Assets S M} {rest : List FileChange}
    (h : Pending g rest) (w : Asset S M)
    (hw : ∀ c ∈ rest, c.key = w.hash → w.modtime < c.modtime) :
    Pending (asset_write g w) rest := by
  refine ⟨h.1, fun c hc => ?_⟩
  by_cases hk : c.key = w.hash
  · exact ⟨w, by rw [hk]; exact asset_read_write_self g w, hw c hc hk⟩
  · obtain ⟨old, h1, h2⟩ := h.2 c hc
    exact ⟨old, by rw [asset_read_write_ne g w c.key hk]; exact h1, h2⟩

theorem Held.held_write {S M : Type} {fnv1a : String → Nat} {g : Assets S M} {a : Asset S M}
    {rest : List FileChange} (h : Held fnv1a g a rest) (w : Asset S M)
    (hw : a.hash = w.hash → w.modtime < a.modtime) :
    Held fnv1a (asset_write g w) a rest := by
  refine ⟨h.1, h.2.1, ?_⟩
  by_cases hk : a.hash = w.hash
  · exact ⟨w, by rw [hk]; exact asset_read_write_self g w, hw hk⟩
  · obtain ⟨old, h1, h2⟩ := h.2.2
    exact ⟨old, by rw [asset_read_write_ne g w a.hash hk]; exact h1, h2⟩

theorem MonitorInv.monitor_write {S M : Type} {fnv1a : String → Nat} {g : Assets S M}
    {pc : MonitorPc S M} (h : MonitorInv fnv1a g pc) (w : Asset S M)
    (hw : ∀ old m, asset_read g w.hash = some old → old.modtime < m → w.modtime < m) :
    MonitorInv fnv1a (asset_write g w) pc := by
  have hp : ∀ rest, Pending g rest → Pending (asset_write g w) rest := by
    intro rest hr
    refine hr.pending_write w (fun c hc hk => ?_)
    obtain ⟨old, h1, h2⟩ := hr.2 c hc
    exact hw old c.modtime (by rw [← hk]; exact h1) h2
  have hh : ∀ a rest, Held fnv1a g a rest → Held fnv1a (asset_write g w) a rest := by
    intro a rest hr
    refine hr.held_write w (fun hk => ?_)
    obtain ⟨old, h1, h2⟩ := hr.2.2
    exact hw old a.modtime (by rw [← hk]; exact h1) h2
  cases pc with
  | waiting => trivial
  | polling => trivial
  | applying rest => exact hp rest h
  | holding a rest => exact ⟨hh a rest h.1, hp rest h.2⟩
  | reloaded a rest => exact ⟨hh a rest h.1, hp rest h.2⟩
  | stopped e => trivial

theorem asset_read_table {S M : Type} {g g1 : Assets S M} (h : g1.table = g.table) :
    asset_read g1 = asset_read g := by
  funext k
  simp only [asset_read, h]

theorem LoaderInv.loader_table {S M : Type} {fnv1a : String → Nat} {g g1 : Assets S M} {hit : Bool}
    {pc : LoaderPc S M} (h : LoaderInv fnv1a g hit pc) (ht : g1.table = g.table) :
    LoaderInv fnv1a g1 hit pc := by
  cases pc <;> simpa only [LoaderInv, Written, asset_read_table ht] using h

theorem MonitorInv.monitor_table {S M : Type} {fnv1a : String → Nat} {g g1 : Assets S M}
    {pc : MonitorPc S M} (h : MonitorInv fnv1a g pc) (ht : g1.table = g.table) :
    MonitorInv fnv1a g1 pc := by
  cases pc <;> first | trivial | simpa only [MonitorInv, Pending, Held, asset_read_table ht] using h

theorem TableInv.inv_table {S M : Type} {fnv1a : String → Nat} {g g1 : Assets S M}
    (h : TableInv fnv1a g) (ht : g1.table = g.table) : TableInv fnv1a g1 := by
  unfold TableInv at h ⊢
  rw [ht]; exact h

theorem modtime_le_table {S M : Type} {g g1 : Assets S M} (ht : g1.table = g.table) :
    modtime_le g g1 := by
  intro k a h
  exact ⟨a, by rw [asset_read_table ht]; exact h, Nat.le_refl _⟩

/-- A step of the loader keeps the invariant; it lowers no modtime, unless it is the second
write of a load that a write of the apply phase has hit. -/
theorem loader_step_inv {S M : Type} (fnv1a : String → Nat) (env : Env S M) (s : Sys S M)
    (hit : Bool) (h : SysInv fnv1a s hit) :
    SysInv fnv1a (sys_step fnv1a s (.loader env))
      (if second_write s (.loader env) then false else hit) ∧
    ((second_write s (.loader env) && hit) = false →
      modtime_le s.assets (sys_step fnv1a s (.loader env)).assets) := by
  obtain ⟨g, lp, mp⟩ := s
  obtain ⟨ht, hl, hm⟩ := h
  simp only at ht hl hm
  cases lp with
  | idle => exact ⟨⟨ht, hl, hm⟩, fun _ => modtime_le_refl g⟩
  | missed kind filepath key =>
    obtain ⟨h0, h1, h2⟩ := hl
    refine ⟨⟨ht, ⟨h0, rfl, h1, rfl, h2⟩, hm⟩, fun _ => modtime_le_refl g⟩
  | timed kind filepath asset =>
    obtain ⟨h0, h1, h2, h3, h4⟩ := hl
    have hfalse : (if second_write (⟨g, .timed kind filepath asset, mp⟩ : Sys S M)
        (.loader env) then false else hit) = false := by
      simp [second_write, h0]
    rw [hfalse]
    cases kind with
    | LuaRef =>
      have hw : ∀ old m, asset_read g asset.hash = some old → old.modtime < m →
          asset.modtime < m := by
        intro old m ho; rw [h4] at ho; cases ho
      refine ⟨⟨ht.write _ (by simp only; rw [h1, h2]), ?_, hm.monitor_write _ hw⟩,
        fun _ => modtime_le_write g _
          (by intro old ho; simp only at ho; rw [h4] at ho; cases ho)⟩
      exact ⟨h1, h2, h3, ⟨_, asset_read_write_self g _, ⟨fun hc => Bool.noConfusion hc, fun _ => rfl⟩⟩⟩
    | Image =>
      simp only [sys_step, loader_step]
      cases env.image_load filepath with
      | none => exact ⟨⟨ht, rfl, hm⟩, fun _ => modtime_le_refl g⟩
      | some img =>
        refine ⟨⟨ht, ⟨by simp only; rw [h1, h2], ?_, ?_⟩, hm⟩, fun _ => modtime_le_refl g⟩
        · intro hk; simp only at hk; rw [h3] at hk; cases hk
        · intro _; exact ⟨rfl, h4⟩
    | Sprite =>
      simp only [sys_step, loader_step]
      cases env.sprite_data_load filepath with
      | none => exact ⟨⟨ht, rfl, hm⟩, fun _ => modtime_le_refl g⟩
      | some img =>
        refine ⟨⟨ht, ⟨by simp only; rw [h1, h2], ?_, ?_⟩, hm⟩, fun _ => modtime_le_refl g⟩
        · intro hk; simp only at hk; rw [h3] at hk; cases hk
        · intro _; exact ⟨rfl, h4⟩
    | Tilemap =>
      simp only [sys_step, loader_step]
      cases env.tilemap_load filepath with
      | none => exact ⟨⟨ht, rfl, hm⟩, fun _ => modtime_le_refl g⟩
      | some img =>
        refine ⟨⟨ht, ⟨by simp only; rw [h1, h2], ?_, ?_⟩, hm⟩, fun _ => modtime_le_refl g⟩
        · intro hk; simp only at hk; rw [h3] at hk; cases hk
        · intro _; exact ⟨rfl, h4⟩
    | None => exact ⟨⟨ht, rfl, hm⟩, fun _ => modtime_le_refl g⟩
  | lua_written filepath asset =>
    obtain ⟨h1, h2, h3, h4⟩ := hl
    refine ⟨⟨ht, ⟨by simp only; rw [h1, h2], fun _ => h4, ?_⟩, hm⟩, fun _ => modtime_le_refl g⟩
    intro hk; exact absurd h3 hk
  | decoded asset =>
    obtain ⟨h1, h2, h3⟩ := hl
    by_cases hk : asset.kind = .LuaRef
    · have hsw : second_write (⟨g, .decoded asset, mp⟩ : Sys S M) (.loader env) = true := by
        simp [second_write, hk]
      rw [hsw, if_pos rfl]
      obtain ⟨old, ho, hgt, heq⟩ := h2 hk
      have hle : asset.modtime ≤ old.modtime := by
        cases hit with
        | false => have := heq rfl; omega
        | true => have := hgt rfl; omega
      have hw : ∀ old1 m, asset_read g asset.hash = some old1 → old1.modtime < m →
          asset.modtime < m := by
        intro old1 m ho1 hlt; rw [ho] at ho1; cases ho1; omega
      refine ⟨⟨ht.write _ h1, rfl, hm.monitor_write _ hw⟩, fun hsep => ?_⟩
      have hit0 : hit = false := by simpa using hsep
      have heq := heq hit0
      refine modtime_le_write g _ ?_
      intro old1 ho1; rw [ho] at ho1; cases ho1; omega
    · have hsw : second_write (⟨g, .decoded asset, mp⟩ : Sys S M) (.loader env) = false := by
        simp [second_write, hk]
      obtain ⟨hit0, hnone⟩ := h3 hk
      rw [hsw, hit0]
      have hw : ∀ old m, asset_read g asset.hash = some old → old.modtime < m →
          asset.modtime < m := by
        intro old m ho; rw [hnone] at ho; cases ho
      refine ⟨⟨ht.write _ h1, rfl, hm.monitor_write _ hw⟩, fun _ => modtime_le_write g _ ?_⟩
      intro old ho; rw [hnone] at ho; cases ho

theorem Pending.poll {S M : Type} {fnv1a : String → Nat} (env : Env S M) {g : Assets S M}
    (ht : TableInv fnv1a g) : Pending g (poll_changes env g.table) := by
  refine ⟨poll_changes_keys env g.table (fun k v h => (ht.2 k v h).1) ht.1, ?_⟩
  intro c hc
  obtain ⟨k, v, hmem, hst, rfl⟩ := mem_poll_changes env g.table c hc
  have hk : v.hash = k := (ht.2 k v hmem).1
  refine ⟨v, by simp only; rw [hk]; exact ht.read_of_mem hmem, ?_⟩
  simpa [is_stale] using hst

theorem monitor_step_inv {S M : Type} (fnv1a : String → Nat) (env : Env S M)
    (signaled : Bool) (s : Sys S M) (hit : Bool) (h : SysInv fnv1a s hit) :
    SysInv fnv1a (sys_step fnv1a s (.monitor env signaled))
      (hit || apply_write_hits s (.monitor env signaled)) ∧
    modtime_le s.assets (sys_step fnv1a s (.monitor env signaled)).assets := by
  obtain ⟨g, lp, mp⟩ := s
  obtain ⟨ht, hl, hm⟩ := h
  simp only at ht hl hm
  cases mp with
  | waiting =>
    have e : apply_write_hits (⟨g, lp, .waiting⟩ : Sys S M) (.monitor env signaled) = false :=
      rfl
    rw [e, Bool.or_false]
    simp only [sys_step, monitor_step]
    split
    · exact ⟨⟨ht, hl, trivial⟩, modtime_le_refl g⟩
    · split
      · exact ⟨⟨ht, hl, trivial⟩, modtime_le_refl g⟩
      · exact ⟨⟨ht, hl, trivial⟩, modtime_le_refl g⟩
  | polling =>
    have e : apply_write_hits (⟨g, lp, .polling⟩ : Sys S M) (.monitor env signaled) = false :=
      rfl
    rw [e, Bool.or_false]
    have hp := Pending.poll env ht
    simp only [sys_step, monitor_step]
    split
    · have hp1 : MonitorInv fnv1a g (.applying (poll_changes env g.table)) := hp
      exact ⟨⟨ht.inv_table rfl, hl.loader_table rfl, hp1.monitor_table rfl⟩,
        modtime_le_table rfl⟩
    · exact ⟨⟨ht.inv_table rfl, hl.loader_table rfl, trivial⟩, modtime_le_table rfl⟩
  | applying rest =>
    have e : apply_write_hits (⟨g, lp, .applying rest⟩ : Sys S M) (.monitor env signaled)
        = false := rfl
    rw [e, Bool.or_false]
    cases rest with
    | nil => exact ⟨⟨ht, hl, trivial⟩, modtime_le_refl g⟩
    | cons c rest =>
      simp only [sys_step, monitor_step]
      obtain ⟨hnd, hall⟩ := hm
      simp only [List.map_cons, List.nodup_cons] at hnd
      obtain ⟨old, ho, hlt⟩ := hall c (List.mem_cons_self _ _)
      rw [ho]
      have hkey := ht.keyed c.key old ho
      have hpend : Pending g rest :=
        ⟨hnd.2, fun c1 hc1 => hall c1 (List.mem_cons_of_mem _ hc1)⟩
      refine ⟨⟨ht, hl, ⟨?_, ?_, ?_⟩, hpend⟩, modtime_le_refl g⟩
      · simp only; rw [hkey.1, hkey.2]
      · simp only; rw [hkey.1]; exact hnd.1
      · exact ⟨old, by simp only; rw [hkey.1]; exact ho, hlt⟩
  | holding a rest =>
    have e : apply_write_hits (⟨g, lp, .holding a rest⟩ : Sys S M) (.monitor env signaled)
        = false := rfl
    rw [e, Bool.or_false]
    obtain ⟨hh, hp⟩ := hm
    simp only [sys_step, monitor_step]
    split
    · exact ⟨⟨ht, hl, hh, hp⟩, modtime_le_refl g⟩
    · split
      · exact ⟨⟨ht, hl, trivial⟩, modtime_le_refl g⟩
      · exact ⟨⟨ht, hl, hh, hp⟩, modtime_le_refl g⟩
    · split
      · exact ⟨⟨ht, hl, trivial⟩, modtime_le_refl g⟩
      · exact ⟨⟨ht, hl, hh, hp⟩, modtime_le_refl g⟩
    · split
      · exact ⟨⟨ht, hl, trivial⟩, modtime_le_refl g⟩
      · exact ⟨⟨ht, hl, hh, hp⟩, modtime_le_refl g⟩
    · exact ⟨⟨ht, hl, hp⟩, modtime_le_refl g⟩
  | reloaded a rest =>
    obtain ⟨⟨hname, hnotin, old, ho, hlt⟩, hp⟩ := hm
    have hpend : Pending (asset_write g a) rest := by
      refine hp.pending_write a (fun c hc hk => ?_)
      exact absurd (hk ▸ List.mem_map_of_mem FileChange.key hc) hnotin
    have hmono : modtime_le g (asset_write g a) := by
      refine modtime_le_write g a (fun old1 ho1 => ?_)
      rw [ho] at ho1; cases ho1; omega
    have habsent : ∀ k, asset_read g k = none → asset_read (asset_write g a) k = none := by
      intro k hk
      rw [asset_read_write_ne g a k (by intro hka; rw [hka, ho] at hk; cases hk)]
      exact hk
    have hwritten : ∀ asset : Asset S M, Written g hit asset →
        Written (asset_write g a) (hit || decide (some asset.hash = some a.hash)) asset := by
      intro asset hw
      obtain ⟨old1, ho1, hgt, heq⟩ := hw
      by_cases hk : asset.hash = a.hash
      · refine ⟨a, by rw [hk]; exact asset_read_write_self g a, fun _ => ?_, ?_⟩
        · rw [hk, ho] at ho1
          cases ho1
          cases hit with
          | false => have := heq rfl; omega
          | true => have := hgt rfl; omega
        · simp [hk]
      · refine ⟨old1, by rw [asset_read_write_ne g a _ hk]; exact ho1, ?_, ?_⟩
        · simpa [hk] using hgt
        · simpa [hk] using heq
    refine ⟨⟨ht.write a hname, ?_, hpend⟩, hmono⟩
    cases lp with
    | idle => simpa [apply_write_hits, LoaderPc.between_writes, LoaderInv] using hl
    | missed kind filepath key =>
      obtain ⟨h0, h1, h2⟩ := hl
      simp only [apply_write_hits, LoaderPc.between_writes]
      exact ⟨by simpa using h0, h1, habsent _ h2⟩
    | timed kind filepath asset =>
      obtain ⟨h0, h1, h2, h3, h4⟩ := hl
      simp only [apply_write_hits, LoaderPc.between_writes]
      exact ⟨by simpa using h0, h1, h2, h3, habsent _ h4⟩
    | lua_written filepath asset =>
      obtain ⟨h1, h2, h3, h4⟩ := hl
      exact ⟨h1, h2, h3, hwritten asset h4⟩
    | decoded asset =>
      obtain ⟨h1, h2, h3⟩ := hl
      by_cases hk : asset.kind = .LuaRef
      · refine ⟨h1, fun _ => ?_, fun hne => absurd hk hne⟩
        simp only [apply_write_hits, LoaderPc.between_writes, if_pos hk]
        exact hwritten asset (h2 hk)
      · obtain ⟨hit0, hnone⟩ := h3 hk
        refine ⟨h1, fun hc => absurd hc hk, fun _ => ?_⟩
        simp only [apply_write_hits, LoaderPc.between_writes, if_neg hk]
        exact ⟨by simpa using hit0, habsent _ hnone⟩
  | stopped e1 =>
    have e : apply_write_hits (⟨g, lp, .stopped e1⟩ : Sys S M) (.monitor env signaled)
        = false := rfl
    rw [e, Bool.or_false]
    exact ⟨⟨ht, hl, trivial⟩, modtime_le_refl g⟩

/-- Every step keeps the invariant; it lowers no modtime, unless it is the second write of a
load that a write of the apply phase has hit. -/
theorem sys_step_inv {S M : Type} (fnv1a : String → Nat) (s : Sys S M) (hit : Bool)
    (h : SysInv fnv1a s hit) (m : Move S M) :
    SysInv fnv1a (sys_step fnv1a s m) (hit_after s hit m) ∧
    ((second_write s m && hit) = false → modtime_le s.assets (sys_step fnv1a s m).assets) := by
  cases m with
  | load_call kind filepath =>
    have e : hit_after s hit (.load_call kind filepath) = hit := by
      simp [hit_after, second_write, apply_write_hits]
    rw [e]
    obtain ⟨g, lp, mp⟩ := s
    obtain ⟨ht, hl, hm⟩ := h
    cases lp with
    | idle =>
      refine ⟨⟨ht, ?_, hm⟩, fun _ => modtime_le_refl g⟩
      simp only [sys_step, load_call]
      cases hr : asset_read g (fnv1a filepath) with
      | none => exact ⟨hl, rfl, hr⟩
      | some a => exact hl
    | missed _ _ _ => exact ⟨⟨ht, hl, hm⟩, fun _ => modtime_le_refl g⟩
    | timed _ _ _ => exact ⟨⟨ht, hl, hm⟩, fun _ => modtime_le_refl g⟩
    | lua_written _ _ => exact ⟨⟨ht, hl, hm⟩, fun _ => modtime_le_refl g⟩
    | decoded _ => exact ⟨⟨ht, hl, hm⟩, fun _ => modtime_le_refl g⟩
  | loader env =>
    have e : hit_after s hit (.loader env) =
        (if second_write s (.loader env) then false else hit) := by
      simp [hit_after, apply_write_hits]
    rw [e]
    exact loader_step_inv fnv1a env s hit h
  | monitor env signaled =>
    have e : hit_after s hit (.monitor env signaled) =
        (hit || apply_write_hits s (.monitor env signaled)) := by
      simp [hit_after, second_write]
    rw [e]
    exact ⟨(monitor_step_inv fnv1a env signaled s hit h).1,
      fun _ => (monitor_step_inv fnv1a env signaled s hit h).2⟩
  | shutdown =>
    have e : hit_after s hit .shutdown = hit := by
      simp [hit_after, second_write, apply_write_hits]
    rw [e]
    obtain ⟨ht, hl, hm⟩ := h
    exact ⟨⟨ht.inv_table rfl, hl.loader_table rfl, hm.monitor_table rfl⟩,
      fun _ => modtime_le_table rfl⟩

theorem SysInv.init {S M : Type} {fnv1a : String → Nat} {g : Assets S M}
    (h : TableInv fnv1a g) : SysInv fnv1a (sys_init g) false :=
  ⟨h, rfl, trivial⟩

/-- In every schedule in which a write of the apply phase to a key does fall between the two
`asset_write` calls of an `asset_load` of that key, the second of these calls lowers the
modtime `asset_read` returns for the key. -/
theorem modtime_decreases_from {S M : Type} (fnv1a : String → Nat) :
    ∀ (sched : List (Move S M)) (s : Sys S M) (hit : Bool), SysInv fnv1a s hit →
    writes_separated fnv1a s hit sched = false →
    ∃ p m rest k a a1, sched = p ++ m :: rest ∧
      asset_read (sys_run fnv1a s p).assets k = some a ∧
      asset_read (sys_run fnv1a s (p ++ [m])).assets k = some a1 ∧
      a1.modtime < a.modtime := by
  intro sched
  induction sched with
  | nil => intro s hit _ hsep; simp [writes_separated] at hsep
  | cons m ms ih =>
    intro s hit h hsep
    by_cases hbad : (second_write s m && hit) = true
    · simp only [Bool.and_eq_true] at hbad
      obtain ⟨hsw, hhit⟩ := hbad
      obtain ⟨g, lp, mp⟩ := s
      cases m with
      | loader env =>
        cases lp with
        | decoded asset =>
          simp only [second_write, decide_eq_true_eq] at hsw
          obtain ⟨old, ho, hgt, _⟩ := h.2.1.2.1 hsw
          exact ⟨[], .loader env, ms, asset.hash, old, asset, rfl, ho,
            asset_read_write_self g asset, hgt hhit⟩
        | idle => simp [second_write] at hsw
        | missed _ _ _ => simp [second_write] at hsw
        | timed _ _ _ => simp [second_write] at hsw
        | lua_written _ _ => simp [second_write] at hsw
      | load_call _ _ => simp [second_write] at hsw
      | monitor _ _ => simp [second_write] at hsw
      | shutdown => simp [second_write] at hsw
    · have hok : (second_write s m && hit) = false := by simpa using hbad
      simp only [writes_separated, hok, Bool.not_false, Bool.true_and] at hsep
      obtain ⟨h1, _⟩ := sys_step_inv fnv1a s hit h m
      obtain ⟨p, m1, rest, k, a, a1, hs, hr, hr1, hlt⟩ := ih (sys_step fnv1a s m) _ h1 hsep
      refine ⟨m :: p, m1, rest, k, a, a1, by rw [hs]; rfl, ?_, ?_, hlt⟩
      · exact hr
      · exact hr1

/-- The amendment of C8 leaves out no schedule it need not leave out: a schedule in which a
write of the apply phase to a key does fall between the two `asset_write` calls of an
`asset_load` of that key has an initial part, ending with the second of these calls, along
which the modtime of the key decreases. -/
theorem modtime_decreases_otherwise {S M : Type} (fnv1a : String → Nat) (g0 : Assets S M)
    (hinv : TableInv fnv1a g0) (sched : List (Move S M))
    (hsep : writes_separated fnv1a (sys_init g0) false sched = false) :
    ∃ p m rest, sched = p ++ m :: rest ∧ ¬ ModtimeMonotone fnv1a g0 (p ++ [m]) := by
  obtain ⟨p, m, rest, k, a, a1, hs, hr, hr1, hlt⟩ :=
    modtime_decreases_from fnv1a sched (sys_init g0) false (SysInv.init hinv) hsep
  refine ⟨p, m, rest, hs, fun hmono => ?_⟩
  obtain ⟨a2, h2, hle⟩ := hmono p [m] rfl k a hr
  rw [hr1] at h2
  cases h2
  omega

/-! ## The steps make up the calls -/

/-- The steps of the loader, taken with no step of another thread in between and against the
same files, make up `asset_load`. -/
theorem sys_run_asset_load {S M : Type} (fnv1a : String → Nat) (env : Env S M)
    (g : Assets S M) (mp : MonitorPc S M) (kind : AssetKind) (filepath : String) :
    sys_run fnv1a ⟨g, .idle, mp⟩
      [.load_call kind filepath, .loader env, .loader env, .loader env, .loader env]
      = ⟨(asset_load fnv1a env g kind filepath).assets, .idle, mp⟩ := by
  simp only [sys_run, List.foldl_cons, List.foldl_nil, sys_step, load_call, asset_load]
  cases asset_read g (fnv1a filepath) with
  | some a => rfl
  | none =>
    cases kind with
    | None => rfl
    | LuaRef => rfl
    | Image =>
      simp only [loader_step, asset_load_new]
      cases env.image_load filepath <;> rfl
    | Sprite =>
      simp only [loader_step, asset_load_new]
      cases env.sprite_data_load filepath <;> rfl
    | Tilemap =>
      simp only [loader_step, asset_load_new]
      cases env.tilemap_load filepath <;> rfl

theorem sys_run_cons {S M : Type} (fnv1a : String → Nat) (s : Sys S M) (m : Move S M)
    (ms : List (Move S M)) :
    sys_run fnv1a s (m :: ms) = sys_run fnv1a (sys_step fnv1a s m) ms := rfl

/-- The step of the monitor at `switch (a.kind)`, written with `redecode`. -/
theorem monitor_step_holding {S M : Type} (env : Env S M) (signaled : Bool) (g : Assets S M)
    (a0 : Asset S M) (m : Nat) (rest : List FileChange) :
    monitor_step env signaled g (.holding { a0 with modtime := m } rest) =
      if a0.kind = .None then (g, .applying rest)
      else
        match redecode env a0 with
        | some p => (g, .reloaded { a0 with modtime := m, payload := p } rest)
        | none => (g, .stopped .fatal) := by
  obtain ⟨name, hash, modtime, kind, payload⟩ := a0
  cases kind with
  | None => simp [monitor_step]
  | LuaRef => simp [monitor_step, redecode]
  | Image => cases hd : env.image_load name <;> simp [monitor_step, redecode, hd]
  | Sprite => cases hd : env.sprite_data_load name <;> simp [monitor_step, redecode, hd]
  | Tilemap => cases hd : env.tilemap_load name <;> simp [monitor_step, redecode, hd]

theorem sys_step_applying {S M : Type} (fnv1a : String → Nat) (env : Env S M)
    (signaled : Bool) (lp : LoaderPc S M) (g : Assets S M) (c : FileChange)
    (rest : List FileChange) :
    sys_step fnv1a ⟨g, lp, .applying (c :: rest)⟩ (.monitor env signaled) =
      match asset_read g c.key with
      | none => ⟨g, lp, .stopped .assert_failed⟩
      | some a0 => ⟨g, lp, .holding { a0 with modtime := c.modtime } rest⟩ := by
  simp only [sys_step, monitor_step]
  cases asset_read g c.key <;> rfl

theorem sys_step_holding {S M : Type} (fnv1a : String → Nat) (env : Env S M)
    (signaled : Bool) (lp : LoaderPc S M) (g : Assets S M) (a0 : Asset S M) (m : Nat)
    (rest : List FileChange) :
    sys_step fnv1a ⟨g, lp, .holding { a0 with modtime := m } rest⟩ (.monitor env signaled) =
      if a0.kind = .None then ⟨g, lp, .applying rest⟩
      else
        match redecode env a0 with
        | some p => ⟨g, lp, .reloaded { a0 with modtime := m, payload := p } rest⟩
        | none => ⟨g, lp, .stopped .fatal⟩ := by
  simp only [sys_step, monitor_step_holding]
  split
  · rfl
  · cases redecode env a0 <;> rfl

/-- The steps of the monitor in the loop over the changes, taken with no step of another
thread in between and against the same files, make up the apply phase. -/
theorem sys_run_apply_changes {S M : Type} (fnv1a : String → Nat) (env : Env S M)
    (signaled : Bool) (lp : LoaderPc S M) :
    ∀ (cs : List FileChange) (g : Assets S M),
    ∃ n, sys_run fnv1a ⟨g, lp, .applying cs⟩ (List.replicate n (.monitor env signaled))
      = ⟨(apply_changes env g cs).assets, lp, exit_pc (apply_changes env g cs).exit⟩ := by
  intro cs
  induction cs with
  | nil => intro g; exact ⟨1, rfl⟩
  | cons c rest ih =>
    intro g
    cases hr : asset_read g c.key with
    | none =>
      refine ⟨1, ?_⟩
      have hex : (reload_entry env g c).exit ≠ .next := by
        rw [reload_entry_none env g c hr]; intro h; cases h
      rw [apply_changes_cons_stop env g c rest hex, reload_entry_none env g c hr]
      simp only [List.replicate, sys_run_cons, sys_step_applying, hr]
      rfl
    | some a0 =>
      by_cases hnone : a0.kind = .None
      · obtain ⟨n, hn⟩ := ih g
        refine ⟨n + 2, ?_⟩
        have hskip := reload_entry_skip env g c a0 hr hnone
        have hex : (reload_entry env g c).exit = .next := by rw [hskip]
        rw [apply_changes_cons_next env g c rest hex, hskip]
        simp only [List.replicate_succ, sys_run_cons, sys_step_applying, hr, sys_step_holding,
          hnone, if_true]
        exact hn
      · cases hd : redecode env a0 with
        | none =>
          refine ⟨2, ?_⟩
          have hab := reload_entry_abort env g c a0 hr hnone hd
          have hex : (reload_entry env g c).exit ≠ .next := by
            rw [hab]; simp [reload_abort]
          rw [apply_changes_cons_stop env g c rest hex, hab]
          simp only [List.replicate, sys_run_cons, sys_step_applying, hr, sys_step_holding,
            hnone, if_false, hd]
          rfl
        | some p =>
          have hco := reload_entry_commit env g c a0 p hr hnone hd
          have hex : (reload_entry env g c).exit = .next := by rw [hco]; rfl
          obtain ⟨n, hn⟩ := ih (asset_write g { a0 with modtime := c.modtime, payload := p })
          refine ⟨n + 3, ?_⟩
          rw [apply_changes_cons_next env g c rest hex, hco]
          simp only [List.replicate_succ, sys_run_cons, sys_step_applying, hr, sys_step_holding,
            hnone, if_false, hd]
          exact hn

theorem sys_step_waiting {S M : Type} (fnv1a : String → Nat) (env : Env S M)
    (signaled : Bool) (lp : LoaderPc S M) (g : Assets S M) :
    sys_step fnv1a ⟨g, lp, .waiting⟩ (.monitor env signaled) =
      if g.shutdown = true ∨ signaled = true then ⟨g, lp, .stopped .returned⟩
      else ⟨g, lp, .polling⟩ := by
  simp only [sys_step, monitor_step]
  cases g.shutdown <;> cases signaled <;> rfl

theorem sys_step_polling {S M : Type} (fnv1a : String → Nat) (env : Env S M)
    (signaled : Bool) (lp : LoaderPc S M) (g : Assets S M) :
    sys_step fnv1a ⟨g, lp, .polling⟩ (.monitor env signaled) =
      if poll_changes env g.table = [] then
        ⟨{ g with changes := [] }, lp, .waiting⟩
      else
        ⟨{ g with changes := poll_changes env g.table }, lp,
          .applying (poll_changes env g.table)⟩ := by
  simp only [sys_step, monitor_step]
  cases h : poll_changes env g.table with
  | nil => rfl
  | cons c cs => simp

/-- The steps of the monitor, taken with no step of another thread in between and against
the same files, make up one iteration of the loop of `hot_reload_thread`. -/
theorem sys_run_hot_reload_iteration {S M : Type} (fnv1a : String → Nat) (env : Env S M)
    (signaled : Bool) (lp : LoaderPc S M) (g : Assets S M) :
    ∃ n, sys_run fnv1a ⟨g, lp, .waiting⟩ (List.replicate n (.monitor env signaled))
      = ⟨(hot_reload_iteration env signaled g).assets, lp,
          exit_pc (hot_reload_iteration env signaled g).exit⟩ := by
  by_cases hstop : g.shutdown = true ∨ signaled = true
  · refine ⟨1, ?_⟩
    rw [hot_reload_iteration_returned env signaled g hstop]
    simp only [List.replicate, sys_run_cons, sys_step_waiting, hstop, if_true]
    rfl
  · have hs1 : g.shutdown = false := by
      cases h : g.shutdown with
      | false => rfl
      | true => exact absurd (Or.inl h) hstop
    have hsig1 : signaled = false := by
      cases h : signaled with
      | false => rfl
      | true => exact absurd (Or.inr h) hstop
    by_cases hcs : poll_changes env g.table = []
    · refine ⟨2, ?_⟩
      rw [hot_reload_iteration_idle env signaled g hs1 hsig1 hcs]
      simp only [List.replicate, sys_run_cons, sys_step_waiting, hstop, if_false,
        sys_step_polling, hcs, if_true]
      rfl
    · obtain ⟨n, hn⟩ := sys_run_apply_changes fnv1a env signaled lp
        (poll_changes env g.table) { g with changes := poll_changes env g.table }
      refine ⟨n + 2, ?_⟩
      rw [hot_reload_iteration_apply env signaled g hs1 hsig1 hcs]
      simp only [List.replicate_succ, sys_run_cons, sys_step_waiting, hstop, if_false,
        sys_step_polling, hcs]
      exact hn

/-- The run of `sched_apart`: the record of `ship.png` goes from modtime 5 to modtime 7 while
`main.lua` is between its two writes, the record of `main.lua` keeps its modtime 5, and at the
moment the apply phase stands at its `asset_write` the modtime it writes, 7, is greater than
the stored one, 5. -/
theorem sched_apart_run :
    (asset_read (sys_run fnv1a64 (sys_init g_empty) (sched_apart.take 9)).assets
      ship_rec.hash).map (·.modtime) = some 5 ∧
    (sys_run fnv1a64 (sys_init g_empty) (sched_apart.take 9)).loader.between_writes
      = some main_rec.hash ∧
    (sys_run fnv1a64 (sys_init g_empty) (sched_apart.take 11)).monitor
      = .reloaded { ship_rec with modtime := 7, payload := .image ⟨2, 16, 16⟩ } [] ∧
    (asset_read (sys_run fnv1a64 (sys_init g_empty) (sched_apart.take 12)).assets
      ship_rec.hash).map (·.modtime) = some 7 ∧
    (sys_run fnv1a64 (sys_init g_empty) (sched_apart.take 12)).loader.between_writes
      = some main_rec.hash ∧
    (sys_run fnv1a64 (sys_init g_empty) sched_apart).assets.table
      = [(ship_rec.hash, { ship_rec with modtime := 7, payload := .image ⟨2, 16, 16⟩ }),
          (main_rec.hash, main_rec)] ∧
    (sys_run fnv1a64 (sys_init g_empty) sched_apart).loader = .idle ∧
    (sys_run fnv1a64 (sys_init g_empty) sched_apart).monitor = .waiting := by
  decide

/-- The run of `sched_late`: the monitor polls `main.lua` between the two writes of its load
and writes it after the second; the modtime of the record goes from 5 to 7. -/
theorem sched_late_run :
    writes_separated fnv1a64 (sys_init g_empty) false sched_late = true ∧
    (asset_read (sys_run fnv1a64 (sys_init g_empty) (sched_late.take 3)).assets
      main_rec.hash) = some main_rec0 ∧
    (sys_run fnv1a64 (sys_init g_empty) (sched_late.take 6)).monitor
      = .holding { main_rec0 with modtime := 7 } [] ∧
    (asset_read (sys_run fnv1a64 (sys_init g_empty) (sched_late.take 8)).assets
      main_rec.hash) = some main_rec ∧
    (asset_read (sys_run fnv1a64 (sys_init g_empty) sched_late).assets
      main_rec.hash) = some { main_rec with modtime := 7, payload := .lua_ref 3 } := by
  decide

theorem g_two_inv : TableInv fnv1a64 g_two :=
  (asset_load_frame fnv1a64 env_a _ .Image "ship.png").2
    ((asset_load_frame fnv1a64 env_a g_empty .Image "hull.png").2
      (TableInv.empty fnv1a64 false []))

/-- In `env_b` the only record before `ship.png` in `g_two`, `hull.png`, decodes. -/
theorem g_two_prefix_decodes :
    ∀ k b, (k, b) ∈ [(hull_rec.hash, hull_rec)] → is_stale env_b b = true →
      b.kind ≠ .LuaRef → decode_fails env_b b.kind b.name = false := by
  intro k b h _ _
  simp only [List.mem_singleton, Prod.mk.injEq] at h
  obtain ⟨_, rfl⟩ := h
  decide

theorem hot_reload_takes_effect_witness :
    TableInv fnv1a64 g_two ∧ g_two.shutdown = false ∧
    g_two.table = [(hull_rec.hash, hull_rec)] ++ (ship_rec.hash, ship_rec) :: [] ∧
    is_stale env_b ship_rec = true ∧
    redecode env_b ship_rec = some (.image ⟨2, 16, 16⟩) ∧
    (∀ k b, (k, b) ∈ [(hull_rec.hash, hull_rec)] → is_stale env_b b = true →
      b.kind ≠ .LuaRef → decode_fails env_b b.kind b.name = false) ∧
    (∃ e ∈ (hot_reload_iteration env_b false g_two).log, e.isDecodeOf ship_rec.name = true) ∧
    asset_read (hot_reload_iteration env_b false g_two).assets ship_rec.hash
      = some { ship_rec with modtime := 7, payload := .image ⟨2, 16, 16⟩ } :=
  ⟨g_two_inv, by decide, by decide, by decide, by decide, g_two_prefix_decodes,
    (hot_reload_takes_effect fnv1a64 env_b g_two g_two_inv (by decide)).1
      [(hull_rec.hash, hull_rec)] ship_rec [] (.image ⟨2, 16, 16⟩) (by decide) (by decide)
      (by decide) g_two_prefix_decodes⟩

/-- C4 fails as stated: a batch that stops before it comes to a changed record.  The table
holds `hull.png` and `ship.png`, both with modtime 5; both files now have modtime 7,
`ship.png` decodes, `hull.png` does not.  The iteration stops with a fatal error at
`hull.png`: no decoder is called on `ship.png`, and `asset_read` still returns its record with
modtime 5 and the old payload. -/
theorem hot_reload_takes_effect_counterexample :
    TableInv fnv1a64 g_two ∧ g_two.shutdown = false ∧
    asset_read g_two ship_rec.hash = some ship_rec ∧ ship_rec.modtime = 5 ∧
    env_c.os_file_modtime ship_rec.name = 7 ∧
    redecode env_c ship_rec = some (.image ⟨2, 16, 16⟩) ∧
    (hot_reload_iteration env_c false g_two).exit = .fatal ∧
    (hot_reload_iteration env_c false g_two).log.all
      (fun e => !e.isDecodeOf ship_rec.name) = true ∧
    asset_read (hot_reload_iteration env_c false g_two).assets ship_rec.hash
      = some ship_rec ∧
    ¬ HotReloadTakesEffect env_c g_two ship_rec (.image ⟨2, 16, 16⟩) := by
  refine ⟨g_two_inv, by decide, by decide, by decide, by decide, by decide, by decide,
    by decide, by decide, ?_⟩
  unfold HotReloadTakesEffect
  decide

theorem reload_failure_fatal_witness :
    hull_rec.kind ≠ .LuaRef ∧
    asset_read g_two hull_rec.hash = some hull_rec ∧
    decode_fails env_c hull_rec.kind hull_rec.name = true ∧
    (apply_changes env_c g_two [⟨hull_rec.hash, 7⟩, ⟨ship_rec.hash, 7⟩]).exit = .fatal ∧
    (apply_changes env_c g_two [⟨hull_rec.hash, 7⟩, ⟨ship_rec.hash, 7⟩]).log.getLast?
      = some (.fatal_error ("failed to hot reload: " ++ hull_rec.name)) ∧
    (apply_changes env_c g_two [⟨hull_rec.hash, 7⟩, ⟨ship_rec.hash, 7⟩]).log.all
      (fun e => !e.isWrite) = true ∧
    (apply_changes env_c g_two [⟨hull_rec.hash, 7⟩, ⟨ship_rec.hash, 7⟩]).log
      = (reload_entry env_c g_two ⟨hull_rec.hash, 7⟩).log ∧
    (apply_changes env_c g_two [⟨hull_rec.hash, 7⟩, ⟨ship_rec.hash, 7⟩]).assets = g_two :=
  ⟨by decide, by decide, by decide,
    reload_failure_fatal env_c g_two ⟨hull_rec.hash, 7⟩ [⟨ship_rec.hash, 7⟩] hull_rec
      (by decide) (by decide) (by decide)⟩

/-- C6 fails as stated for the kind `LuaRef`.  The table holds `main.lua`; re-decoding it
fails (`luax_require_script` returns `LUA_REFNIL`).  The apply phase raises no fatal error:
it writes the record with the new modtime and the nil reference and goes on. -/
theorem reload_failure_fatal_counterexample :
    asset_read g_lua main_rec.hash = some main_rec ∧
    decode_fails env_c main_rec.kind main_rec.name = true ∧
    (apply_changes env_c g_lua [⟨main_rec.hash, 7⟩]).exit = .next ∧
    (apply_changes env_c g_lua [⟨main_rec.hash, 7⟩]).log =
      [.luaL_unref (.lua_ref 3), .luax_require_script "main.lua",
        .asset_write { main_rec0 with modtime := 7 }, .printf "reloaded: main.lua\n"] ∧
    asset_read (apply_changes env_c g_lua [⟨main_rec.hash, 7⟩]).assets main_rec.hash
      = some { main_rec0 with modtime := 7 } ∧
    ¬ ReloadFailureFatal env_c g_lua ⟨main_rec.hash, 7⟩ [] main_rec := by
  refine ⟨by decide, by decide, by decide, by decide, by decide, ?_⟩
  unfold ReloadFailureFatal
  decide

theorem cache_additive_witness :
    TableInv fnv1a64 g_two ∧ asset_read g_two ship_rec.hash = some ship_rec ∧
    (∃ a1,
      asset_read (asset_load fnv1a64 env_b g_two .LuaRef "main.lua").assets ship_rec.hash
        = some a1 ∧
      a1.hash = ship_rec.hash ∧ a1.name = ship_rec.name ∧ a1.kind = ship_rec.kind) ∧
    (∃ a1,
      asset_read (hot_reload_iteration env_b false g_two).assets ship_rec.hash = some a1 ∧
      a1.hash = ship_rec.hash ∧ a1.name = ship_rec.name ∧ a1.kind = ship_rec.kind) :=
  ⟨g_two_inv, by decide,
    (cache_additive fnv1a64 env_b g_two g_two_inv ship_rec.hash ship_rec (by decide)).1
      .LuaRef "main.lua",
    (cache_additive fnv1a64 env_b g_two g_two_inv ship_rec.hash ship_rec (by decide)).2
      false⟩

theorem shutdown_preempts_polling_witness :
    ((assets_shutdown g_two).shutdown = true ∨ false = true) ∧
    (hot_reload_iteration env_b false (assets_shutdown g_two)).exit = .returned ∧
    (hot_reload_iteration env_b false (assets_shutdown g_two)).log = [] ∧
    (hot_reload_iteration env_b false (assets_shutdown g_two)).assets = assets_shutdown g_two :=
  ⟨Or.inl rfl,
    (shutdown_preempts_polling env_b false (assets_shutdown g_two) (Or.inl rfl)).1,
    (shutdown_preempts_polling env_b false (assets_shutdown g_two) (Or.inl rfl)).2.1,
    (shutdown_preempts_polling env_b false (assets_shutdown g_two) (Or.inl rfl)).2.2.1⟩

/-! ## `reserve` on its own -/

/-- Growth re-linearizes the ring when the byte count of the new block does not wrap.  Let
the channel be full (`len == capacity`), with `front` any index of the ring
(`front < capacity`, so `capacity > 0`) and `back == (front + len) % capacity`, its block
being of `capacity` cells of `sizeof_T` bytes, and let `cap > capacity` with
`sizeof(T) * cap < 2 ^ 64`.  Then `front == back`, `reserve(cap)` returns, and afterwards
`front == 0`, `back == len`, `capacity == cap`, `len` is as before, the new block has `cap`
cells, and for every `i < len` the cell `i` of the new block is the cell
`(front + i) % capacity` of the old one. -/
theorem reserve_relinearizes_in_range {T : Type} (c : Chan T) (sizeof_T cap : Nat)
    (hsz : 0 < sizeof_T) (hbytes : sizeof_T * cap < U64)
    (hdata : c.data.length = c.capacity) (hU : c.capacity < U64)
    (hfull : c.len = c.capacity) (hfront : c.front < c.capacity)
    (hback : c.back = (c.front + c.len) % c.capacity) (hcap : c.capacity < cap) :
    c.back = c.front ∧
    ∃ c1, c.reserve sizeof_T cap = .ok c1 ∧ c1.front = 0 ∧ c1.back = c.len ∧
      c1.capacity = cap ∧ c1.len = c.len ∧ c1.data.length = cap ∧
      ∀ i, i < c.len → c1.data[i]? = c.data[(c.front + i) % c.capacity]? := by
  have hb : c.back = c.front := by
    rw [hback, hfull, Nat.add_mod_right, Nat.mod_eq_of_lt hfront]
  refine ⟨hb, _,
    Chan.reserve_data c sizeof_T cap hsz hbytes hdata hcap hU (Nat.le_of_lt hfront) hb,
    rfl, rfl, rfl, rfl, ?_, ?_⟩
  · simp only [List.length_append, List.length_drop, List.length_take, List.length_replicate,
      hdata]
    omega
  · intro i hi
    simp only
    rw [rotate_getElem? _ _ _ _ (by omega) (by omega), hdata]

/-- A run of the re-linearization: the ring of 8-byte items wrapped at `front = 2` comes out
in queue order at the start of the new block. -/
theorem chan_full_reserve :
    chan_full.reserve 8 16 = .ok
      { data := [some 10, some 11, some 12, some 13, some 14, some 15, some 16, some 17,
          none, none, none, none, none, none, none, none]
        front := 0, back := 8, len := 8, capacity := 16 } := by
  rfl

/-- C11 at the failing input.  Ten sends and two receives of 8-byte items on the
zero-initialised `Chan` give the full state `chan_full` (capacity 8, `front == back == 2`,
`len == 8`).  For `cap = 2 ^ 61`, a `u64` greater than the capacity, the byte count
`sizeof(T) * cap` is `2 ^ 64`, which wraps to 0: `mem_alloc` gives a block of no cell, the
first `memcpy` of `reserve` writes the 48 bytes of the cells `2 .. 7` of the old block past
it, and `reserve(cap)` ends in the fault `out_of_bounds` instead of the state with
`capacity == cap` and the ring re-linearized. -/
theorem reserve_wraps_allocation :
    (Chan.run 8 ({} : Chan Nat) (chan_full_ops)).toOption = some (chan_full, [8, 9]) ∧
    chan_full.len = chan_full.capacity ∧ 0 < chan_full.capacity ∧
    chan_full.front = chan_full.back ∧ chan_full.front < chan_full.capacity ∧
    chan_full.data.length = chan_full.capacity ∧
    chan_full.capacity < 2 ^ 61 ∧ 2 ^ 61 < U64 ∧
    u64_mul 8 (2 ^ 61) = 0 ∧
    mem_alloc Nat 8 (u64_mul 8 (2 ^ 61)) = [] ∧
    u64_mul 8 (u64_sub chan_full.capacity chan_full.front) = 48 ∧
    chan_full.reserve 8 (2 ^ 61) = .error .out_of_bounds := by
  refine ⟨by decide, by decide, by decide, by decide, by decide, by decide, by decide,
    by decide, by decide, by decide, by decide, rfl⟩

/-- In a well-formed state that is full or empty, the two copies of `reserve` move
`capacity` cells in all, which is less than any `cap` that `reserve` does not refuse. -/
theorem reserve_copies_fit {T : Type} (c : Chan T) (cap : Nat)
    (hfront : c.front < c.capacity) (hback : c.back = (c.front + c.len) % c.capacity)
    (hstate : c.len = c.capacity ∨ c.len = 0) (hcap : c.capacity < cap) :
    (c.capacity - c.front) + c.back ≤ cap := by
  have hb : c.back = c.front := by
    rcases hstate with h | h
    · rw [hback, h, Nat.add_mod_right, Nat.mod_eq_of_lt hfront]
    · rw [hback, h, Nat.add_zero, Nat.mod_eq_of_lt hfront]
  omega

/-- In a well-formed state the two copies of `reserve` move `capacity + len` cells when the
queue is not empty and not wrapped (`front < back`), and less than `capacity` cells when it is
wrapped (`back < front`). -/
theorem reserve_copies_count {T : Type} (c : Chan T)
    (hfront : c.front < c.capacity) (hback : c.back = (c.front + c.len) % c.capacity)
    (hlen : c.len ≤ c.capacity) :
    (c.front < c.back → (c.capacity - c.front) + c.back = c.capacity + c.len) ∧
    (c.back < c.front → (c.capacity - c.front) + c.back < c.capacity) := by
  rw [mod_wrap (by omega)] at hback
  split at hback <;> constructor <;> intro h <;> omega

/-- C14 at the failing input.  Three sends of 8-byte items into the zero-initialised `Chan`
give the well-formed state `chan3` (capacity 8, `front = 0`, `back = 3`, `len = 3`).  For
`cap = 9`, which is greater than the capacity, the two copies of `reserve` move
`(8 - 0) + 3 = 11` cells: the second `memcpy` writes the cells 8, 9 and 10 of a block of
9 cells, and `reserve(9)` ends in the fault `out_of_bounds`. -/
theorem reserve_overflows_new_buffer :
    (Chan.run 8 ({} : Chan Nat) [.send 0, .send 1, .send 2]).toOption = some (chan3, []) ∧
    chan3.front < chan3.capacity ∧
    chan3.back = (chan3.front + chan3.len) % chan3.capacity ∧
    chan3.len ≤ chan3.capacity ∧ chan3.data.length = chan3.capacity ∧
    chan3.capacity < 9 ∧
    ¬ ((chan3.capacity - chan3.front) + chan3.back ≤ 9) ∧
    u64_sub chan3.capacity chan3.front + chan3.back = 11 ∧
    (memcpy 8 (mem_alloc Nat 8 (u64_mul 8 9)) 0 chan3.data chan3.front
      (u64_mul 8 (u64_sub chan3.capacity chan3.front))).toOption.isSome = true ∧
    chan3.reserve 8 9 = .error .out_of_bounds := by
  refine ⟨by decide, by decide, by decide, by decide, by decide, by decide, by decide,
    by decide, by decide, rfl⟩

/-! ## A cache hit -/

/-- C15. A cache hit ignores the requested kind: if the key of `path` is in the table, with
record `a`, then for every requested `kind` the call `asset_load(kind, path)` returns `true`
with `a` as it is stored (so with the stored kind), makes no call at all (no decoder, no
modtime query, no table write) and leaves the table as it is. -/
theorem cache_hit_ignores_kind {S M : Type} (fnv1a : String → Nat) (env : Env S M)
    (g : Assets S M) (kind : AssetKind) (path : String) (a : Asset S M)
    (hhit : asset_read g (fnv1a path) = some a) :
    (asset_load fnv1a env g kind path).out = some a ∧
    (asset_load fnv1a env g kind path).log = [] ∧
    (asset_load fnv1a env g kind path).assets = g := by
  rw [asset_load_hit fnv1a env g kind path a hhit]
  exact ⟨rfl, rfl, rfl⟩

theorem cache_hit_ignores_kind_witness :
    asset_read g_two (fnv1a64 "ship.png") = some ship_rec ∧
    ship_rec.kind = .Image ∧
    (asset_load fnv1a64 env_c g_two .LuaRef "ship.png").out = some ship_rec ∧
    (asset_load fnv1a64 env_c g_two .LuaRef "ship.png").log = [] ∧
    (asset_load fnv1a64 env_c g_two .LuaRef "ship.png").assets = g_two :=
  ⟨by decide, by decide,
    cache_hit_ignores_kind fnv1a64 env_c g_two .LuaRef "ship.png" ship_rec (by decide)⟩

/-! ## The normalisation loop of `frame()` -/

theorem frame_fuzz_eq : frame_fuzz = 100000 := by decide

/-- With `target == fuzz` the condition of the loop holds for every accumulator. -/
theorem frame_normalise_cond_fuzz (accumulator : Nat) :
    frame_normalise_cond 100000 accumulator = true := by
  have h : u64_sub 100000 frame_fuzz = 0 := by decide
  simp [frame_normalise_cond, h]

/-- C16 at the failing input.  A configured `target_fps` of 10000 gives
`target_ticks = 100000`, which is `fuzz`.  Then `target - fuzz` is 0, the condition
`accumulator >= target - fuzz` holds whatever the accumulator is, and the loop is never left:
it is still running after any number of evaluations of its condition, for every value of the
accumulator. -/
theorem frame_normalise_hangs :
    target_ticks_of_fps 10000 = 100000 ∧ 0 < target_ticks_of_fps 10000 ∧
    ∀ fuel accumulator,
      frame_normalise fuel (target_ticks_of_fps 10000) accumulator = none := by
  have ht : target_ticks_of_fps 10000 = 100000 := by decide
  refine ⟨ht, by decide, ?_⟩
  rw [ht]
  intro fuel
  induction fuel with
  | zero => intro _; rfl
  | succ n ih =>
    intro accumulator
    simp only [frame_normalise, frame_normalise_cond_fuzz, if_true]
    exact ih _

/-- Everywhere else the loop is left: if `target - fuzz` and `target + fuzz` are not 0 in
`u64` arithmetic (that is, `target` is neither `100000` nor `2 ^ 64 - 100000`), the loop
leaves some value in the accumulator after at most `accumulator + 2` evaluations of its
condition. -/
theorem frame_normalise_terminates (target : Nat)
    (hlow : u64_sub target frame_fuzz ≠ 0) (hstep : u64_add target frame_fuzz ≠ 0) :
    ∀ accumulator, accumulator < U64 →
      ∃ r, frame_normalise (accumulator + 2) target accumulator = some r := by
  have hs : u64_add target frame_fuzz < U64 := Nat.mod_lt _ (by unfold U64; norm_num)
  have hzero : ∀ n, frame_normalise (n + 1) target 0 = some 0 := by
    intro n
    have : frame_normalise_cond target 0 = false := by
      simp only [frame_normalise_cond, decide_eq_false_iff_not]
      omega
    simp only [frame_normalise, this]
    rfl
  have hmono : ∀ n acc r, frame_normalise n target acc = some r →
      frame_normalise (n + 1) target acc = some r := by
    intro n
    induction n with
    | zero => intro acc r h; simp [frame_normalise] at h
    | succ n ih =>
      intro acc r h
      rw [frame_normalise] at h ⊢
      split at h
      · rename_i hc; rw [if_pos hc]; exact ih _ _ h
      · rename_i hc; rw [if_neg hc]; exact h
  have hmono2 : ∀ m n acc r, n ≤ m → frame_normalise n target acc = some r →
      frame_normalise m target acc = some r := by
    intro m
    induction m with
    | zero =>
      intro n acc r hn h
      have : n = 0 := by omega
      rw [this] at h; exact h
    | succ m ih =>
      intro n acc r hn h
      by_cases hnm : n = m + 1
      · rw [← hnm]; exact h
      · exact hmono m acc r (ih n acc r (by omega) h)
  intro accumulator
  induction accumulator using Nat.strong_induction_on with
  | _ acc ih =>
    intro hacc
    by_cases hc : frame_normalise_cond target acc = true
    · rw [frame_normalise, if_pos hc]
      unfold frame_normalise_body
      by_cases hlt : acc < u64_add target frame_fuzz
      · rw [if_pos hlt]
        exact ⟨0, hzero acc⟩
      · rw [if_neg hlt, u64_sub_eq (by omega) hacc]
        obtain ⟨r, hr⟩ := ih (acc - u64_add target frame_fuzz) (by omega) (by omega)
        exact ⟨r, hmono2 _ _ _ _ (by omega) hr⟩
    · rw [frame_normalise, if_neg hc]
      exact ⟨acc, rfl⟩

/-! ## The polling phase and the assertion of the apply phase -/

theorem poll_changes_eq {S M : Type} (env : Env S M) (t : HashMap (Asset S M)) :
    poll_changes env t =
      (t.filter fun kv => is_stale env kv.2).map fun kv =>
        { key := kv.2.hash, modtime := env.os_file_modtime kv.2.name } := by
  induction t with
  | nil => rfl
  | cons e t ih =>
    cases hst : is_stale env e.2 with
    | false =>
      rw [List.filter_cons_of_neg (by simp [hst]), ← ih]
      simp only [poll_changes, List.filterMap_cons, poll_entry_fresh env e.2 hst]
    | true =>
      rw [List.filter_cons_of_pos (by simp [hst]), List.map_cons, ← ih]
      simp only [poll_changes, List.filterMap_cons, poll_entry_stale env e.2 hst]

theorem reload_entry_changes {S M : Type} (env : Env S M) (g : Assets S M)
    (c : FileChange) :
    (reload_entry env g c).assets.changes = g.changes ∧
    (reload_entry env g c).assets.shutdown = g.shutdown := by
  cases hr : asset_read g c.key with
  | none => rw [reload_entry_none env g c hr]; exact ⟨rfl, rfl⟩
  | some a0 =>
    by_cases hnone : a0.kind = .None
    · rw [reload_entry_skip env g c a0 hr hnone]; exact ⟨rfl, rfl⟩
    · cases hd : redecode env a0 with
      | none => rw [reload_entry_abort env g c a0 hr hnone hd]; exact ⟨rfl, rfl⟩
      | some p => rw [reload_entry_commit env g c a0 p hr hnone hd]; exact ⟨rfl, rfl⟩

theorem apply_changes_changes {S M : Type} (env : Env S M) :
    ∀ (cs : List FileChange) (g : Assets S M),
    (apply_changes env g cs).assets.changes = g.changes ∧
    (apply_changes env g cs).assets.shutdown = g.shutdown := by
  intro cs
  induction cs with
  | nil => intro g; exact ⟨rfl, rfl⟩
  | cons c rest ih =>
    intro g
    obtain ⟨h1, h2⟩ := reload_entry_changes env g c
    by_cases hex : (reload_entry env g c).exit = .next
    · rw [apply_changes_cons_next env g c rest hex]
      obtain ⟨i1, i2⟩ := ih (reload_entry env g c).assets
      exact ⟨i1.trans h1, i2.trans h2⟩
    · rw [apply_changes_cons_stop env g c rest hex]
      exact ⟨h1, h2⟩

/-- C12. Polling computes exactly the drifted set.  For every table and every file-modtime
function, in an iteration of the monitor that is not preempted: (1) the change list the
polling phase builds has, in the order of the table, one entry
`{key = record.hash, modtime = observed modtime}` for every entry of the table whose record has
an observed file modtime strictly greater than its stored modtime, and no other entry;
(2) that list is what `g_assets.changes` holds at the end of the iteration; (3) the entries the
change list held before the iteration have no influence on it; (4) if the list is empty, the
iteration ends after the polling phase: its only calls are the modtime queries, and the table
and the shutdown flag are as they were. -/
theorem polling_computes_drifted_set {S M : Type} (env : Env S M) (g : Assets S M)
    (hrun : g.shutdown = false) :
    poll_changes env g.table =
      ((g.table.filter fun kv => decide (env.os_file_modtime kv.2.name > kv.2.modtime)).map
        fun kv => { key := kv.2.hash, modtime := env.os_file_modtime kv.2.name }) ∧
    (hot_reload_iteration env false g).assets.changes = poll_changes env g.table ∧
    (∀ old, hot_reload_iteration env false { g with changes := old }
      = hot_reload_iteration env false g) ∧
    (poll_changes env g.table = [] →
      (hot_reload_iteration env false g).exit = .next ∧
      (hot_reload_iteration env false g).log = poll_log g.table ∧
      (hot_reload_iteration env false g).assets.table = g.table ∧
      (hot_reload_iteration env false g).assets.shutdown = g.shutdown) := by
  refine ⟨poll_changes_eq env g.table, ?_, ?_, ?_⟩
  · by_cases hcs : poll_changes env g.table = []
    · rw [hot_reload_iteration_idle env false g hrun rfl hcs, hcs]
    · rw [hot_reload_iteration_apply env false g hrun rfl hcs]
      exact (apply_changes_changes env _ _).1
  · intro old
    by_cases hcs : poll_changes env g.table = []
    · rw [hot_reload_iteration_idle env false g hrun rfl hcs,
        hot_reload_iteration_idle env false { g with changes := old } hrun rfl hcs]
    · rw [hot_reload_iteration_apply env false g hrun rfl hcs,
        hot_reload_iteration_apply env false { g with changes := old } hrun rfl hcs]
  · intro hcs
    rw [hot_reload_iteration_idle env false g hrun rfl hcs]
    exact ⟨rfl, rfl, rfl, rfl⟩

theorem polling_computes_drifted_set_witness :
    g_two.shutdown = false ∧
    poll_changes env_b g_two.table =
      ((g_two.table.filter fun kv =>
          decide (env_b.os_file_modtime kv.2.name > kv.2.modtime)).map
        fun kv => { key := kv.2.hash, modtime := env_b.os_file_modtime kv.2.name }) ∧
    (hot_reload_iteration env_b false g_two).assets.changes = poll_changes env_b g_two.table ∧
    (hot_reload_iteration env_b false { g_two with changes := [⟨1, 2⟩] }
      = hot_reload_iteration env_b false g_two) ∧
    poll_changes env_a g_two.table = [] ∧
    (hot_reload_iteration env_a false g_two).exit = .next ∧
    (hot_reload_iteration env_a false g_two).log = poll_log g_two.table ∧
    (hot_reload_iteration env_a false g_two).assets.table = g_two.table ∧
    (hot_reload_iteration env_a false g_two).assets.shutdown = g_two.shutdown :=
  ⟨by decide, (polling_computes_drifted_set env_b g_two (by decide)).1,
    (polling_computes_drifted_set env_b g_two (by decide)).2.1,
    (polling_computes_drifted_set env_b g_two (by decide)).2.2.1 [⟨1, 2⟩],
    by decide,
    (polling_computes_drifted_set env_a g_two (by decide)).2.2.2 (by decide)⟩

/-- The polling phase on the table of `hull.png` and `ship.png` (stored modtime 5): with the
files at modtime 7 both records are in the change list, with the files at modtime 5 none
is. -/
theorem poll_changes_g_two :
    poll_changes env_b g_two.table = [⟨hull_rec.hash, 7⟩, ⟨ship_rec.hash, 7⟩] ∧
    poll_changes env_a g_two.table = [] := by
  decide

theorem reload_entry_no_assert {S M : Type} (env : Env S M) (g : Assets S M)
    (c : FileChange) (a : Asset S M) (hr : asset_read g c.key = some a) :
    (reload_entry env g c).exit ≠ .assert_failed := by
  by_cases hnone : a.kind = .None
  · rw [reload_entry_skip env g c a hr hnone]; simp
  · cases hd : redecode env a with
    | none => rw [reload_entry_abort env g c a hr hnone hd]; simp [reload_abort]
    | some p => rw [reload_entry_commit env g c a p hr hnone hd]; simp [reload_commit]

/-- The apply phase does not fail its assertion if every change has its key in the table. -/
theorem apply_changes_no_assert {S M : Type} (fnv1a : String → Nat) (env : Env S M) :
    ∀ (cs : List FileChange) (g : Assets S M), Keyed fnv1a g →
    (∀ c ∈ cs, ∃ a, asset_read g c.key = some a) →
    (apply_changes env g cs).exit ≠ .assert_failed := by
  intro cs
  induction cs with
  | nil => intro g _ _; simp [apply_changes]
  | cons c rest ih =>
    intro g hk hcs
    obtain ⟨a, ha⟩ := hcs c (List.mem_cons_self _ _)
    have hno := reload_entry_no_assert env g c a ha
    by_cases hex : (reload_entry env g c).exit = .next
    · rw [apply_changes_cons_next env g c rest hex]
      apply ih _ (reload_entry_frame fnv1a env g c hk).1
      intro c1 hc1
      obtain ⟨a1, ha1⟩ := hcs c1 (List.mem_cons_of_mem _ hc1)
      obtain ⟨a2, h2, _⟩ := reload_entry_identity fnv1a env g c hk c1.key a1 ha1
      exact ⟨a2, h2⟩
    · rw [apply_changes_cons_stop env g c rest hex]
      exact hno

theorem TableInv.of_empty {S M : Type} (fnv1a : String → Nat) (g : Assets S M)
    (h : g.table = []) : TableInv fnv1a g := by
  refine ⟨by rw [h]; exact List.nodup_nil, ?_⟩
  intro k a hm
  rw [h] at hm
  exact absurd hm (List.not_mem_nil _)

/-- C13. The assertion of the apply phase is valid.  Let the table be reached from the empty
table by any sequence of calls of `asset_load` and iterations of the monitor, against any
files.  Then every record is stored under the key equal to its own `hash`; for every change
the polling phase produces, against any files, `asset_read(change.key)` succeeds; and no
iteration of the monitor ends with `assert(exists)` failing. -/
theorem apply_assert_valid {S M : Type} (fnv1a : String → Nat) (g0 : Assets S M)
    (h0 : g0.table = []) (ops : List (CoreOp S M)) :
    (∀ k a, (k, a) ∈ (core_run fnv1a g0 ops).table → a.hash = k) ∧
    (∀ env, ∀ c ∈ poll_changes env (core_run fnv1a g0 ops).table,
      ∃ a, asset_read (core_run fnv1a g0 ops) c.key = some a) ∧
    (∀ env signaled,
      (hot_reload_iteration env signaled (core_run fnv1a g0 ops)).exit ≠ .assert_failed) := by
  have hinv := (core_run_inv fnv1a ops g0 (TableInv.of_empty fnv1a g0 h0)).1
  have hpoll : ∀ env, ∀ c ∈ poll_changes env (core_run fnv1a g0 ops).table,
      ∃ a, asset_read (core_run fnv1a g0 ops) c.key = some a := by
    intro env c hc
    obtain ⟨k, v, hm, _, rfl⟩ := mem_poll_changes env _ c hc
    refine ⟨v, ?_⟩
    simp only [(hinv.2 k v hm).1]
    exact hinv.read_of_mem hm
  refine ⟨fun k a hm => (hinv.2 k a hm).1, hpoll, ?_⟩
  intro env signaled
  rcases hot_reload_iteration_cases env signaled (core_run fnv1a g0 ops) with h | h | ⟨_, h⟩
  · rw [h]; simp
  · rw [h]; simp
  · rw [h]
    exact apply_changes_no_assert fnv1a env _ _
      (hinv.with_changes _).keyed (fun c hc => hpoll env c hc)

theorem apply_assert_valid_witness :
    g_empty.table = [] ∧
    (hull_rec.hash, hull_rec) ∈ (core_run fnv1a64 g_empty
      [.load env_a .Image "hull.png", .load env_a .LuaRef "main.lua"]).table ∧
    hull_rec.hash = hull_rec.hash ∧
    (⟨main_rec.hash, 7⟩ : FileChange) ∈ poll_changes env_c (core_run fnv1a64 g_empty
      [.load env_a .Image "hull.png", .load env_a .LuaRef "main.lua"]).table ∧
    (∃ a, asset_read (core_run fnv1a64 g_empty
      [.load env_a .Image "hull.png", .load env_a .LuaRef "main.lua"])
        (⟨main_rec.hash, 7⟩ : FileChange).key = some a) ∧
    (hot_reload_iteration env_c false (core_run fnv1a64 g_empty
      [.load env_a .Image "hull.png", .load env_a .LuaRef "main.lua"])).exit
        ≠ .assert_failed :=
  ⟨rfl, by decide,
    (apply_assert_valid fnv1a64 g_empty rfl
      [.load env_a .Image "hull.png", .load env_a .LuaRef "main.lua"]).1
      hull_rec.hash hull_rec (by decide),
    by decide,
    (apply_assert_valid fnv1a64 g_empty rfl
      [.load env_a .Image "hull.png", .load env_a .LuaRef "main.lua"]).2.1 env_c
      ⟨main_rec.hash, 7⟩ (by decide),
    (apply_assert_valid fnv1a64 g_empty rfl
      [.load env_a .Image "hull.png", .load env_a .LuaRef "main.lua"]).2.2 env_c false⟩

/-- The run of the witness of the assertion: after the two loads, an iteration of the monitor
against newer files reads both records and goes through; against files of which `hull.png`
is broken it stops at the fatal error, not at the assertion. -/
theorem apply_assert_valid_run :
    (core_run fnv1a64 g_empty
      [.load env_a .Image "hull.png", .load env_a .LuaRef "main.lua"]).table
      = [(hull_rec.hash, hull_rec), (main_rec.hash, main_rec)] ∧
    poll_changes env_c (core_run fnv1a64 g_empty
      [.load env_a .Image "hull.png", .load env_a .LuaRef "main.lua"]).table
      = [⟨hull_rec.hash, 7⟩, ⟨main_rec.hash, 7⟩] ∧
    (hot_reload_iteration env_b false (core_run fnv1a64 g_empty
      [.load env_a .Image "hull.png", .load env_a .LuaRef "main.lua"])).exit = .next ∧
    (hot_reload_iteration env_c false (core_run fnv1a64 g_empty
      [.load env_a .Image "hull.png", .load env_a .LuaRef "main.lua"])).exit = .fatal := by
  decide

end Spry
